import Mathlib

/-!
Maze generator: recursive backtracking

A shallow embedding of `class Maze` (src/maze.cpp, repeated in src/main.cpp)
and of `class MazeRenderer` (src/renderer.cpp).

* `grid` is a `std::vector<std::vector<char>>`; it is a `List (List Char)` here.
* `width`, `height` and all coordinates are C++ `int`; they are `Int` here.
  Every coordinate the generator computes is `c + d` with `c` a coordinate on
  the stack and `d ∈ {-2,-1,0,1,2}`; in a run from the all-wall grid `c` is odd
  and below `width` (`height`), so the sum stays inside the `int` range and no
  wrap-around is modelled.
* Indexing a vector outside its bounds is undefined behaviour in C++; every
  grid access of the embedding returns `none` in that case and the failure is
  propagated.
* `std::shuffle` is modelled by its outcome: the loop iteration number `i`
  reads the direction order `sh i`, and the theorems quantify over every
  sequence `sh` of permutations of the four direction vectors.
* The `while` loop is run with fuel (one unit per iteration); the theorems
  state how much fuel is enough.
-/

namespace MazeGen

/-- A grid coordinate or a step vector, `(x, y)`. -/
abbrev Coord := Int × Int

/-- The data members of `class Maze` (the random generator is replaced by the
shuffle outcomes passed to the generator). -/
structure Maze where
  grid : List (List Char)
  width : Int
  height : Int
deriving DecidableEq

/-- The state of the loop in `generateRecursiveBacktracking`: the maze and the
local `stack` (head of the list = top of the stack). -/
structure GenState where
  maze : Maze
  stack : List Coord
deriving DecidableEq

/-- The read `grid[y][x]`; `none` when the access is outside the vectors. -/
def Maze.cell (m : Maze) (x y : Int) : Option Char :=
  if 0 ≤ y ∧ 0 ≤ x then
    match m.grid[y.toNat]? with
    | some row => row[x.toNat]?
    | none => none
  else none

/-- The write `grid[y][x] = c`; `none` when the access is outside the vectors. -/
def Maze.setCell (m : Maze) (x y : Int) (c : Char) : Option Maze :=
  if 0 ≤ y ∧ 0 ≤ x then
    match m.grid[y.toNat]? with
    | some row =>
      if x.toNat < row.length then
        some { m with grid := m.grid.set y.toNat (row.set x.toNat c) }
      else none
    | none => none
  else none

/-- `Maze::isValid`: the bounds tests are evaluated first (short-circuit `&&`),
the grid is read only when they all succeed. -/
def Maze.isValid (m : Maze) (x y : Int) : Option Bool :=
  if x ≥ 0 ∧ x < m.width ∧ y ≥ 0 ∧ y < m.height then
    match m.cell x y with
    | some c => some (c == '#')
    | none => none
  else some false

/-- `Maze::Maze(int w, int h)`: `grid.assign(h, std::vector<char>(w, '#'))`.
A negative size converts to a huge `size_t` and the allocation throws, which
is `none` here. -/
def Maze.create (w h : Int) : Option Maze :=
  if 0 ≤ w ∧ 0 ≤ h then
    some { grid := List.replicate h.toNat (List.replicate w.toNat '#'), width := w, height := h }
  else none

/-- `Maze::getDimensions`. -/
def Maze.getDimensions (m : Maze) : Int × Int := (m.width, m.height)

/-- `Maze::isPath`. -/
def Maze.isPath (m : Maze) (x y : Int) : Option Bool :=
  if x < 0 ∨ x ≥ m.width ∨ y < 0 ∨ y ≥ m.height then some false
  else
    match m.cell x y with
    | some c => some (c == '.')
    | none => none

/-- The initial contents of `directions`: up, down, left, right with step 2. -/
def directions : List Coord := [(0, -2), (0, 2), (-2, 0), (2, 0)]

/-- The two writes of a carve step from `(x, y)` in direction `(dx, dy)`:
`grid[ny][nx] = '.'` and then `grid[y + dy/2][x + dx/2] = '.'`
(`/` on `int` truncates toward zero). -/
def Maze.carve (m : Maze) (x y dx dy : Int) : Option Maze :=
  match m.setCell (x + dx) (y + dy) '.' with
  | some m1 => m1.setCell (x + Int.tdiv dx 2) (y + Int.tdiv dy 2) '.'
  | none => none

/-- The `for` loop over the shuffled directions with current cell `(x, y)`.
Result `some (m', some (nx, ny))`: the first acceptable candidate was carved
and is to be pushed (`found = true`, `break`); `some (m', none)`: no candidate
was acceptable (`found = false`); `none`: an access outside the grid. -/
def scanDirections (m : Maze) (x y : Int) : List Coord → Option (Maze × Option Coord)
  | [] => some (m, none)
  | (dx, dy) :: rest =>
    match m.isValid (x + dx) (y + dy) with
    | none => none
    | some true =>
      match m.carve x y dx dy with
      | some m2 => some (m2, some (x + dx, y + dy))
      | none => none
    | some false => scanDirections m x y rest

/-- One evaluation of the loop condition and, when the stack is not empty, one
iteration of the `while` body with the shuffle outcome `dirs`. A state with an
empty stack is final and is returned unchanged. -/
def loopStep (dirs : List Coord) (s : GenState) : Option GenState :=
  match s.stack with
  | [] => some s
  | (x, y) :: below =>
    match scanDirections s.maze x y dirs with
    | none => none
    | some (m2, some next) => some { maze := m2, stack := next :: (x, y) :: below }
    | some (m2, none) => some { maze := m2, stack := below }

/-- The statements before the loop: `grid[1][1] = '.'; stack.emplace(1, 1)`. -/
def genStart (m : Maze) : Option GenState :=
  match m.setCell 1 1 '.' with
  | some m1 => some { maze := m1, stack := [(1, 1)] }
  | none => none

/-- The state at the loop-iteration boundary number `n` (after `n` iterations,
fewer if the stack emptied before), iteration `i` using the shuffle outcome
`sh i`. -/
def loopState (sh : Nat → List Coord) (s0 : GenState) : Nat → Option GenState
  | 0 => some s0
  | n + 1 =>
    match loopState sh s0 n with
    | some s => loopStep (sh n) s
    | none => none

/-- `Maze::generateRecursiveBacktracking` run with `fuel` loop iterations at
most: `some m'` when the loop left with an empty stack and final maze `m'`,
`none` on an access outside the grid or when the fuel did not suffice. -/
def generateRecursiveBacktracking (sh : Nat → List Coord) (fuel : Nat) (m : Maze) : Option Maze :=
  match genStart m with
  | none => none
  | some s0 =>
    match loopState sh s0 fuel with
    | some s => if s.stack = [] then some s.maze else none
    | none => none

/-- The program of `main`: construct a `w × h` maze and generate it. -/
def generated (sh : Nat → List Coord) (fuel : Nat) (w h : Int) : Option Maze :=
  match Maze.create w h with
  | some m => generateRecursiveBacktracking sh fuel m
  | none => none

/-- The passage cells of the maze: the in-bounds coordinates whose cell is `'.'`. -/
def Maze.passages (m : Maze) : Finset Coord :=
  (Finset.Ico 0 m.width ×ˢ Finset.Ico 0 m.height).filter (fun p => m.cell p.1 p.2 = some '.')

/-- The number of passage cells. -/
def Maze.passageCount (m : Maze) : Nat := m.passages.card

/-- The unordered pairs of orthogonally adjacent cells of a set `P`, each pair
listed once as `(p, q)` with `q` the right or the lower neighbour of `p`. -/
def adjacentPairsOf (P : Finset Coord) : Finset (Coord × Coord) :=
  (P ×ˢ P).filter
    (fun e => (e.2.1 = e.1.1 + 1 ∧ e.2.2 = e.1.2) ∨ (e.2.1 = e.1.1 ∧ e.2.2 = e.1.2 + 1))

/-- The unordered pairs of orthogonally adjacent passage cells of the maze. -/
def Maze.adjacentPairs (m : Maze) : Finset (Coord × Coord) := adjacentPairsOf m.passages

/-- Whether the iteration run in state `s` with shuffle outcome `dirs` is a
carve step: the `for` loop finds an acceptable candidate and pushes it. -/
def isCarveStep (dirs : List Coord) (s : GenState) : Bool :=
  match s.stack with
  | [] => false
  | (x, y) :: _ =>
    match scanDirections s.maze x y dirs with
    | some (_, some _) => true
    | _ => false

/-- The number of carve steps among the first `n` loop iterations. -/
def carveSteps (sh : Nat → List Coord) (s0 : GenState) : Nat → Nat
  | 0 => 0
  | n + 1 =>
    carveSteps sh s0 n +
      (match loopState sh s0 n with
       | some s => if isCarveStep (sh n) s then 1 else 0
       | none => 0)

/-- Orthogonal (4-neighbour) adjacency of two coordinates. -/
def orthAdjacent (p q : Coord) : Prop :=
  (p.1 = q.1 ∧ (q.2 = p.2 + 1 ∨ p.2 = q.2 + 1)) ∨ (p.2 = q.2 ∧ (q.1 = p.1 + 1 ∨ p.1 = q.1 + 1))

instance (p q : Coord) : Decidable (orthAdjacent p q) := by
  unfold orthAdjacent; infer_instance

/-- A path of passage cells: consecutive entries are orthogonally adjacent and
every entry is a cell holding `'.'`. -/
def Maze.isPassagePath (m : Maze) (l : List Coord) : Prop :=
  l.Chain' orthAdjacent ∧ ∀ c ∈ l, m.cell c.1 c.2 = some '.'

/-- Cell `q` is reachable from cell `p` by a path of orthogonally adjacent
passage cells. -/
def Maze.reachable (m : Maze) (p q : Coord) : Prop :=
  ∃ l : List Coord, l.head? = some p ∧ l.getLast? = some q ∧ m.isPassagePath l

/-- The class invariant of `Maze` seen through `cell`: the coordinates at which
the grid has a cell are exactly those inside `width × height`. -/
def Maze.Shaped (m : Maze) : Prop :=
  ∀ x y : Int, (m.cell x y).isSome ↔ (0 ≤ x ∧ x < m.width ∧ 0 ≤ y ∧ y < m.height)

/-- The lattice invariant of the generator on a `w × h` grid that started all
wall: the grid keeps its shape and holds only `'#'` and `'.'`, the start cell
is a passage, every stack entry is a passage with both coordinates odd, no
passage has both coordinates even, and a passage with exactly one even
coordinate lies between two passages with odd coordinates. -/
structure Lattice (w h : Int) (s : GenState) : Prop where
  shaped : s.maze.Shaped
  width_eq : s.maze.width = w
  height_eq : s.maze.height = h
  chars : ∀ x y c, s.maze.cell x y = some c → c = '#' ∨ c = '.'
  start : s.maze.cell 1 1 = some '.'
  stack_ok : ∀ p ∈ s.stack, p.1 % 2 = 1 ∧ p.2 % 2 = 1 ∧ s.maze.cell p.1 p.2 = some '.'
  no_even : ∀ x y, s.maze.cell x y = some '.' → x % 2 = 1 ∨ y % 2 = 1
  vert : ∀ x y, s.maze.cell x y = some '.' → x % 2 = 1 → y % 2 = 0 →
    s.maze.cell x (y - 1) = some '.' ∧ s.maze.cell x (y + 1) = some '.'
  horiz : ∀ x y, s.maze.cell x y = some '.' → x % 2 = 0 → y % 2 = 1 →
    s.maze.cell (x - 1) y = some '.' ∧ s.maze.cell (x + 1) y = some '.'

/-- The coordinate that the iteration run in state `s` with shuffle outcome
`dirs` pushes (`stack.emplace(nx, ny)`), if it is a carve step. -/
def pushedCoord (dirs : List Coord) (s : GenState) : Option Coord :=
  match s.stack with
  | [] => none
  | (x, y) :: _ =>
    match scanDirections s.maze x y dirs with
    | some (_, some p) => some p
    | _ => none

/-- The coordinate that the iteration run in state `s` with shuffle outcome
`dirs` pops (`stack.pop()`), if no candidate is acceptable. -/
def poppedCoord (dirs : List Coord) (s : GenState) : Option Coord :=
  match s.stack with
  | [] => none
  | (x, y) :: _ =>
    match scanDirections s.maze x y dirs with
    | some (_, none) => some (x, y)
    | _ => none

/-! ### The renderer (src/renderer.cpp)

`class MazeRenderer` keeps one `CellState` per maze cell in
`std::vector<std::vector<CellState>> cellStates`. The `unsigned char` colour
channels are `Nat`, the `int` members are `Int`; as for the maze, an access
outside the vectors gives `none`, and so does an `int` multiplication whose
result is outside the `int` range (undefined behaviour). The casts
`static_cast<int>(grid.size())` and `static_cast<int>(grid[y].size())` are
`castInt`. The pure virtual members (window handling) have no code and are not
modelled. -/

/-- `MazeRenderer::Color`. -/
structure Color where
  r : Nat
  g : Nat
  b : Nat
  a : Nat
deriving DecidableEq

/-- `MazeRenderer::CellState::Type`. -/
inductive CellType where
  | WALL | PATH | CURRENT | VISITED | START | END
deriving DecidableEq

/-- `MazeRenderer::CellState`. -/
structure CellState where
  type : CellType
  color : Color
deriving DecidableEq

/-- The data members of `class MazeRenderer`. -/
structure MazeRenderer where
  windowWidth : Int
  windowHeight : Int
  cellSize : Int
  mazeWidth : Int
  mazeHeight : Int
  cellStates : List (List CellState)
  wallColor : Color
  pathColor : Color
  currentColor : Color
  visitedColor : Color
  startColor : Color
  endColor : Color
deriving DecidableEq

/-- The read `g[y][x]` of a vector of vectors; `none` outside the vectors. -/
def gridCell {α : Type} (g : List (List α)) (x y : Int) : Option α :=
  if 0 ≤ y ∧ 0 ≤ x then
    match g[y.toNat]? with
    | some row => row[x.toNat]?
    | none => none
  else none

/-- The write `g[y][x] = a` of a vector of vectors; `none` outside the vectors. -/
def gridSet {α : Type} (g : List (List α)) (x y : Int) (a : α) : Option (List (List α)) :=
  if 0 ≤ y ∧ 0 ≤ x then
    match g[y.toNat]? with
    | some row =>
      if x.toNat < row.length then some (g.set y.toNat (row.set x.toNat a)) else none
    | none => none
  else none

/-- Whether an integer is a value of the 32-bit `int`. -/
def inIntRange (n : Int) : Prop := -2147483648 ≤ n ∧ n ≤ 2147483647

instance (n : Int) : Decidable (inIntRange n) := by
  unfold inIntRange; infer_instance

/-- The value of `static_cast<int>(n)` for a `size_t` value `n`: the 32-bit
`int` congruent to `n` modulo 2^32 (what C++20 prescribes and what the usual
compilers did before it). It is `n` itself below 2^31, and negative or smaller
than `n` from 2^31 on. -/
def castInt (n : Nat) : Int := ((n : Int) + 2147483648) % 4294967296 - 2147483648

/-- `MazeRenderer::MazeRenderer(mWidth, mHeight, cSize)` on `int` arguments:
the member initialisers, among them the `int` products `mWidth * cSize` and
`mHeight * cSize` (`none` when a product leaves the `int` range),
`cellStates.resize(mHeight, std::vector<CellState>(mWidth))` and the two loops
that set every cell to `WALL` with the wall colour. A negative size makes the
allocation throw, which is `none` here. -/
def MazeRenderer.create (mWidth mHeight cSize : Int) : Option MazeRenderer :=
  if inIntRange (mWidth * cSize) ∧ inIntRange (mHeight * cSize) then
    if 0 ≤ mWidth ∧ 0 ≤ mHeight then
      some {
        windowWidth := mWidth * cSize
        windowHeight := mHeight * cSize
        cellSize := cSize
        mazeWidth := mWidth
        mazeHeight := mHeight
        cellStates := List.replicate mHeight.toNat
          (List.replicate mWidth.toNat { type := CellType.WALL, color := Color.mk 40 40 40 255 })
        wallColor := Color.mk 40 40 40 255
        pathColor := Color.mk 240 240 240 255
        currentColor := Color.mk 100 200 255 255
        visitedColor := Color.mk 200 200 255 255
        startColor := Color.mk 100 255 100 255
        endColor := Color.mk 255 100 100 255 }
    else none
  else none

/-- `MazeRenderer::getColorForType`. -/
def MazeRenderer.getColorForType (r : MazeRenderer) : CellType → Color
  | CellType.WALL => r.wallColor
  | CellType.PATH => r.pathColor
  | CellType.CURRENT => r.currentColor
  | CellType.VISITED => r.visitedColor
  | CellType.START => r.startColor
  | CellType.END => r.endColor

/-- `MazeRenderer::setCellState`: inside the bounds test the two member writes
`cellStates[y][x].type = type` and `cellStates[y][x].color = getColorForType(type)`
replace the cell by the pair of the two values. -/
def MazeRenderer.setCellState (r : MazeRenderer) (x y : Int) (t : CellType) :
    Option MazeRenderer :=
  if x ≥ 0 ∧ x < r.mazeWidth ∧ y ≥ 0 ∧ y < r.mazeHeight then
    match gridSet r.cellStates x y { type := t, color := r.getColorForType t } with
    | some cs => some { r with cellStates := cs }
    | none => none
  else some r

/-- `MazeRenderer::updateCell`. -/
def MazeRenderer.updateCell (r : MazeRenderer) (x y : Int) (cellChar : Char) :
    Option MazeRenderer :=
  if x ≥ 0 ∧ x < r.mazeWidth ∧ y ≥ 0 ∧ y < r.mazeHeight then
    r.setCellState x y (if cellChar == '#' then CellType.WALL else CellType.PATH)
  else some r

/-- The inner loop of `updateMaze`,
`for (int x = 0; x < mazeWidth && x < static_cast<int>(grid[y].size()); ++x)
updateCell(x, y, grid[y][x])`, from column `x` on. `size` is `grid[y].size()`
and the list is `grid[y]` from index `x` on, so `grid[y][x]` is its head; when
the loop test holds although the list is exhausted, the read `grid[y][x]` is
outside the vector, which is `none`. The counter is below `mazeWidth` when it
is incremented, so `++x` stays in the `int` range. -/
def updateRowFrom (r : MazeRenderer) (y : Int) (size : Nat) :
    Int → List Char → Option MazeRenderer
  | x, [] => if x < r.mazeWidth ∧ x < castInt size then none else some r
  | x, c :: rest =>
    if x < r.mazeWidth ∧ x < castInt size then
      match r.updateCell x y c with
      | some r2 => updateRowFrom r2 y size (x + 1) rest
      | none => none
    else some r

/-- The outer loop of `updateMaze`,
`for (int y = 0; y < mazeHeight && y < static_cast<int>(grid.size()); ++y)`,
from row `y` on. `size` is `grid.size()` and the list is `grid` from index `y`
on, so `grid[y]` is its head; when the loop test holds although the list is
exhausted, the read `grid[y]` is outside the vector, which is `none`. The
counter is below `mazeHeight` when it is incremented, so `++y` stays in the
`int` range. -/
def updateRowsFrom (r : MazeRenderer) (size : Nat) :
    Int → List (List Char) → Option MazeRenderer
  | y, [] => if y < r.mazeHeight ∧ y < castInt size then none else some r
  | y, row :: rest =>
    if y < r.mazeHeight ∧ y < castInt size then
      match updateRowFrom r y row.length 0 row with
      | some r2 => updateRowsFrom r2 size (y + 1) rest
      | none => none
    else some r

/-- `MazeRenderer::updateMaze`. -/
def MazeRenderer.updateMaze (r : MazeRenderer) (grid : List (List Char)) : Option MazeRenderer :=
  updateRowsFrom r grid.length 0 grid

/-- The character that the loops of `updateMaze` reach at `(x, y)`: the one at
`grid[y][x]` when `y` is below `static_cast<int>(grid.size())` and `x` below
`static_cast<int>(grid[y].size())`. -/
def castGridCell (grid : List (List Char)) (x y : Int) : Option Char :=
  if 0 ≤ y ∧ y < castInt grid.length then
    match grid[y.toNat]? with
    | some row => if 0 ≤ x ∧ x < castInt row.length then row[x.toNat]? else none
    | none => none
  else none

/-- The class invariant of `MazeRenderer`: `cellStates` has a cell exactly at the
coordinates inside `mazeWidth × mazeHeight`. -/
def MazeRenderer.Shaped (r : MazeRenderer) : Prop :=
  ∀ x y : Int, (gridCell r.cellStates x y).isSome ↔
    (0 ≤ x ∧ x < r.mazeWidth ∧ 0 ≤ y ∧ y < r.mazeHeight)

/-- The cell state that `updateCell` writes for the maze character `c`. -/
def MazeRenderer.stateFor (r : MazeRenderer) (c : Char) : CellState :=
  { type := if c = '#' then CellType.WALL else CellType.PATH,
    color := if c = '#' then r.wallColor else r.pathColor }

/-- A renderer cell after `updateMaze`: the state for the maze character when
there is one at that place, the old cell otherwise. -/
def MazeRenderer.overlayCell (r : MazeRenderer) (c : Option Char) (old : Option CellState) :
    Option CellState :=
  match c with
  | some ch => some (r.stateFor ch)
  | none => old

/-- Renderer `r2` differs from `r` in `cellStates` at most: dimensions, sizes
and colours are the same. -/
def MazeRenderer.sameSettings (r2 r : MazeRenderer) : Prop :=
  r2 = { r with cellStates := r2.cellStates }

/-- The 5 x 5 maze that generation returns when every shuffle leaves the
directions in their initial order (up, down, left, right). Used as a concrete
input. -/
def finalGrid5 : Maze :=
  { grid := ["#####".toList, "#.#.#".toList, "#.#.#".toList, "#...#".toList, "#####".toList],
    width := 5, height := 5 }

/-- The 5 x 5 maze right after the statements before the loop: only the start
cell `(1,1)` is a passage. Used as a concrete input. -/
def startGrid5 : GenState :=
  { maze := { grid := ["#####".toList, "#.###".toList, "#####".toList, "#####".toList,
                "#####".toList],
              width := 5, height := 5 },
    stack := [(1, 1)] }

/-! ## Reading and writing cells -/

theorem Maze.setCell_width {m m2 : Maze} {x y : Int} {c : Char}
    (h : m.setCell x y c = some m2) : m2.width = m.width ∧ m2.height = m.height := by
  unfold Maze.setCell at h
  split at h
  · split at h
    · split at h
      · cases h; simp
      · cases h
    · cases h
  · cases h

theorem Maze.cell_setCell {m m2 : Maze} {x y : Int} {c : Char}
    (h : m.setCell x y c = some m2) (a b : Int) :
    m2.cell a b = if a = x ∧ b = y then some c else m.cell a b := by
  unfold Maze.setCell at h
  split at h
  next hxy =>
    split at h
    next row hrow =>
      split at h
      next hlt =>
        cases h
        unfold Maze.cell
        by_cases hab : 0 ≤ b ∧ 0 ≤ a
        · simp only [hab, and_self, if_true]
          by_cases hb : b = y
          · subst hb
            have hylt : b.toNat < m.grid.length := by
              rcases Nat.lt_or_ge b.toNat m.grid.length with h1 | h1
              · exact h1
              · rw [List.getElem?_eq_none h1] at hrow; cases hrow
            simp only [List.getElem?_set, hylt, if_true, hrow, true_and]
            by_cases ha : a = x
            · subst ha
              simp [List.getElem?_set, hlt]
            · have : ¬ x.toNat = a.toNat := by omega
              simp [List.getElem?_set, this, ha]
          · have : ¬ y.toNat = b.toNat := by omega
            simp [List.getElem?_set, this, hb]
        · have : ¬ (a = x ∧ b = y) := by
            rintro ⟨rfl, rfl⟩; exact hab hxy
          simp [hab, this]
      · cases h
    · cases h
  · cases h

theorem Maze.setCell_isSome {m : Maze} {x y : Int} (c : Char)
    (h : (m.cell x y).isSome) : ∃ m2, m.setCell x y c = some m2 := by
  unfold Maze.cell at h
  unfold Maze.setCell
  split at h
  next hxy =>
    simp only [hxy, and_self, if_true]
    split at h
    next row hrow =>
      have hlt : x.toNat < row.length := by
        rcases Nat.lt_or_ge x.toNat row.length with h1 | h1
        · exact h1
        · rw [List.getElem?_eq_none h1] at h; cases h
      simp [hlt]
    · cases h
  · cases h

theorem Maze.Shaped.setCell {m m2 : Maze} {x y : Int} {c : Char} (hs : m.Shaped)
    (h : m.setCell x y c = some m2) : m2.Shaped := by
  intro a b
  have hw := Maze.setCell_width h
  rw [Maze.cell_setCell h, hw.1, hw.2, ← hs a b]
  split
  next hab =>
    obtain ⟨rfl, rfl⟩ := hab
    unfold Maze.setCell at h
    unfold Maze.cell
    split at h
    next hxy =>
      split at h
      next row hrow =>
        split at h
        next hlt => simp [hxy, hrow, hlt]
        · cases h
      · cases h
    · cases h
  · rfl

theorem Maze.isValid_of_shaped {m : Maze} (hs : m.Shaped) (x y : Int) :
    m.isValid x y = some (decide (m.cell x y = some '#')) := by
  unfold Maze.isValid
  split
  next hin =>
    have := (hs x y).2 ⟨hin.1, hin.2.1, hin.2.2.1, hin.2.2.2⟩
    cases hc : m.cell x y with
    | none => rw [hc] at this; cases this
    | some c => by_cases h : c = '#' <;> simp [h]
  next hout =>
    have : m.cell x y = none := by
      cases hc : m.cell x y with
      | none => rfl
      | some c =>
        have := (hs x y).1 (by rw [hc]; rfl)
        exact absurd ⟨this.1, this.2.1, this.2.2.1, this.2.2.2⟩ hout
    simp [this]

theorem Maze.isPath_of_shaped {m : Maze} (hs : m.Shaped) (x y : Int) :
    m.isPath x y = some (decide (m.cell x y = some '.')) := by
  unfold Maze.isPath
  split
  next hout =>
    have : m.cell x y = none := by
      cases hc : m.cell x y with
      | none => rfl
      | some c =>
        have := (hs x y).1 (by rw [hc]; rfl)
        omega
    simp [this]
  next hin =>
    have := (hs x y).2 (by omega)
    cases hc : m.cell x y with
    | none => rw [hc] at this; cases this
    | some c => by_cases h : c = '.' <;> simp [h]

theorem mem_directions {dx dy : Int} (h : (dx, dy) ∈ directions) :
    (dx = 0 ∧ dy = -2 ∧ Int.tdiv dx 2 = 0 ∧ Int.tdiv dy 2 = -1) ∨
    (dx = 0 ∧ dy = 2 ∧ Int.tdiv dx 2 = 0 ∧ Int.tdiv dy 2 = 1) ∨
    (dx = -2 ∧ dy = 0 ∧ Int.tdiv dx 2 = -1 ∧ Int.tdiv dy 2 = 0) ∨
    (dx = 2 ∧ dy = 0 ∧ Int.tdiv dx 2 = 1 ∧ Int.tdiv dy 2 = 0) := by
  simp only [directions, List.mem_cons, Prod.mk.injEq, List.mem_singleton, List.not_mem_nil,
    or_false] at h
  rcases h with ⟨rfl, rfl⟩ | ⟨rfl, rfl⟩ | ⟨rfl, rfl⟩ | ⟨rfl, rfl⟩ <;> decide

/-! ## The geometry of a step

Arithmetic facts about a stack cell `(x, y)`, the target `(x + dx, y + dy)` and
the midpoint `(x + dx/2, y + dy/2)` of a step in one of the four directions. -/

theorem orthAdjacent_mk (a b c d : Int) :
    orthAdjacent (a, b) (c, d) ↔
      (a = c ∧ (d = b + 1 ∨ b = d + 1)) ∨ (b = d ∧ (c = a + 1 ∨ a = c + 1)) := Iff.rfl

theorem dir_mid_bounds {x y dx dy w h : Int} (hd : (dx, dy) ∈ directions)
    (hx : 0 ≤ x ∧ x < w) (hy : 0 ≤ y ∧ y < h)
    (hnx : 0 ≤ x + dx ∧ x + dx < w) (hny : 0 ≤ y + dy ∧ y + dy < h) :
    0 ≤ x + Int.tdiv dx 2 ∧ x + Int.tdiv dx 2 < w ∧
      0 ≤ y + Int.tdiv dy 2 ∧ y + Int.tdiv dy 2 < h := by
  rcases mem_directions hd with ⟨g1, g2, g3, g4⟩ | ⟨g1, g2, g3, g4⟩ | ⟨g1, g2, g3, g4⟩ |
    ⟨g1, g2, g3, g4⟩ <;> omega

theorem dir_target_odd {x y dx dy : Int} (hd : (dx, dy) ∈ directions)
    (hx : x % 2 = 1) (hy : y % 2 = 1) : (x + dx) % 2 = 1 ∧ (y + dy) % 2 = 1 := by
  rcases mem_directions hd with ⟨g1, g2, g3, g4⟩ | ⟨g1, g2, g3, g4⟩ | ⟨g1, g2, g3, g4⟩ |
    ⟨g1, g2, g3, g4⟩ <;> omega

theorem dir_mid_parity {x y dx dy : Int} (hd : (dx, dy) ∈ directions)
    (hx : x % 2 = 1) (hy : y % 2 = 1) :
    ((x + Int.tdiv dx 2) % 2 = 1 ∨ (y + Int.tdiv dy 2) % 2 = 1) ∧
      ¬ ((x + Int.tdiv dx 2) % 2 = 1 ∧ (y + Int.tdiv dy 2) % 2 = 1) ∧
      ¬ (x + dx = x + Int.tdiv dx 2 ∧ y + dy = y + Int.tdiv dy 2) := by
  rcases mem_directions hd with ⟨g1, g2, g3, g4⟩ | ⟨g1, g2, g3, g4⟩ | ⟨g1, g2, g3, g4⟩ |
    ⟨g1, g2, g3, g4⟩ <;> omega

/-- A midpoint with odd `x` lies vertically between the stack cell and the target. -/
theorem dir_mid_vert {x y dx dy : Int} (hd : (dx, dy) ∈ directions)
    (hx : x % 2 = 1) (ha : (x + Int.tdiv dx 2) % 2 = 1) :
    (x + Int.tdiv dx 2 = x ∧ y + Int.tdiv dy 2 - 1 = y ∧
        x + Int.tdiv dx 2 = x + dx ∧ y + Int.tdiv dy 2 + 1 = y + dy) ∨
      (x + Int.tdiv dx 2 = x ∧ y + Int.tdiv dy 2 + 1 = y ∧
        x + Int.tdiv dx 2 = x + dx ∧ y + Int.tdiv dy 2 - 1 = y + dy) := by
  rcases mem_directions hd with ⟨g1, g2, g3, g4⟩ | ⟨g1, g2, g3, g4⟩ | ⟨g1, g2, g3, g4⟩ |
    ⟨g1, g2, g3, g4⟩
  · right; omega
  · left; omega
  · omega
  · omega

/-- A midpoint with odd `y` lies horizontally between the stack cell and the target. -/
theorem dir_mid_horiz {x y dx dy : Int} (hd : (dx, dy) ∈ directions)
    (hy : y % 2 = 1) (hb : (y + Int.tdiv dy 2) % 2 = 1) :
    (y + Int.tdiv dy 2 = y ∧ x + Int.tdiv dx 2 - 1 = x ∧
        y + Int.tdiv dy 2 = y + dy ∧ x + Int.tdiv dx 2 + 1 = x + dx) ∨
      (y + Int.tdiv dy 2 = y ∧ x + Int.tdiv dx 2 + 1 = x ∧
        y + Int.tdiv dy 2 = y + dy ∧ x + Int.tdiv dx 2 - 1 = x + dx) := by
  rcases mem_directions hd with ⟨g1, g2, g3, g4⟩ | ⟨g1, g2, g3, g4⟩ | ⟨g1, g2, g3, g4⟩ |
    ⟨g1, g2, g3, g4⟩
  · omega
  · omega
  · right; omega
  · left; omega

theorem dir_adj_top_mid {x y dx dy : Int} (hd : (dx, dy) ∈ directions) :
    orthAdjacent (x, y) (x + Int.tdiv dx 2, y + Int.tdiv dy 2) ∧
      orthAdjacent (x + Int.tdiv dx 2, y + Int.tdiv dy 2) (x, y) := by
  rw [orthAdjacent_mk, orthAdjacent_mk]
  rcases mem_directions hd with ⟨g1, g2, g3, g4⟩ | ⟨g1, g2, g3, g4⟩ | ⟨g1, g2, g3, g4⟩ |
    ⟨g1, g2, g3, g4⟩ <;> (by_contra hcon; omega)

theorem dir_adj_mid_target {x y dx dy : Int} (hd : (dx, dy) ∈ directions) :
    orthAdjacent (x + Int.tdiv dx 2, y + Int.tdiv dy 2) (x + dx, y + dy) ∧
      orthAdjacent (x + dx, y + dy) (x + Int.tdiv dx 2, y + Int.tdiv dy 2) := by
  rw [orthAdjacent_mk, orthAdjacent_mk]
  rcases mem_directions hd with ⟨g1, g2, g3, g4⟩ | ⟨g1, g2, g3, g4⟩ | ⟨g1, g2, g3, g4⟩ |
    ⟨g1, g2, g3, g4⟩ <;> (by_contra hcon; omega)

/-- A neighbour of the midpoint that is neither the target nor a cell with two
even coordinates is the stack cell. -/
theorem dir_mid_neighbour {x y dx dy a b : Int} (hd : (dx, dy) ∈ directions)
    (hx : x % 2 = 1) (hy : y % 2 = 1) (hne : a % 2 = 1 ∨ b % 2 = 1)
    (hnt : ¬ (a = x + dx ∧ b = y + dy))
    (hadj : orthAdjacent (x + Int.tdiv dx 2, y + Int.tdiv dy 2) (a, b)) :
    a = x ∧ b = y := by
  rw [orthAdjacent_mk] at hadj
  rcases hadj with ⟨e1, e2 | e2⟩ | ⟨e1, e2 | e2⟩ <;>
    rcases mem_directions hd with ⟨g1, g2, g3, g4⟩ | ⟨g1, g2, g3, g4⟩ |
      ⟨g1, g2, g3, g4⟩ | ⟨g1, g2, g3, g4⟩ <;> omega

/-- A neighbour of the target has exactly one even coordinate and the target
is one of the two cells it lies between. -/
theorem dir_target_neighbour {x y dx dy a b : Int} (hd : (dx, dy) ∈ directions)
    (hx : x % 2 = 1) (hy : y % 2 = 1)
    (hadj : orthAdjacent (x + dx, y + dy) (a, b)) :
    (a % 2 = 1 ∧ b % 2 = 0 ∧ a = x + dx ∧ (b - 1 = y + dy ∨ b + 1 = y + dy)) ∨
      (a % 2 = 0 ∧ b % 2 = 1 ∧ b = y + dy ∧ (a - 1 = x + dx ∨ a + 1 = x + dx)) := by
  rw [orthAdjacent_mk] at hadj
  rcases hadj with ⟨e1, e2 | e2⟩ | ⟨e1, e2 | e2⟩ <;>
    rcases mem_directions hd with ⟨g1, g2, g3, g4⟩ | ⟨g1, g2, g3, g4⟩ |
      ⟨g1, g2, g3, g4⟩ | ⟨g1, g2, g3, g4⟩ <;> omega

/-- The effect of a carve step on a well-shaped maze: it succeeds when the
current cell and the target are inside the grid, keeps the dimensions, and
writes `'.'` to the target and to the midpoint and nothing else. -/
theorem Maze.carve_spec {m : Maze} (hs : m.Shaped) {x y dx dy : Int}
    (hx : 0 ≤ x ∧ x < m.width) (hy : 0 ≤ y ∧ y < m.height)
    (hd : (dx, dy) ∈ directions)
    (hnx : 0 ≤ x + dx ∧ x + dx < m.width) (hny : 0 ≤ y + dy ∧ y + dy < m.height) :
    ∃ m2, m.carve x y dx dy = some m2 ∧ m2.width = m.width ∧ m2.height = m.height ∧
      m2.Shaped ∧
      ∀ a b, m2.cell a b =
        if (a = x + dx ∧ b = y + dy) ∨ (a = x + Int.tdiv dx 2 ∧ b = y + Int.tdiv dy 2)
        then some '.' else m.cell a b := by
  obtain ⟨m1, h1⟩ := Maze.setCell_isSome '.' ((hs (x + dx) (y + dy)).2 ⟨hnx.1, hnx.2, hny.1, hny.2⟩)
  have hs1 := hs.setCell h1
  have hw1 := Maze.setCell_width h1
  have hmid : 0 ≤ x + Int.tdiv dx 2 ∧ x + Int.tdiv dx 2 < m1.width ∧
      0 ≤ y + Int.tdiv dy 2 ∧ y + Int.tdiv dy 2 < m1.height := by
    rw [hw1.1, hw1.2]
    exact dir_mid_bounds hd hx hy hnx hny
  obtain ⟨m2, h2⟩ := Maze.setCell_isSome '.' ((hs1 _ _).2 hmid)
  have hw2 := Maze.setCell_width h2
  refine ⟨m2, ?_, by rw [hw2.1, hw1.1], by rw [hw2.2, hw1.2], hs1.setCell h2, ?_⟩
  · simp [Maze.carve, h1, h2]
  · intro a b
    rw [Maze.cell_setCell h2, Maze.cell_setCell h1]
    by_cases hA : a = x + dx ∧ b = y + dy <;>
      by_cases hB : a = x + Int.tdiv dx 2 ∧ b = y + Int.tdiv dy 2 <;> simp [hA, hB]

/-- The `for` loop on a well-shaped maze with the current cell inside the grid:
either the first candidate whose cell is `'#'` is carved, or no candidate cell
is `'#'` and the maze is returned as it was. -/
theorem scanDirections_spec {m : Maze} (hs : m.Shaped) {x y : Int}
    (hx : 0 ≤ x ∧ x < m.width) (hy : 0 ≤ y ∧ y < m.height) :
    ∀ dirs : List Coord, (∀ d ∈ dirs, d ∈ directions) →
      (∃ pre dx dy post m2, dirs = pre ++ (dx, dy) :: post ∧
          (∀ d ∈ pre, m.cell (x + d.1) (y + d.2) ≠ some '#') ∧
          m.cell (x + dx) (y + dy) = some '#' ∧ m.carve x y dx dy = some m2 ∧
          scanDirections m x y dirs = some (m2, some (x + dx, y + dy))) ∨
      ((∀ d ∈ dirs, m.cell (x + d.1) (y + d.2) ≠ some '#') ∧
          scanDirections m x y dirs = some (m, none)) := by
  intro dirs
  induction dirs with
  | nil => intro _; right; exact ⟨by simp, rfl⟩
  | cons d rest ih =>
    intro hd
    obtain ⟨dx, dy⟩ := d
    by_cases hc : m.cell (x + dx) (y + dy) = some '#'
    · left
      have hin := (hs (x + dx) (y + dy)).1 (by rw [hc]; rfl)
      obtain ⟨m2, hm2, -⟩ := Maze.carve_spec hs hx hy (hd _ (List.mem_cons_self _ _))
        ⟨hin.1, hin.2.1⟩ ⟨hin.2.2.1, hin.2.2.2⟩
      refine ⟨[], dx, dy, rest, m2, rfl, by simp, hc, hm2, ?_⟩
      simp [scanDirections, Maze.isValid_of_shaped hs, hc, hm2]
    · have hstep : scanDirections m x y ((dx, dy) :: rest) = scanDirections m x y rest := by
        simp [scanDirections, Maze.isValid_of_shaped hs, hc]
      rcases ih (fun d hdm => hd d (List.mem_cons_of_mem _ hdm)) with
        ⟨pre, ex, ey, post, m2, h1, h2, h3, h4, h5⟩ | ⟨h1, h2⟩
      · left
        refine ⟨(dx, dy) :: pre, ex, ey, post, m2, by rw [h1]; rfl, ?_, h3, h4, by rw [hstep, h5]⟩
        intro d hdm
        rcases List.mem_cons.1 hdm with rfl | hdm
        · exact hc
        · exact h2 d hdm
      · right
        refine ⟨?_, by rw [hstep, h2]⟩
        intro d hdm
        rcases List.mem_cons.1 hdm with rfl | hdm
        · exact hc
        · exact h1 d hdm

/-- One loop iteration on a well-shaped maze whose stack top lies inside the
grid: a carve step (push) or a backtracking step (pop). -/
theorem loopStep_spec {s : GenState} {x y : Int} {below : List Coord} {dirs : List Coord}
    (hs : s.maze.Shaped) (hst : s.stack = (x, y) :: below)
    (hx : 0 ≤ x ∧ x < s.maze.width) (hy : 0 ≤ y ∧ y < s.maze.height)
    (hd : ∀ d ∈ dirs, d ∈ directions) :
    (∃ pre dx dy post m2, dirs = pre ++ (dx, dy) :: post ∧
        (∀ d ∈ pre, s.maze.cell (x + d.1) (y + d.2) ≠ some '#') ∧
        s.maze.cell (x + dx) (y + dy) = some '#' ∧ s.maze.carve x y dx dy = some m2 ∧
        loopStep dirs s = some { maze := m2, stack := (x + dx, y + dy) :: (x, y) :: below } ∧
        isCarveStep dirs s = true) ∨
    ((∀ d ∈ dirs, s.maze.cell (x + d.1) (y + d.2) ≠ some '#') ∧
        loopStep dirs s = some { maze := s.maze, stack := below } ∧
        isCarveStep dirs s = false) := by
  rcases scanDirections_spec hs hx hy dirs hd with
    ⟨pre, dx, dy, post, m2, h1, h2, h3, h4, h5⟩ | ⟨h1, h2⟩
  · left
    exact ⟨pre, dx, dy, post, m2, h1, h2, h3, h4, by simp [loopStep, hst, h5],
      by simp [isCarveStep, hst, h5]⟩
  · right
    exact ⟨h1, by simp [loopStep, hst, h2], by simp [isCarveStep, hst, h2]⟩

theorem Lattice.push {w h : Int} {s : GenState} (inv : Lattice w h s) {x y dx dy : Int}
    {below : List Coord} {m2 : Maze} (hst : s.stack = (x, y) :: below)
    (hd : (dx, dy) ∈ directions) (hwall : s.maze.cell (x + dx) (y + dy) = some '#')
    (hcarve : s.maze.carve x y dx dy = some m2) :
    Lattice w h { maze := m2, stack := (x + dx, y + dy) :: (x, y) :: below } := by
  have htop := inv.stack_ok (x, y) (by rw [hst]; exact List.mem_cons_self _ _)
  have hin := (inv.shaped x y).1 (by rw [htop.2.2]; rfl)
  have hnin := (inv.shaped (x + dx) (y + dy)).1 (by rw [hwall]; rfl)
  obtain ⟨m3, h3, hw, hh, hsh, hcell⟩ := Maze.carve_spec inv.shaped ⟨hin.1, hin.2.1⟩
    ⟨hin.2.2.1, hin.2.2.2⟩ hd ⟨hnin.1, hnin.2.1⟩ ⟨hnin.2.2.1, hnin.2.2.2⟩
  rw [hcarve] at h3
  cases h3
  have hx1 := htop.1
  have hy1 := htop.2.1
  have hxy := htop.2.2
  simp only at hx1 hy1 hxy
  have mono : ∀ a b, s.maze.cell a b = some '.' → m2.cell a b = some '.' := by
    intro a b hab
    rw [hcell]; split
    · rfl
    · exact hab
  have htgt : m2.cell (x + dx) (y + dy) = some '.' := by
    rw [hcell]; simp
  have hold : ∀ a b, m2.cell a b = some '.' →
      (a = x + dx ∧ b = y + dy) ∨ (a = x + Int.tdiv dx 2 ∧ b = y + Int.tdiv dy 2) ∨
        s.maze.cell a b = some '.' := by
    intro a b hab
    rw [hcell] at hab
    split at hab
    next hc => rcases hc with hc | hc
               · exact Or.inl hc
               · exact Or.inr (Or.inl hc)
    · exact Or.inr (Or.inr hab)
  have hto := dir_target_odd hd hx1 hy1
  have hmp := dir_mid_parity hd hx1 hy1
  refine ⟨hsh, by rw [hw, inv.width_eq], by rw [hh, inv.height_eq], ?_, mono _ _ inv.start,
    ?_, ?_, ?_, ?_⟩
  · intro a b c hc
    rw [hcell] at hc
    split at hc
    · cases hc; right; rfl
    · exact inv.chars a b c hc
  · intro p hp
    rcases List.mem_cons.1 hp with rfl | hp
    · exact ⟨hto.1, hto.2, htgt⟩
    · have := inv.stack_ok p (by rw [hst]; exact hp)
      exact ⟨this.1, this.2.1, mono _ _ this.2.2⟩
  · intro a b hab
    rcases hold a b hab with ⟨rfl, rfl⟩ | ⟨rfl, rfl⟩ | hc
    · exact Or.inl hto.1
    · exact hmp.1
    · exact inv.no_even a b hc
  · intro a b hab ha hb
    rcases hold a b hab with ⟨rfl, rfl⟩ | ⟨rfl, rfl⟩ | hc
    · rw [hto.2] at hb; cases hb
    · rcases dir_mid_vert hd hx1 ha with ⟨e1, e2, e3, e4⟩ | ⟨e1, e2, e3, e4⟩
      · refine ⟨?_, ?_⟩
        · rw [e2, e1]; exact mono _ _ hxy
        · rw [e4, e3]; exact htgt
      · refine ⟨?_, ?_⟩
        · rw [e4, e3]; exact htgt
        · rw [e2, e1]; exact mono _ _ hxy
    · have := inv.vert a b hc ha hb
      exact ⟨mono _ _ this.1, mono _ _ this.2⟩
  · intro a b hab ha hb
    rcases hold a b hab with ⟨rfl, rfl⟩ | ⟨rfl, rfl⟩ | hc
    · rw [hto.1] at ha; cases ha
    · rcases dir_mid_horiz hd hy1 hb with ⟨e1, e2, e3, e4⟩ | ⟨e1, e2, e3, e4⟩
      · refine ⟨?_, ?_⟩
        · rw [e2, e1]; exact mono _ _ hxy
        · rw [e4, e3]; exact htgt
      · refine ⟨?_, ?_⟩
        · rw [e4, e3]; exact htgt
        · rw [e2, e1]; exact mono _ _ hxy
    · have := inv.horiz a b hc ha hb
      exact ⟨mono _ _ this.1, mono _ _ this.2⟩

theorem Lattice.pop {w h : Int} {s : GenState} (inv : Lattice w h s) {p : Coord}
    {below : List Coord} (hst : s.stack = p :: below) :
    Lattice w h { maze := s.maze, stack := below } :=
  ⟨inv.shaped, inv.width_eq, inv.height_eq, inv.chars, inv.start,
    fun q hq => inv.stack_ok q (by rw [hst]; exact List.mem_cons_of_mem _ hq),
    inv.no_even, inv.vert, inv.horiz⟩

/-- The constructor on non-negative sizes: the maze it builds and its cells. -/
theorem Maze.create_spec {w h : Int} (hw : 0 ≤ w) (hh : 0 ≤ h) :
    ∃ m, Maze.create w h = some m ∧ m.width = w ∧ m.height = h ∧
      m.grid = List.replicate h.toNat (List.replicate w.toNat '#') ∧
      ∀ x y, m.cell x y = if 0 ≤ x ∧ x < w ∧ 0 ≤ y ∧ y < h then some '#' else none := by
  refine ⟨Maze.mk (List.replicate h.toNat (List.replicate w.toNat '#')) w h,
    by simp [Maze.create, hw, hh], rfl, rfl, rfl, ?_⟩
  intro x y
  unfold Maze.cell
  by_cases hxy : 0 ≤ y ∧ 0 ≤ x
  · simp only [hxy, and_self, if_true]
    by_cases hy : y < h
    · have hy2 : y.toNat < h.toNat := by omega
      simp only [List.getElem?_replicate, hy2, if_true]
      by_cases hx : x < w
      · have hx2 : x.toNat < w.toNat := by omega
        simp [hx2, hx, hy, hxy]
      · have hx2 : ¬ x.toNat < w.toNat := by omega
        simp [hx2, hx]
    · have hy2 : ¬ y.toNat < h.toNat := by omega
      simp [List.getElem?_replicate, hy2, hy]
  · have : ¬ (0 ≤ x ∧ x < w ∧ 0 ≤ y ∧ y < h) := fun hc => hxy ⟨hc.2.2.1, hc.1⟩
    simp [hxy, this]

/-- The statements before the loop on a freshly constructed maze with room for
the start cell: they succeed and establish the lattice invariant. -/
theorem genStart_spec {w h : Int} (hw : 2 ≤ w) (hh : 2 ≤ h) :
    ∃ m0 s0, Maze.create w h = some m0 ∧ genStart m0 = some s0 ∧ s0.stack = [(1, 1)] ∧
      (∀ x y, s0.maze.cell x y = some '.' ↔ (x = 1 ∧ y = 1)) ∧ Lattice w h s0 := by
  obtain ⟨m0, hm0, hw0, hh0, -, hcell0⟩ := Maze.create_spec (by omega : 0 ≤ w) (by omega : 0 ≤ h)
  have hs0 : m0.Shaped := by
    intro x y
    rw [hcell0, hw0, hh0]
    split
    next hc => simpa using hc
    next hc => simpa using hc
  obtain ⟨m1, hm1⟩ := Maze.setCell_isSome (m := m0) (x := 1) (y := 1) '.'
    ((hs0 1 1).2 (by rw [hw0, hh0]; omega))
  have hcell1 := Maze.cell_setCell hm1
  have hw1 := Maze.setCell_width hm1
  have hpass : ∀ x y, m1.cell x y = some '.' ↔ (x = 1 ∧ y = 1) := by
    intro x y
    rw [hcell1, hcell0]
    by_cases hxy : x = 1 ∧ y = 1
    · simp [hxy]
    · simp only [hxy, if_false, iff_false]
      split
      · simp
      · simp
  refine ⟨m0, { maze := m1, stack := [(1, 1)] }, hm0, by simp [genStart, hm1], rfl, hpass, ?_⟩
  refine ⟨hs0.setCell hm1, by rw [hw1.1, hw0], by rw [hw1.2, hh0], ?_, (hpass 1 1).2 ⟨rfl, rfl⟩,
    ?_, ?_, ?_, ?_⟩
  · intro x y c hc
    rw [hcell1, hcell0] at hc
    split at hc
    · cases hc; right; rfl
    · split at hc
      · cases hc; left; rfl
      · cases hc
  · intro p hp
    rcases List.mem_singleton.1 hp with rfl
    exact ⟨by decide, by decide, (hpass 1 1).2 ⟨rfl, rfl⟩⟩
  · intro x y hxy
    obtain ⟨rfl, rfl⟩ := (hpass x y).1 hxy
    left; decide
  · intro x y hxy _ hy
    obtain ⟨rfl, rfl⟩ := (hpass x y).1 hxy
    exact absurd hy (by decide)
  · intro x y hxy hx _
    obtain ⟨rfl, rfl⟩ := (hpass x y).1 hxy
    exact absurd hx (by decide)

/-- Induction over the loop iterations of a run that starts in a state with the
lattice invariant: a property of the iteration number and the state that holds
initially and is kept by every carve step, every backtracking step and by
staying in a final state holds, together with the lattice invariant, at every
iteration boundary; in particular no iteration fails. -/
theorem loopState_induction {w h : Int} {sh : Nat → List Coord} {s0 : GenState}
    (hsh : ∀ i, (sh i).Perm directions) (P : Nat → GenState → Prop)
    (inv0 : Lattice w h s0) (h0 : P 0 s0)
    (hidle : ∀ (n : Nat) (s : GenState), loopState sh s0 n = some s → P n s →
      s.stack = [] → P (n + 1) s)
    (hpush : ∀ (n : Nat) (s : GenState) (x y dx dy : Int) (below : List Coord) (m2 : Maze),
      loopState sh s0 n = some s → Lattice w h s → P n s → s.stack = (x, y) :: below →
      (dx, dy) ∈ directions → s.maze.cell (x + dx) (y + dy) = some '#' →
      s.maze.carve x y dx dy = some m2 → isCarveStep (sh n) s = true →
      P (n + 1) { maze := m2, stack := (x + dx, y + dy) :: (x, y) :: below })
    (hpop : ∀ (n : Nat) (s : GenState) (x y : Int) (below : List Coord),
      loopState sh s0 n = some s → Lattice w h s → P n s → s.stack = (x, y) :: below →
      (∀ d ∈ directions, s.maze.cell (x + d.1) (y + d.2) ≠ some '#') →
      isCarveStep (sh n) s = false → P (n + 1) { maze := s.maze, stack := below }) :
    ∀ n, ∃ s, loopState sh s0 n = some s ∧ Lattice w h s ∧ P n s := by
  intro n
  induction n with
  | zero => exact ⟨s0, rfl, inv0, h0⟩
  | succ n ih =>
    obtain ⟨s, hs, inv, hP⟩ := ih
    simp only [loopState, hs]
    cases hst : s.stack with
    | nil => exact ⟨s, by simp [loopStep, hst], inv, hidle n s hs hP hst⟩
    | cons p below =>
      obtain ⟨x, y⟩ := p
      have htop := inv.stack_ok (x, y) (by rw [hst]; exact List.mem_cons_self _ _)
      have hin := (inv.shaped x y).1 (by rw [htop.2.2]; rfl)
      have hd : ∀ d ∈ sh n, d ∈ directions := fun d hdm => (hsh n).mem_iff.1 hdm
      rcases loopStep_spec inv.shaped hst ⟨hin.1, hin.2.1⟩ ⟨hin.2.2.1, hin.2.2.2⟩ hd with
        ⟨pre, dx, dy, post, m2, h1, _, h3, h4, h5, h6⟩ | ⟨h1, h2, h6⟩
      · have hmem : (dx, dy) ∈ directions := hd _ (by rw [h1]; simp)
        exact ⟨_, h5, inv.push hst hmem h3 h4,
          hpush n s x y dx dy below m2 hs inv hP hst hmem h3 h4 h6⟩
      · exact ⟨_, h2, inv.pop hst, hpop n s x y below hs inv hP hst
          (fun d hdm => h1 d ((hsh n).mem_iff.2 hdm)) h6⟩

/-- The induction of `loopState_induction` for a property of the state alone. -/
theorem loopState_invariant {w h : Int} {sh : Nat → List Coord} {s0 : GenState}
    (hsh : ∀ i, (sh i).Perm directions) (P : GenState → Prop)
    (inv0 : Lattice w h s0) (h0 : P s0)
    (hpush : ∀ (s : GenState) (x y dx dy : Int) (below : List Coord) (m2 : Maze),
      Lattice w h s → P s → s.stack = (x, y) :: below → (dx, dy) ∈ directions →
      s.maze.cell (x + dx) (y + dy) = some '#' → s.maze.carve x y dx dy = some m2 →
      P { maze := m2, stack := (x + dx, y + dy) :: (x, y) :: below })
    (hpop : ∀ (s : GenState) (x y : Int) (below : List Coord),
      Lattice w h s → P s → s.stack = (x, y) :: below →
      (∀ d ∈ directions, s.maze.cell (x + d.1) (y + d.2) ≠ some '#') →
      P { maze := s.maze, stack := below }) :
    ∀ n, ∃ s, loopState sh s0 n = some s ∧ Lattice w h s ∧ P s :=
  loopState_induction hsh (fun _ s => P s) inv0 h0 (fun _ _ _ hP _ => hP)
    (fun _ s x y dx dy below m2 _ inv hP hst hd hwall hcarve _ =>
      hpush s x y dx dy below m2 inv hP hst hd hwall hcarve)
    (fun _ s x y below _ inv hP hst hno _ => hpop s x y below inv hP hst hno)

/-- What a carve step from a stack top does to the cells, in the form the
invariant proofs use. -/
theorem Lattice.carve_cells {w h : Int} {s : GenState} (inv : Lattice w h s) {x y dx dy : Int}
    {below : List Coord} {m2 : Maze} (hst : s.stack = (x, y) :: below)
    (hd : (dx, dy) ∈ directions) (hwall : s.maze.cell (x + dx) (y + dy) = some '#')
    (hcarve : s.maze.carve x y dx dy = some m2) :
    (x % 2 = 1 ∧ y % 2 = 1 ∧ s.maze.cell x y = some '.') ∧
    (∀ a b, s.maze.cell a b = some '.' → m2.cell a b = some '.') ∧
    m2.cell (x + dx) (y + dy) = some '.' ∧
    m2.cell (x + Int.tdiv dx 2) (y + Int.tdiv dy 2) = some '.' ∧
    (∀ a b, m2.cell a b = some '.' →
      (a = x + dx ∧ b = y + dy) ∨ (a = x + Int.tdiv dx 2 ∧ b = y + Int.tdiv dy 2) ∨
        s.maze.cell a b = some '.') ∧
    s.maze.cell (x + Int.tdiv dx 2) (y + Int.tdiv dy 2) ≠ some '.' := by
  have htop := inv.stack_ok (x, y) (by rw [hst]; exact List.mem_cons_self _ _)
  have hin := (inv.shaped x y).1 (by rw [htop.2.2]; rfl)
  have hnin := (inv.shaped (x + dx) (y + dy)).1 (by rw [hwall]; rfl)
  obtain ⟨m3, h3, hw, hh, hsh, hcell⟩ := Maze.carve_spec inv.shaped ⟨hin.1, hin.2.1⟩
    ⟨hin.2.2.1, hin.2.2.2⟩ hd ⟨hnin.1, hnin.2.1⟩ ⟨hnin.2.2.1, hnin.2.2.2⟩
  rw [hcarve] at h3
  cases h3
  have hx1 := htop.1
  have hy1 := htop.2.1
  simp only at hx1 hy1
  refine ⟨htop, ?_, by rw [hcell]; simp, by rw [hcell]; simp, ?_, ?_⟩
  · intro a b hab
    rw [hcell]; split
    · rfl
    · exact hab
  · intro a b hab
    rw [hcell] at hab
    split at hab
    next hc => rcases hc with hc | hc
               · exact Or.inl hc
               · exact Or.inr (Or.inl hc)
    · exact Or.inr (Or.inr hab)
  · intro hmid
    have hne : s.maze.cell (x + dx) (y + dy) ≠ some '.' := by rw [hwall]; decide
    rcases (dir_mid_parity hd hx1 hy1).1 with ha | hb
    · have hb : (y + Int.tdiv dy 2) % 2 = 0 := by
        have := (dir_mid_parity hd hx1 hy1).2.1
        omega
      have hv := inv.vert _ _ hmid ha hb
      rcases dir_mid_vert hd hx1 ha with ⟨_, _, e3, e4⟩ | ⟨_, _, e3, e4⟩
      · rw [e4, e3] at hv; exact hne hv.2
      · rw [e4, e3] at hv; exact hne hv.1
    · have ha : (x + Int.tdiv dx 2) % 2 = 0 := by
        have := (dir_mid_parity hd hx1 hy1).2.1
        omega
      have hz := inv.horiz _ _ hmid ha hb
      rcases dir_mid_horiz hd hy1 hb with ⟨_, _, e3, e4⟩ | ⟨_, _, e3, e4⟩
      · rw [e4, e3] at hz; exact hne hz.2
      · rw [e4, e3] at hz; exact hne hz.1

/-! ## Counting passage cells -/

theorem Maze.mem_passages {m : Maze} (hs : m.Shaped) (p : Coord) :
    p ∈ m.passages ↔ m.cell p.1 p.2 = some '.' := by
  simp only [Maze.passages, Finset.mem_filter, Finset.mem_product, Finset.mem_Ico]
  constructor
  · exact fun hp => hp.2
  · intro hp
    have := (hs p.1 p.2).1 (by rw [hp]; rfl)
    exact ⟨⟨⟨this.1, this.2.1⟩, ⟨this.2.2.1, this.2.2.2⟩⟩, hp⟩

theorem Maze.passageCount_le (m : Maze) :
    m.passageCount ≤ m.width.toNat * m.height.toNat := by
  unfold Maze.passageCount Maze.passages
  refine le_trans (Finset.card_filter_le _ _) ?_
  rw [Finset.card_product, Int.card_Ico, Int.card_Ico]
  simp

/-- A carve step adds exactly two cells to the passage set: the target and the
midpoint, both of which were not passages before. -/
theorem Lattice.carve_passages {w h : Int} {s : GenState} (inv : Lattice w h s)
    {x y dx dy : Int} {below : List Coord} {m2 : Maze} (hst : s.stack = (x, y) :: below)
    (hd : (dx, dy) ∈ directions) (hwall : s.maze.cell (x + dx) (y + dy) = some '#')
    (hcarve : s.maze.carve x y dx dy = some m2) :
    m2.passages = insert (x + dx, y + dy)
      (insert (x + Int.tdiv dx 2, y + Int.tdiv dy 2) s.maze.passages) ∧
    (x + dx, y + dy) ∉ insert (x + Int.tdiv dx 2, y + Int.tdiv dy 2) s.maze.passages ∧
    (x + Int.tdiv dx 2, y + Int.tdiv dy 2) ∉ s.maze.passages ∧
    m2.passageCount = s.maze.passageCount + 2 := by
  have inv2 := inv.push hst hd hwall hcarve
  obtain ⟨htop, mono, htgt, hmid, hold, hmidw⟩ := inv.carve_cells hst hd hwall hcarve
  have h1 : m2.passages = insert (x + dx, y + dy)
      (insert (x + Int.tdiv dx 2, y + Int.tdiv dy 2) s.maze.passages) := by
    ext ⟨a, b⟩
    simp only [Finset.mem_insert, Maze.mem_passages inv2.shaped, Maze.mem_passages inv.shaped,
      Prod.mk.injEq]
    constructor
    · exact hold a b
    · rintro (⟨rfl, rfl⟩ | ⟨rfl, rfl⟩ | hab)
      · exact htgt
      · exact hmid
      · exact mono a b hab
  have h2 : (x + dx, y + dy) ∉ insert (x + Int.tdiv dx 2, y + Int.tdiv dy 2) s.maze.passages := by
    simp only [Finset.mem_insert, Maze.mem_passages inv.shaped, Prod.mk.injEq, not_or]
    exact ⟨(dir_mid_parity hd htop.1 htop.2.1).2.2, by rw [hwall]; decide⟩
  have h3 : (x + Int.tdiv dx 2, y + Int.tdiv dy 2) ∉ s.maze.passages := by
    rw [Maze.mem_passages inv.shaped]; exact hmidw
  refine ⟨h1, h2, h3, ?_⟩
  unfold Maze.passageCount
  rw [h1, Finset.card_insert_of_not_mem h2, Finset.card_insert_of_not_mem h3]

/-! ## Termination -/

/-- The progress measure of the loop: after `n` iterations either the stack is
empty or `n + 1 + |stack| ≤ 2 * (number of passages)`; and the number of
passages is `1 + 2 * (number of carve steps so far)`. -/
theorem loopState_progress {w h : Int} {sh : Nat → List Coord} {s0 : GenState}
    (hsh : ∀ i, (sh i).Perm directions) (inv0 : Lattice w h s0)
    (hst0 : s0.stack = [(1, 1)]) (hc0 : s0.maze.passageCount = 1) :
    ∀ n, ∃ s, loopState sh s0 n = some s ∧ Lattice w h s ∧
      ((s.stack = [] ∨ n + 1 + s.stack.length ≤ 2 * s.maze.passageCount) ∧
        s.maze.passageCount = 1 + 2 * carveSteps sh s0 n) := by
  refine loopState_induction hsh
    (fun n s => (s.stack = [] ∨ n + 1 + s.stack.length ≤ 2 * s.maze.passageCount) ∧
        s.maze.passageCount = 1 + 2 * carveSteps sh s0 n) inv0 ?_ ?_ ?_ ?_
  · exact ⟨Or.inr (by rw [hst0, hc0]; simp), by rw [hc0]; rfl⟩
  · intro n s hs hP hst
    refine ⟨Or.inl hst, ?_⟩
    have : isCarveStep (sh n) s = false := by simp [isCarveStep, hst]
    simp [carveSteps, hs, this, hP.2]
  · intro n s x y dx dy below m2 hs inv hP hst hd hwall hcarve hstep
    have hcount := (inv.carve_passages hst hd hwall hcarve).2.2.2
    refine ⟨Or.inr ?_, ?_⟩
    · rcases hP.1 with h1 | h1
      · rw [hst] at h1; cases h1
      · rw [hst] at h1
        simp only [List.length_cons] at h1 ⊢
        omega
    · simp only [carveSteps, hs, hstep, if_true]
      omega
  · intro n s x y below hs inv hP hst hno hstep
    refine ⟨?_, ?_⟩
    · rcases hP.1 with h1 | h1
      · rw [hst] at h1; cases h1
      · rw [hst] at h1
        simp only [List.length_cons] at h1
        right
        show n + 1 + 1 + below.length ≤ 2 * s.maze.passageCount
        omega
    · simp only [carveSteps, hs, hstep]
      simpa using hP.2

/-- Construction and the statements before the loop, for a grid with room for
the start cell: the initial loop state, with one passage. -/
theorem genStart_run {w h : Int} (hw : 2 ≤ w) (hh : 2 ≤ h) :
    ∃ m0 s0, Maze.create w h = some m0 ∧ genStart m0 = some s0 ∧ s0.stack = [(1, 1)] ∧
      Lattice w h s0 ∧ (∀ x y, s0.maze.cell x y = some '.' ↔ (x = 1 ∧ y = 1)) ∧
      s0.maze.passageCount = 1 ∧ s0.maze.adjacentPairs.card = 0 := by
  obtain ⟨m0, s0, hm0, hs0, hst0, hpass, inv0⟩ := genStart_spec hw hh
  refine ⟨m0, s0, hm0, hs0, hst0, inv0, hpass, ?_⟩
  have : s0.maze.passages = {(1, 1)} := by
    ext ⟨a, b⟩
    simp only [Maze.mem_passages inv0.shaped, hpass, Finset.mem_singleton, Prod.mk.injEq]
  unfold Maze.passageCount Maze.adjacentPairs
  rw [this]
  exact ⟨rfl, by decide⟩

/-- With `2 * width * height` iterations of fuel the loop has left with an empty
stack, and `generated` returns the maze of that final state. -/
theorem loopState_final {w h : Int} {sh : Nat → List Coord} {m0 : Maze} {s0 : GenState}
    (hsh : ∀ i, (sh i).Perm directions) (hm0 : Maze.create w h = some m0)
    (hs0 : genStart m0 = some s0) (inv0 : Lattice w h s0) (hst0 : s0.stack = [(1, 1)])
    (hc0 : s0.maze.passageCount = 1) {fuel : Nat} (hfuel : 2 * w.toNat * h.toNat ≤ fuel) :
    ∃ s, loopState sh s0 fuel = some s ∧ s.stack = [] ∧ generated sh fuel w h = some s.maze := by
  obtain ⟨s, hs, inv, hP, -⟩ := loopState_progress hsh inv0 hst0 hc0 fuel
  have hemp : s.stack = [] := by
    rcases hP with h1 | h1
    · exact h1
    · exfalso
      have := s.maze.passageCount_le
      rw [inv.width_eq, inv.height_eq] at this
      have h2 : 2 * s.maze.passageCount ≤ 2 * w.toNat * h.toNat := by
        rw [Nat.mul_assoc]; omega
      omega
  exact ⟨s, hs, hemp, by simp [generated, hm0, generateRecursiveBacktracking, hs0, hs, hemp]⟩

/-- A state property that holds after the statements before the loop and is
kept by carve and backtracking steps holds in the final state, whose maze is
what `generated` returns once the fuel is `2 * width * height` or more. -/
theorem generated_invariant {w h : Int} (hw : 2 ≤ w) (hh : 2 ≤ h) {sh : Nat → List Coord}
    (hsh : ∀ i, (sh i).Perm directions) (P : GenState → Prop)
    (h0 : ∀ s0 : GenState, s0.stack = [(1, 1)] →
      (∀ x y, s0.maze.cell x y = some '.' ↔ (x = 1 ∧ y = 1)) → Lattice w h s0 → P s0)
    (hpush : ∀ (s : GenState) (x y dx dy : Int) (below : List Coord) (m2 : Maze),
      Lattice w h s → P s → s.stack = (x, y) :: below → (dx, dy) ∈ directions →
      s.maze.cell (x + dx) (y + dy) = some '#' → s.maze.carve x y dx dy = some m2 →
      P { maze := m2, stack := (x + dx, y + dy) :: (x, y) :: below })
    (hpop : ∀ (s : GenState) (x y : Int) (below : List Coord),
      Lattice w h s → P s → s.stack = (x, y) :: below →
      (∀ d ∈ directions, s.maze.cell (x + d.1) (y + d.2) ≠ some '#') →
      P { maze := s.maze, stack := below })
    {fuel : Nat} (hfuel : 2 * w.toNat * h.toNat ≤ fuel) :
    ∃ s, generated sh fuel w h = some s.maze ∧ s.stack = [] ∧ Lattice w h s ∧ P s := by
  obtain ⟨m0, s0, hm0, hs0, hst0, inv0, hpass, hc0, -⟩ := genStart_run hw hh
  obtain ⟨s, hs, hemp, hgen⟩ := loopState_final hsh hm0 hs0 inv0 hst0 hc0 hfuel
  obtain ⟨s2, hs2, inv, hP⟩ := loopState_invariant hsh P inv0 (h0 s0 hst0 hpass inv0) hpush hpop fuel
  rw [hs] at hs2
  cases hs2
  exact ⟨s, hgen, hemp, inv, hP⟩

/-! ## Reachability -/

theorem Maze.reachable_refl {m : Maze} {p : Coord} (hp : m.cell p.1 p.2 = some '.') :
    m.reachable p p :=
  ⟨[p], rfl, rfl, List.chain'_singleton _, by simpa using hp⟩

theorem Maze.reachable_mono {m m2 : Maze} {p q : Coord}
    (hmono : ∀ a b, m.cell a b = some '.' → m2.cell a b = some '.')
    (hr : m.reachable p q) : m2.reachable p q := by
  obtain ⟨l, h1, h2, h3, h4⟩ := hr
  exact ⟨l, h1, h2, h3, fun c hc => hmono _ _ (h4 c hc)⟩

theorem Maze.reachable_snoc {m : Maze} {p q r : Coord} (hr : m.reachable p q)
    (hadj : orthAdjacent q r) (hp : m.cell r.1 r.2 = some '.') : m.reachable p r := by
  obtain ⟨l, h1, h2, h3, h4⟩ := hr
  have hne : l ≠ [] := by
    rintro rfl; cases h1
  refine ⟨l ++ [r], ?_, ?_, ?_, ?_⟩
  · rw [List.head?_append_of_ne_nil _ hne]; exact h1
  · simp
  · refine List.Chain'.append h3 (List.chain'_singleton _) ?_
    intro a ha b hb
    rw [h2] at ha
    cases ha
    simp only [List.head?_cons, Option.mem_def, Option.some.injEq] at hb
    subst hb
    exact hadj
  · intro c hc
    rcases List.mem_append.1 hc with hc | hc
    · exact h4 c hc
    · rw [List.mem_singleton.1 hc]; exact hp

/-! ## Counting adjacent pairs -/

/-- Adding a cell to a set adds as many adjacent pairs as the cell has
neighbours in the set. -/
theorem card_adjacentPairsOf_insert (P : Finset Coord) (c : Coord) (hc : c ∉ P) :
    (adjacentPairsOf (insert c P)).card =
      (adjacentPairsOf P).card + (P.filter (fun q => orthAdjacent c q)).card := by
  unfold adjacentPairsOf
  simp only [Finset.card_filter, Finset.sum_product, Finset.sum_insert hc]
  have h0 : (if c.1 = c.1 + 1 ∧ True ∨ True ∧ c.2 = c.2 + 1 then 1 else 0) = 0 := by
    rw [if_neg]; omega
  have h1 : ∀ x : Coord, (if orthAdjacent c x then 1 else 0) =
      (if x.1 = c.1 + 1 ∧ x.2 = c.2 ∨ x.1 = c.1 ∧ x.2 = c.2 + 1 then 1 else 0) +
        (if c.1 = x.1 + 1 ∧ c.2 = x.2 ∨ c.1 = x.1 ∧ c.2 = x.2 + 1 then 1 else 0) := by
    intro x
    unfold orthAdjacent
    split_ifs <;> omega
  rw [h0, Finset.sum_add_distrib, Finset.sum_congr rfl (fun x _ => h1 x), Finset.sum_add_distrib]
  omega

/-- A carve step adds exactly two adjacent pairs: stack top with midpoint and
midpoint with target. -/
theorem Lattice.carve_pairs {w h : Int} {s : GenState} (inv : Lattice w h s)
    {x y dx dy : Int} {below : List Coord} {m2 : Maze} (hst : s.stack = (x, y) :: below)
    (hd : (dx, dy) ∈ directions) (hwall : s.maze.cell (x + dx) (y + dy) = some '#')
    (hcarve : s.maze.carve x y dx dy = some m2) :
    m2.adjacentPairs.card = s.maze.adjacentPairs.card + 2 := by
  obtain ⟨hP2, htgtn, hmidn, -⟩ := inv.carve_passages hst hd hwall hcarve
  obtain ⟨htop, -, -, -, -, -⟩ := inv.carve_cells hst hd hwall hcarve
  have hx1 := htop.1
  have hy1 := htop.2.1
  have notwall : ∀ u v, s.maze.cell u v = some '.' → ¬ (u = x + dx ∧ v = y + dy) := by
    rintro u v huv ⟨rfl, rfl⟩
    rw [hwall] at huv
    exact absurd huv (by decide)
  have hdeg1 : s.maze.passages.filter
      (fun q => orthAdjacent (x + Int.tdiv dx 2, y + Int.tdiv dy 2) q) = {(x, y)} := by
    ext ⟨a, b⟩
    simp only [Finset.mem_filter, Finset.mem_singleton, Maze.mem_passages inv.shaped,
      Prod.mk.injEq]
    constructor
    · rintro ⟨hab, hadj⟩
      exact dir_mid_neighbour hd hx1 hy1 (inv.no_even a b hab) (notwall a b hab) hadj
    · rintro ⟨rfl, rfl⟩
      exact ⟨htop.2.2, (dir_adj_top_mid hd).2⟩
  have hdeg2 : (insert (x + Int.tdiv dx 2, y + Int.tdiv dy 2) s.maze.passages).filter
      (fun q => orthAdjacent (x + dx, y + dy) q) = {(x + Int.tdiv dx 2, y + Int.tdiv dy 2)} := by
    ext ⟨a, b⟩
    simp only [Finset.mem_filter, Finset.mem_insert, Finset.mem_singleton,
      Maze.mem_passages inv.shaped, Prod.mk.injEq]
    constructor
    · rintro ⟨hab | hab, hadj⟩
      · exact hab
      · exfalso
        rcases dir_target_neighbour hd hx1 hy1 hadj with ⟨ha, hb, e1, e2 | e2⟩ |
          ⟨ha, hb, e1, e2 | e2⟩
        · exact notwall _ _ (inv.vert a b hab ha hb).1 ⟨e1, e2⟩
        · exact notwall _ _ (inv.vert a b hab ha hb).2 ⟨e1, e2⟩
        · exact notwall _ _ (inv.horiz a b hab ha hb).1 ⟨e2, e1⟩
        · exact notwall _ _ (inv.horiz a b hab ha hb).2 ⟨e2, e1⟩
    · rintro ⟨rfl, rfl⟩
      exact ⟨Or.inl ⟨rfl, rfl⟩, (dir_adj_mid_target hd).2⟩
  unfold Maze.adjacentPairs
  rw [hP2, card_adjacentPairsOf_insert _ _ htgtn, card_adjacentPairsOf_insert _ _ hmidn,
    hdeg1, hdeg2]
  simp

/-! ## Monotone carving -/

theorem Maze.carve_dot_or_same {m m2 : Maze} {x y dx dy : Int} (h : m.carve x y dx dy = some m2)
    (a b : Int) : m2.cell a b = some '.' ∨ m2.cell a b = m.cell a b := by
  unfold Maze.carve at h
  split at h
  next m1 h1 =>
    rw [Maze.cell_setCell h, Maze.cell_setCell h1]
    split
    · exact Or.inl rfl
    · split
      · exact Or.inl rfl
      · exact Or.inr rfl
  · cases h

theorem scanDirections_cells {m m2 : Maze} {x y : Int} {r : Option Coord} :
    ∀ dirs : List Coord, scanDirections m x y dirs = some (m2, r) →
      ∀ a b : Int, m2.cell a b = some '.' ∨ m2.cell a b = m.cell a b := by
  intro dirs
  induction dirs with
  | nil =>
    intro h a b
    simp only [scanDirections, Option.some.injEq, Prod.mk.injEq] at h
    rw [h.1]; exact Or.inr rfl
  | cons d rest ih =>
    obtain ⟨dx, dy⟩ := d
    intro h a b
    unfold scanDirections at h
    split at h
    · cases h
    · split at h
      next m3 h3 =>
        simp only [Option.some.injEq, Prod.mk.injEq] at h
        rw [← h.1]
        exact Maze.carve_dot_or_same h3 a b
      · cases h
    · exact ih h a b

/-- One loop iteration, from any state and with any direction order: every cell
is afterwards `'.'` or what it was before. -/
theorem loopStep_cells {dirs : List Coord} {s s2 : GenState} (h : loopStep dirs s = some s2)
    (a b : Int) : s2.maze.cell a b = some '.' ∨ s2.maze.cell a b = s.maze.cell a b := by
  unfold loopStep at h
  split at h
  · cases h; exact Or.inr rfl
  · split at h
    · cases h
    next m2 next hscan =>
      cases h
      exact scanDirections_cells _ hscan a b
    next m2 hscan =>
      cases h
      exact scanDirections_cells _ hscan a b

theorem loopState_pred {sh : Nat → List Coord} {s0 s2 : GenState} {n : Nat}
    (h : loopState sh s0 (n + 1) = some s2) :
    ∃ s, loopState sh s0 n = some s ∧ loopStep (sh n) s = some s2 := by
  simp only [loopState] at h
  split at h
  next s hs => exact ⟨s, hs, h⟩
  · cases h

/-- Passages stay passages along a run, from any state. -/
theorem loopState_passage_mono {sh : Nat → List Coord} {s0 : GenState} {a b : Int} :
    ∀ (k n : Nat) (s s2 : GenState), loopState sh s0 n = some s →
      loopState sh s0 (n + k) = some s2 → s.maze.cell a b = some '.' →
      s2.maze.cell a b = some '.' := by
  intro k
  induction k with
  | zero =>
    intro n s s2 h1 h2 hab
    rw [Nat.add_zero, h1] at h2
    cases h2
    exact hab
  | succ k ih =>
    intro n s s2 h1 h2 hab
    obtain ⟨s1, hs1, hstep⟩ := loopState_pred (show loopState sh s0 (n + k + 1) = some s2 from h2)
    have := ih n s s1 h1 hs1 hab
    rcases loopStep_cells hstep a b with h3 | h3
    · exact h3
    · rw [h3]; exact this

theorem Maze.create_shaped {w h : Int} {m : Maze} (hm : Maze.create w h = some m) :
    m.Shaped := by
  have hwh : 0 ≤ w ∧ 0 ≤ h := by
    unfold Maze.create at hm
    split at hm
    next hc => exact hc
    · cases hm
  obtain ⟨m2, hm2, hw, hh, -, hcell⟩ := Maze.create_spec hwh.1 hwh.2
  rw [hm] at hm2
  cases hm2
  intro x y
  rw [hcell, hw, hh]
  split
  next hc => simpa using hc
  next hc => simpa using hc

/-- In the final state of a run from the all-wall grid every passage with two
odd coordinates has been backtracked out of, so each of its lattice neighbours
inside the grid is a passage. -/
theorem generated_explored {w h : Int} (hw : 2 ≤ w) (hh : 2 ≤ h) {sh : Nat → List Coord}
    (hsh : ∀ i, (sh i).Perm directions) {fuel : Nat} (hfuel : 2 * w.toNat * h.toNat ≤ fuel) :
    ∃ s, generated sh fuel w h = some s.maze ∧ s.stack = [] ∧ Lattice w h s ∧
      ∀ x y : Int, s.maze.cell x y = some '.' → x % 2 = 1 → y % 2 = 1 → (x, y) ∉ s.stack →
        ∀ d ∈ directions, (s.maze.cell (x + d.1) (y + d.2)).isSome →
          s.maze.cell (x + d.1) (y + d.2) = some '.' := by
  refine generated_invariant hw hh hsh
    (fun s => ∀ x y : Int, s.maze.cell x y = some '.' → x % 2 = 1 → y % 2 = 1 →
      (x, y) ∉ s.stack → ∀ d ∈ directions, (s.maze.cell (x + d.1) (y + d.2)).isSome →
        s.maze.cell (x + d.1) (y + d.2) = some '.') ?_ ?_ ?_ hfuel
  · intro s0 hst0 hpass _ x y hxy _ _ hnot
    obtain ⟨rfl, rfl⟩ := (hpass x y).1 hxy
    rw [hst0] at hnot
    exact absurd (List.mem_singleton.2 rfl) hnot
  · intro s x y dx dy below m2 inv hP hst hd hwall hcarve a b hab ha hb hnot e he hsome
    have inv2 := inv.push hst hd hwall hcarve
    obtain ⟨htop, mono, -, -, hold, -⟩ := inv.carve_cells hst hd hwall hcarve
    have hx1 := htop.1
    have hy1 := htop.2.1
    have hold2 : s.maze.cell a b = some '.' := by
      rcases hold a b hab with ⟨rfl, rfl⟩ | hc | hc
      · exact absurd (List.mem_cons_self _ _) hnot
      · obtain ⟨rfl, rfl⟩ := hc
        exact absurd ⟨ha, hb⟩ (dir_mid_parity hd hx1 hy1).2.1
      · exact hc
    refine mono _ _ (hP a b hold2 ha hb ?_ e he ?_)
    · intro hmem
      exact hnot (List.mem_cons_of_mem _ (by rw [hst] at hmem; exact hmem))
    · have hw2 : m2.width = w := inv2.width_eq
      have hh2 : m2.height = h := inv2.height_eq
      have := (inv2.shaped _ _).1 hsome
      simp only [hw2, hh2] at this
      exact (inv.shaped _ _).2 (by rw [inv.width_eq, inv.height_eq]; exact this)
  · intro s x y below inv hP hst hno a b hab ha hb hnot e he hsome
    have hsome2 : (s.maze.cell (a + e.1) (b + e.2)).isSome := hsome
    change s.maze.cell (a + e.1) (b + e.2) = some '.'
    by_cases htop : (a, b) = (x, y)
    · cases htop
      cases hc : s.maze.cell (x + e.1) (y + e.2) with
      | none => rw [hc] at hsome2; cases hsome2
      | some c =>
        rcases inv.chars _ _ c hc with rfl | rfl
        · exact absurd hc (hno e he)
        · rfl
    · refine hP a b hab ha hb ?_ e he hsome
      rw [hst]
      intro hmem
      rcases List.mem_cons.1 hmem with h1 | h1
      · exact htop h1
      · exact hnot h1

/-! ## The claims -/

/-- C8, start and corner cells: for every width and height of at least 3 and
every sequence of shuffle outcomes, generation returns a maze in which cell
`(1,1)` is a passage and cell `(0,0)` is a wall. -/
theorem start_passage_corner_wall (w h : Int) (hw : 3 ≤ w) (hh : 3 ≤ h)
    (sh : Nat → List Coord) (hsh : ∀ i, (sh i).Perm directions)
    (fuel : Nat) (hfuel : 2 * w.toNat * h.toNat ≤ fuel) :
    ∃ m, generated sh fuel w h = some m ∧ m.cell 1 1 = some '.' ∧ m.isPath 1 1 = some true ∧
      m.cell 0 0 = some '#' := by
  obtain ⟨s, hgen, -, inv, -⟩ := generated_invariant (by omega : 2 ≤ w) (by omega : 2 ≤ h) hsh
    (fun _ => True) (fun _ _ _ _ => trivial) (fun _ _ _ _ _ _ _ _ _ _ _ _ _ => trivial)
    (fun _ _ _ _ _ _ _ _ => trivial) hfuel
  refine ⟨s.maze, hgen, inv.start, ?_, ?_⟩
  · rw [Maze.isPath_of_shaped inv.shaped, inv.start]; rfl
  · have hin : (s.maze.cell 0 0).isSome := (inv.shaped 0 0).2 (by
      rw [inv.width_eq, inv.height_eq]; omega)
    cases hc : s.maze.cell 0 0 with
    | none => rw [hc] at hin; cases hin
    | some c =>
      rcases inv.chars 0 0 c hc with rfl | rfl
      · rfl
      · exact absurd (inv.no_even 0 0 hc) (by decide)

theorem start_passage_corner_wall_witness :
    generated (fun _ => directions) 50 5 5 = some finalGrid5 ∧
      finalGrid5.cell 1 1 = some '.' ∧ finalGrid5.isPath 1 1 = some true ∧
      finalGrid5.cell 0 0 = some '#' := by
  obtain ⟨m, hm, h1, h2, h3⟩ := start_passage_corner_wall 5 5 (by decide) (by decide)
    (fun _ => directions) (fun _ => List.Perm.refl _) 50 (by decide)
  have hfin : generated (fun _ => directions) 50 5 5 = some finalGrid5 := by decide
  rw [hfin] at hm
  cases hm
  exact ⟨hfin, h1, h2, h3⟩

/-- C4, boundary preservation: for every odd width and odd height of at least 3
and every sequence of shuffle outcomes, generation returns a maze in which
every border cell (`x = 0`, `x = width - 1`, `y = 0` or `y = height - 1`) is
still a wall `'#'`. -/
theorem border_stays_wall (w h : Int) (hw : 3 ≤ w) (hh : 3 ≤ h)
    (hwodd : w % 2 = 1) (hhodd : h % 2 = 1)
    (sh : Nat → List Coord) (hsh : ∀ i, (sh i).Perm directions)
    (fuel : Nat) (hfuel : 2 * w.toNat * h.toNat ≤ fuel) :
    ∃ m, generated sh fuel w h = some m ∧
      ∀ x y : Int, 0 ≤ x → x < w → 0 ≤ y → y < h →
        (x = 0 ∨ x = w - 1 ∨ y = 0 ∨ y = h - 1) → m.cell x y = some '#' := by
  obtain ⟨s, hgen, -, inv, -⟩ := generated_invariant (by omega : 2 ≤ w) (by omega : 2 ≤ h) hsh
    (fun _ => True) (fun _ _ _ _ => trivial) (fun _ _ _ _ _ _ _ _ _ _ _ _ _ => trivial)
    (fun _ _ _ _ _ _ _ _ => trivial) hfuel
  refine ⟨s.maze, hgen, ?_⟩
  intro x y hx0 hx1 hy0 hy1 hb
  have hin : (s.maze.cell x y).isSome := (inv.shaped x y).2 (by
    rw [inv.width_eq, inv.height_eq]; omega)
  have inside : ∀ a b, s.maze.cell a b = some '.' → 0 ≤ a ∧ a < w ∧ 0 ≤ b ∧ b < h := by
    intro a b hab
    have := (inv.shaped a b).1 (by rw [hab]; rfl)
    rwa [inv.width_eq, inv.height_eq] at this
  cases hc : s.maze.cell x y with
  | none => rw [hc] at hin; cases hin
  | some c =>
    rcases inv.chars x y c hc with rfl | rfl
    · rfl
    · exfalso
      have hne := inv.no_even x y hc
      by_cases hxe : x % 2 = 0
      · have hyo : y % 2 = 1 := by omega
        have hz := inv.horiz x y hc hxe hyo
        have h1 := inside _ _ hz.1
        have h2 := inside _ _ hz.2
        omega
      · have hxo : x % 2 = 1 := by omega
        have hye : y % 2 = 0 := by omega
        have hz := inv.vert x y hc hxo hye
        have h1 := inside _ _ hz.1
        have h2 := inside _ _ hz.2
        omega

theorem border_stays_wall_witness :
    generated (fun _ => directions) 50 5 5 = some finalGrid5 ∧
      finalGrid5.cell 4 2 = some '#' ∧ finalGrid5.cell 1 0 = some '#' := by
  obtain ⟨m, hm, hb⟩ := border_stays_wall 5 5 (by decide) (by decide) (by decide) (by decide)
    (fun _ => directions) (fun _ => List.Perm.refl _) 50 (by decide)
  have hfin : generated (fun _ => directions) 50 5 5 = some finalGrid5 := by decide
  rw [hfin] at hm
  cases hm
  exact ⟨hfin, hb 4 2 (by decide) (by decide) (by decide) (by decide) (by decide),
    hb 1 0 (by decide) (by decide) (by decide) (by decide) (by decide)⟩

/-- C5, termination: for every width and height of at least 3 and every infinite
sequence of shuffle outcomes, the loop started on the freshly constructed
all-wall grid reaches an empty stack after at most `2 * width * height`
iterations; every iteration on a non-empty stack succeeds and is either a carve
step, which pushes one coordinate and strictly increases the number of passage
cells, or a non-pushing step, which strictly shrinks the stack. -/
theorem loop_terminates (w h : Int) (hw : 3 ≤ w) (hh : 3 ≤ h)
    (sh : Nat → List Coord) (hsh : ∀ i, (sh i).Perm directions) :
    ∃ m0 s0, Maze.create w h = some m0 ∧ genStart m0 = some s0 ∧
      (∃ n s, n ≤ 2 * w.toNat * h.toNat ∧ loopState sh s0 n = some s ∧ s.stack = []) ∧
      ∀ i s, loopState sh s0 i = some s → s.stack ≠ [] →
        ∃ s2, loopState sh s0 (i + 1) = some s2 ∧
          ((isCarveStep (sh i) s = true ∧ (∃ p, s2.stack = p :: s.stack) ∧
              s.maze.passageCount < s2.maze.passageCount) ∨
            (isCarveStep (sh i) s = false ∧ s2.stack.length < s.stack.length)) := by
  obtain ⟨m0, s0, hm0, hs0, hst0, inv0, -, hc0, -⟩ := genStart_run (by omega : 2 ≤ w)
    (by omega : 2 ≤ h)
  refine ⟨m0, s0, hm0, hs0, ?_, ?_⟩
  · obtain ⟨s, hs, hemp, -⟩ := loopState_final hsh hm0 hs0 inv0 hst0 hc0 (le_refl _)
    exact ⟨_, s, le_refl _, hs, hemp⟩
  · intro i s hs hne
    obtain ⟨s1, hs1, inv, -⟩ := loopState_invariant hsh (fun _ => True) inv0 trivial
      (fun _ _ _ _ _ _ _ _ _ _ _ _ _ => trivial) (fun _ _ _ _ _ _ _ _ => trivial) i
    rw [hs] at hs1
    cases hs1
    cases hst : s.stack with
    | nil => exact absurd hst hne
    | cons p below =>
      obtain ⟨x, y⟩ := p
      have htop := inv.stack_ok (x, y) (by rw [hst]; exact List.mem_cons_self _ _)
      have hin := (inv.shaped x y).1 (by rw [htop.2.2]; rfl)
      have hd : ∀ d ∈ sh i, d ∈ directions := fun d hdm => (hsh i).mem_iff.1 hdm
      simp only [loopState, hs]
      rcases loopStep_spec inv.shaped hst ⟨hin.1, hin.2.1⟩ ⟨hin.2.2.1, hin.2.2.2⟩ hd with
        ⟨pre, dx, dy, post, m2, h1, _, h3, h4, h5, h6⟩ | ⟨h1, h2, h6⟩
      · have hmem : (dx, dy) ∈ directions := hd _ (by rw [h1]; simp)
        have hcount := (inv.carve_passages hst hmem h3 h4).2.2.2
        exact ⟨_, h5, Or.inl ⟨h6, ⟨_, rfl⟩, by simp only; omega⟩⟩
      · exact ⟨_, h2, Or.inr ⟨h6, by simp⟩⟩

theorem loop_terminates_witness :
    (Maze.create 5 5).bind genStart = some startGrid5 ∧
      (∃ n s, n ≤ 50 ∧ loopState (fun _ => directions) startGrid5 n = some s ∧ s.stack = []) ∧
      ∃ s2, loopState (fun _ => directions) startGrid5 1 = some s2 ∧
        ((isCarveStep directions startGrid5 = true ∧ (∃ p, s2.stack = p :: startGrid5.stack) ∧
            startGrid5.maze.passageCount < s2.maze.passageCount) ∨
          (isCarveStep directions startGrid5 = false ∧
            s2.stack.length < startGrid5.stack.length)) := by
  obtain ⟨m0, s0, h1, h2, hfin, hstep⟩ := loop_terminates 5 5 (by decide) (by decide)
    (fun _ => directions) (fun _ => List.Perm.refl _)
  have hstart : (Maze.create 5 5).bind genStart = some startGrid5 := by decide
  rw [h1, Option.some_bind, h2] at hstart
  cases hstart
  exact ⟨by decide, hfin, hstep 0 startGrid5 rfl (by decide)⟩

/-- C1, connectivity: for every width and height of at least 3 and every
sequence of shuffle outcomes, generation on the freshly constructed all-wall
grid returns a maze in which every passage cell is reachable from cell `(1,1)`
by a path of orthogonally adjacent passage cells. -/
theorem passages_connected (w h : Int) (hw : 3 ≤ w) (hh : 3 ≤ h)
    (sh : Nat → List Coord) (hsh : ∀ i, (sh i).Perm directions)
    (fuel : Nat) (hfuel : 2 * w.toNat * h.toNat ≤ fuel) :
    ∃ m, generated sh fuel w h = some m ∧
      ∀ x y : Int, m.cell x y = some '.' → m.reachable (1, 1) (x, y) := by
  suffices key : ∃ s, generated sh fuel w h = some s.maze ∧ s.stack = [] ∧ Lattice w h s ∧
      ∀ x y : Int, s.maze.cell x y = some '.' → s.maze.reachable (1, 1) (x, y) by
    obtain ⟨s, hgen, -, -, hP⟩ := key
    exact ⟨s.maze, hgen, hP⟩
  refine generated_invariant (by omega : 2 ≤ w) (by omega : 2 ≤ h) hsh
    (fun s => ∀ x y : Int, s.maze.cell x y = some '.' → s.maze.reachable (1, 1) (x, y))
    ?_ ?_ ?_ hfuel
  · intro s0 _ hpass _ x y hxy
    obtain ⟨rfl, rfl⟩ := (hpass x y).1 hxy
    exact Maze.reachable_refl hxy
  · intro s x y dx dy below m2 inv hP hst hd hwall hcarve
    obtain ⟨htop, mono, htgt, hmid, hold, -⟩ := inv.carve_cells hst hd hwall hcarve
    have rtop : m2.reachable (1, 1) (x, y) := Maze.reachable_mono mono (hP x y htop.2.2)
    have rmid : m2.reachable (1, 1) (x + Int.tdiv dx 2, y + Int.tdiv dy 2) :=
      Maze.reachable_snoc rtop (dir_adj_top_mid hd).1 hmid
    have rtgt : m2.reachable (1, 1) (x + dx, y + dy) :=
      Maze.reachable_snoc rmid (dir_adj_mid_target hd).1 htgt
    intro a b hab
    rcases hold a b hab with ⟨rfl, rfl⟩ | ⟨rfl, rfl⟩ | hc
    · exact rtgt
    · exact rmid
    · exact Maze.reachable_mono mono (hP a b hc)
  · intro s x y below _ hP _ _
    exact hP

theorem passages_connected_witness :
    generated (fun _ => directions) 50 5 5 = some finalGrid5 ∧
      finalGrid5.cell 3 1 = some '.' ∧ finalGrid5.reachable (1, 1) (3, 1) := by
  obtain ⟨m, hm, hr⟩ := passages_connected 5 5 (by decide) (by decide)
    (fun _ => directions) (fun _ => List.Perm.refl _) 50 (by decide)
  have hfin : generated (fun _ => directions) 50 5 5 = some finalGrid5 := by decide
  rw [hfin] at hm
  cases hm
  exact ⟨hfin, by decide, hr 3 1 (by decide)⟩

/-- C3, spanning: for every width and height of at least 3 (odd ones in
particular) and every sequence of shuffle outcomes, generation on the freshly
constructed all-wall grid returns a maze in which every in-bounds cell `(x, y)`
with `x` odd and `y` odd is a passage. -/
theorem odd_lattice_spanned (w h : Int) (hw : 3 ≤ w) (hh : 3 ≤ h)
    (sh : Nat → List Coord) (hsh : ∀ i, (sh i).Perm directions)
    (fuel : Nat) (hfuel : 2 * w.toNat * h.toNat ≤ fuel) :
    ∃ m, generated sh fuel w h = some m ∧
      ∀ x y : Int, 0 ≤ x → x < w → 0 ≤ y → y < h → x % 2 = 1 → y % 2 = 1 →
        m.cell x y = some '.' := by
  suffices key : ∃ s, generated sh fuel w h = some s.maze ∧ s.stack = [] ∧ Lattice w h s ∧
      ∀ x y : Int, s.maze.cell x y = some '.' → x % 2 = 1 → y % 2 = 1 → (x, y) ∉ s.stack →
        ∀ d ∈ directions, (s.maze.cell (x + d.1) (y + d.2)).isSome →
          s.maze.cell (x + d.1) (y + d.2) = some '.' by
    obtain ⟨s, hgen, hemp, inv, hP⟩ := key
    refine ⟨s.maze, hgen, ?_⟩
    have hstep : ∀ x y : Int, s.maze.cell x y = some '.' → x % 2 = 1 → y % 2 = 1 →
        ∀ dx dy : Int, (dx, dy) ∈ directions → 0 ≤ x + dx → x + dx < w → 0 ≤ y + dy →
          y + dy < h → s.maze.cell (x + dx) (y + dy) = some '.' := by
      intro x y hxy hx hy dx dy hd h1 h2 h3 h4
      refine hP x y hxy hx hy (by rw [hemp]; simp) (dx, dy) hd ((inv.shaped _ _).2 ?_)
      rw [inv.width_eq, inv.height_eq]
      exact ⟨h1, h2, h3, h4⟩
    have hrow : ∀ j : Nat, 2 * (j : Int) + 1 < h → s.maze.cell 1 (2 * (j : Int) + 1) = some '.' := by
      intro j
      induction j with
      | zero => intro _; exact inv.start
      | succ j ih =>
        intro hj
        have := hstep 1 (2 * (j : Int) + 1) (ih (by push_cast at hj; omega)) (by decide)
          (by omega) 0 2 (by decide) (by omega) (by omega) (by omega) (by push_cast at hj; omega)
        convert this using 2
    have hall : ∀ i j : Nat, 2 * (i : Int) + 1 < w → 2 * (j : Int) + 1 < h →
        s.maze.cell (2 * (i : Int) + 1) (2 * (j : Int) + 1) = some '.' := by
      intro i
      induction i with
      | zero => intro j _ hj; exact hrow j hj
      | succ i ih =>
        intro j hi hj
        have := hstep (2 * (i : Int) + 1) (2 * (j : Int) + 1)
          (ih j (by push_cast at hi; omega) hj) (by omega) (by omega) 2 0 (by decide)
          (by omega) (by push_cast at hi; omega) (by omega) (by omega)
        convert this using 2
    intro x y hx0 hx1 hy0 hy1 hxo hyo
    have := hall (x / 2).toNat (y / 2).toNat (by omega) (by omega)
    convert this using 2 <;> omega
  exact generated_explored (by omega : 2 ≤ w) (by omega : 2 ≤ h) hsh hfuel

theorem odd_lattice_spanned_witness :
    generated (fun _ => directions) 50 5 5 = some finalGrid5 ∧
      finalGrid5.cell 3 3 = some '.' ∧ finalGrid5.cell 3 1 = some '.' := by
  obtain ⟨m, hm, hodd⟩ := odd_lattice_spanned 5 5 (by decide) (by decide)
    (fun _ => directions) (fun _ => List.Perm.refl _) 50 (by decide)
  have hfin : generated (fun _ => directions) 50 5 5 = some finalGrid5 := by decide
  rw [hfin] at hm
  cases hm
  exact ⟨hfin, hodd 3 3 (by decide) (by decide) (by decide) (by decide) (by decide) (by decide),
    hodd 3 1 (by decide) (by decide) (by decide) (by decide) (by decide) (by decide)⟩

/-- C2, acyclicity: for every width and height of at least 3 and every sequence
of shuffle outcomes, starting from the all-wall grid, at every loop-iteration
boundary and in the final grid the number of unordered pairs of orthogonally
adjacent passage cells equals the number of passage cells minus one. -/
theorem passages_acyclic (w h : Int) (hw : 3 ≤ w) (hh : 3 ≤ h)
    (sh : Nat → List Coord) (hsh : ∀ i, (sh i).Perm directions) :
    ∃ m0 s0, Maze.create w h = some m0 ∧ genStart m0 = some s0 ∧
      (∀ n, ∃ s, loopState sh s0 n = some s ∧
        s.maze.adjacentPairs.card + 1 = s.maze.passageCount) ∧
      (∀ fuel, 2 * w.toNat * h.toNat ≤ fuel →
        ∃ m, generated sh fuel w h = some m ∧ m.adjacentPairs.card + 1 = m.passageCount) := by
  obtain ⟨m0, s0, hm0, hs0, hst0, inv0, -, hc0, he0⟩ := genStart_run (by omega : 2 ≤ w)
    (by omega : 2 ≤ h)
  have hall : ∀ n, ∃ s, loopState sh s0 n = some s ∧ Lattice w h s ∧
      s.maze.adjacentPairs.card + 1 = s.maze.passageCount := by
    refine loopState_invariant hsh
      (fun s => s.maze.adjacentPairs.card + 1 = s.maze.passageCount) inv0 ?_ ?_ ?_
    · show s0.maze.adjacentPairs.card + 1 = s0.maze.passageCount
      rw [hc0, he0]
    · intro s x y dx dy below m2 inv hP hst hd hwall hcarve
      have h1 := inv.carve_pairs hst hd hwall hcarve
      have h2 := (inv.carve_passages hst hd hwall hcarve).2.2.2
      show m2.adjacentPairs.card + 1 = m2.passageCount
      omega
    · intro s x y below _ hP _ _
      exact hP
  refine ⟨m0, s0, hm0, hs0, ?_, ?_⟩
  · intro n
    obtain ⟨s, hs, -, hP⟩ := hall n
    exact ⟨s, hs, hP⟩
  · intro fuel hfuel
    obtain ⟨s, hs, -, hgen⟩ := loopState_final hsh hm0 hs0 inv0 hst0 hc0 hfuel
    obtain ⟨s2, hs2, -, hP⟩ := hall fuel
    rw [hs] at hs2
    cases hs2
    exact ⟨s.maze, hgen, hP⟩

theorem passages_acyclic_witness :
    (Maze.create 5 5).bind genStart = some startGrid5 ∧
      (∃ s, loopState (fun _ => directions) startGrid5 3 = some s ∧
        s.maze.adjacentPairs.card + 1 = s.maze.passageCount) ∧
      generated (fun _ => directions) 50 5 5 = some finalGrid5 ∧
      finalGrid5.adjacentPairs.card + 1 = finalGrid5.passageCount := by
  obtain ⟨m0, s0, h1, h2, hall, hfinal⟩ := passages_acyclic 5 5 (by decide) (by decide)
    (fun _ => directions) (fun _ => List.Perm.refl _)
  have hstart : (Maze.create 5 5).bind genStart = some startGrid5 := by decide
  rw [h1, Option.some_bind, h2] at hstart
  cases hstart
  obtain ⟨m, hm, hcount⟩ := hfinal 50 (by decide)
  have hfin : generated (fun _ => directions) 50 5 5 = some finalGrid5 := by decide
  rw [hfin] at hm
  cases hm
  exact ⟨by decide, hall 3, hfin, hcount⟩

/-- C9 as stated fails: on the 5 x 5 grid with every shuffle leaving the
directions in their initial order, the run ends after 7 iterations with 7
passage cells and 3 carve steps, and 7 is not 1 + 3. -/
theorem passage_count_not_one_plus_carves :
    ∃ m0 s0 s, Maze.create 5 5 = some m0 ∧ genStart m0 = some s0 ∧
      loopState (fun _ => directions) s0 7 = some s ∧ s.stack = [] ∧
      generated (fun _ => directions) 7 5 5 = some s.maze ∧
      s.maze.passageCount = 7 ∧ carveSteps (fun _ => directions) s0 7 = 3 ∧
      ¬ (s.maze.passageCount = 1 + carveSteps (fun _ => directions) s0 7) :=
  ⟨_, _, _, rfl, rfl, rfl, by decide, by decide, by decide, by decide, by decide⟩

/-- C9 amended: for a 5 x 5 grid and every sequence of shuffle outcomes, the run
ends with an empty stack, and the total number of passage cells of the
returned maze is odd and equals 1 + 2 * (the number of carve steps taken). -/
theorem passage_count_odd (sh : Nat → List Coord) (hsh : ∀ i, (sh i).Perm directions)
    (fuel : Nat) (hfuel : 50 ≤ fuel) :
    ∃ m0 s0 s, Maze.create 5 5 = some m0 ∧ genStart m0 = some s0 ∧
      loopState sh s0 fuel = some s ∧ s.stack = [] ∧
      generated sh fuel 5 5 = some s.maze ∧
      s.maze.passageCount % 2 = 1 ∧
      s.maze.passageCount = 1 + 2 * carveSteps sh s0 fuel := by
  obtain ⟨m0, s0, hm0, hs0, hst0, inv0, -, hc0, -⟩ := genStart_run (by decide : (2 : Int) ≤ 5)
    (by decide : (2 : Int) ≤ 5)
  obtain ⟨s, hs, hemp, hgen⟩ := loopState_final hsh hm0 hs0 inv0 hst0 hc0
    (show 2 * (5 : Int).toNat * (5 : Int).toNat ≤ fuel from hfuel)
  obtain ⟨s2, hs2, -, -, hcount⟩ := loopState_progress hsh inv0 hst0 hc0 fuel
  rw [hs] at hs2
  cases hs2
  exact ⟨m0, s0, s, hm0, hs0, hs, hemp, hgen, by omega, hcount⟩

theorem passage_count_odd_witness :
    (Maze.create 5 5).bind genStart = some startGrid5 ∧
      generated (fun _ => directions) 50 5 5 = some finalGrid5 ∧
      finalGrid5.passageCount % 2 = 1 ∧
      finalGrid5.passageCount = 1 + 2 * carveSteps (fun _ => directions) startGrid5 50 := by
  obtain ⟨m0, s0, s, h1, h2, -, -, hgen, hodd, hcount⟩ := passage_count_odd
    (fun _ => directions) (fun _ => List.Perm.refl _) 50 (le_refl _)
  have hstart : (Maze.create 5 5).bind genStart = some startGrid5 := by decide
  rw [h1, Option.some_bind, h2] at hstart
  cases hstart
  have hfin : generated (fun _ => directions) 50 5 5 = some finalGrid5 := by decide
  have hs : s.maze = finalGrid5 := Option.some.inj (hgen.symm.trans hfin)
  rw [hs] at hodd hcount
  exact ⟨by decide, hfin, hodd, hcount⟩

/-- C10, monotone carving: from every starting state and for every sequence of
direction orders, a cell that is a passage before a loop iteration is a passage
after it, and a cell whose content changes in one iteration does not change in
any later iteration (each cell changes at most once over the whole run). -/
theorem carving_monotone (sh : Nat → List Coord) (s0 : GenState) (x y : Int) :
    (∀ (n : Nat) (s s2 : GenState), loopState sh s0 n = some s →
        loopState sh s0 (n + 1) = some s2 → s.maze.cell x y = some '.' →
        s2.maze.cell x y = some '.') ∧
    (∀ (i j : Nat) (si si2 sj sj2 : GenState), i < j →
        loopState sh s0 i = some si → loopState sh s0 (i + 1) = some si2 →
        loopState sh s0 j = some sj → loopState sh s0 (j + 1) = some sj2 →
        si2.maze.cell x y ≠ si.maze.cell x y → sj2.maze.cell x y = sj.maze.cell x y) := by
  refine ⟨?_, ?_⟩
  · intro n s s2 h1 h2 hab
    exact loopState_passage_mono 1 n s s2 h1 h2 hab
  · intro i j si si2 sj sj2 hij h1 h2 h3 h4 hchg
    obtain ⟨s, hs, hstep⟩ := loopState_pred h2
    rw [h1] at hs
    cases hs
    have hdot : si2.maze.cell x y = some '.' := by
      rcases loopStep_cells hstep x y with h5 | h5
      · exact h5
      · exact absurd h5 hchg
    obtain ⟨k, rfl⟩ : ∃ k, j = i + 1 + k := ⟨j - (i + 1), by omega⟩
    have hj := loopState_passage_mono k (i + 1) si2 sj h2 h3 hdot
    have hj2 := loopState_passage_mono 1 (i + 1 + k) sj sj2 h3 h4 hj
    rw [hj, hj2]

theorem carving_monotone_witness :
    (Maze.create 5 5).bind genStart = some startGrid5 ∧
    ∃ s1 s2 : GenState, loopState (fun _ => directions) startGrid5 1 = some s1 ∧
      loopState (fun _ => directions) startGrid5 2 = some s2 ∧
      startGrid5.maze.cell 1 1 = some '.' ∧ s1.maze.cell 1 1 = some '.' ∧
      s1.maze.cell 1 3 ≠ startGrid5.maze.cell 1 3 ∧ s2.maze.cell 1 3 = s1.maze.cell 1 3 :=
  ⟨by decide, _, _, rfl, rfl, rfl,
    (carving_monotone (fun _ => directions) startGrid5 1 1).1 0 startGrid5 _ rfl rfl rfl,
    by decide,
    (carving_monotone (fun _ => directions) startGrid5 1 3).2 0 1 startGrid5 _ _ _
      (by decide) rfl rfl rfl rfl (by decide)⟩

/-- C6, `isPath`: for every maze state and all integers `x`, `y`, `isPath`
returns true exactly when `0 ≤ x < width`, `0 ≤ y < height` and `grid[y][x]` is
`'.'`; for every coordinate outside `width × height`, `(-1, 0)` and
`(width, 0)` among them, it returns false whatever the grid holds (the grid is
not indexed); and on a maze whose grid has the shape `width × height` it always
returns a value (no access outside the grid). -/
theorem isPath_spec (m : Maze) (x y : Int) :
    (m.isPath x y = some true ↔
      (0 ≤ x ∧ x < m.width ∧ 0 ≤ y ∧ y < m.height ∧ m.cell x y = some '.')) ∧
    (¬ (0 ≤ x ∧ x < m.width ∧ 0 ≤ y ∧ y < m.height) → m.isPath x y = some false) ∧
    m.isPath (-1) 0 = some false ∧ m.isPath m.width 0 = some false ∧
    (m.Shaped → m.isPath x y =
      some (decide (0 ≤ x ∧ x < m.width ∧ 0 ≤ y ∧ y < m.height ∧ m.cell x y = some '.'))) := by
  refine ⟨?_, ?_, ?_, ?_, ?_⟩
  · unfold Maze.isPath
    split
    next hout =>
      simp only [Option.some.injEq, Bool.false_eq_true, false_iff]
      intro hc
      omega
    next hin =>
      have hin2 : 0 ≤ x ∧ x < m.width ∧ 0 ≤ y ∧ y < m.height := by omega
      cases hc : m.cell x y with
      | none => simp
      | some c =>
        by_cases hdot : c = '.'
        · simp [hdot, hin2]
        · simp [hdot]
  · intro hout
    unfold Maze.isPath
    rw [if_pos (by omega)]
  · unfold Maze.isPath
    rw [if_pos (Or.inl (by decide))]
  · unfold Maze.isPath
    rw [if_pos (Or.inr (Or.inl (le_refl _)))]
  · intro hs
    rw [Maze.isPath_of_shaped hs]
    congr 1
    by_cases hc : m.cell x y = some '.'
    · have := (hs x y).1 (by rw [hc]; rfl)
      simp [hc, this]
    · simp [hc]

theorem isPath_spec_witness :
    ∃ m, Maze.create 3 3 = some m ∧
      ¬ (0 ≤ (-1 : Int) ∧ (-1 : Int) < m.width ∧ 0 ≤ (0 : Int) ∧ (0 : Int) < m.height) ∧
      m.Shaped ∧ m.isPath (-1) 0 = some false ∧
      m.isPath (-1) 0 = some (decide (0 ≤ (-1 : Int) ∧ (-1 : Int) < m.width ∧
        0 ≤ (0 : Int) ∧ (0 : Int) < m.height ∧ m.cell (-1) 0 = some '.')) :=
  ⟨_, rfl, by decide, Maze.create_shaped (w := 3) (h := 3) rfl,
    (isPath_spec _ (-1) 0).2.1 (by decide),
    (isPath_spec _ (-1) 0).2.2.2.2 (Maze.create_shaped (w := 3) (h := 3) rfl)⟩

/-- C7, construction: for all positive `w` and `h`, `Maze(w, h)` yields a grid of
exactly `h` rows, each of exactly `w` cells, every cell a wall `'#'`;
`getDimensions()` returns `(w, h)` and `isPath(x, y)` is false for every
coordinate. -/
theorem create_all_walls (w h : Int) (hw : 0 < w) (hh : 0 < h) :
    ∃ m, Maze.create w h = some m ∧ (m.grid.length : Int) = h ∧
      (∀ row ∈ m.grid, (row.length : Int) = w ∧ ∀ c ∈ row, c = '#') ∧
      m.getDimensions = (w, h) ∧ ∀ x y : Int, m.isPath x y = some false := by
  obtain ⟨m, hm, hwd, hht, hgrid, hcell⟩ := Maze.create_spec (le_of_lt hw) (le_of_lt hh)
  refine ⟨m, hm, ?_, ?_, ?_, ?_⟩
  · rw [hgrid, List.length_replicate]; omega
  · intro row hrow
    rw [hgrid] at hrow
    have := List.eq_of_mem_replicate hrow
    subst this
    refine ⟨by rw [List.length_replicate]; omega, ?_⟩
    intro c hc
    exact List.eq_of_mem_replicate hc
  · simp [Maze.getDimensions, hwd, hht]
  · intro x y
    rw [Maze.isPath_of_shaped (Maze.create_shaped hm), hcell]
    split <;> simp

theorem create_all_walls_witness :
    ∃ m, Maze.create 5 3 = some m ∧ m.grid = List.replicate 3 "#####".toList ∧
      (m.grid.length : Int) = 3 ∧
      (("#####".toList.length : Int) = 5 ∧ ∀ c ∈ "#####".toList, c = '#') ∧
      m.getDimensions = (5, 3) ∧ m.isPath 1 1 = some false ∧ m.isPath (-1) 7 = some false := by
  obtain ⟨m, hm, hlen, hrows, hdim, hpath⟩ := create_all_walls 5 3 (by decide) (by decide)
  have hgrid : m.grid = List.replicate 3 "#####".toList := by
    have h5 : Maze.create 5 3 = some (Maze.mk (List.replicate 3 "#####".toList) 5 3) := by decide
    rw [h5] at hm
    cases hm
    rfl
  exact ⟨m, hm, hgrid, hlen, hrows "#####".toList (by rw [hgrid]; decide), hdim, hpath 1 1,
    hpath (-1) 7⟩

/-! ## Further lemmas on runs -/

/-- Every state of a run that starts with the lattice invariant has it. -/
theorem loopState_lattice {w h : Int} {sh : Nat → List Coord} {s0 : GenState}
    (hsh : ∀ i, (sh i).Perm directions) (inv0 : Lattice w h s0) {n : Nat} {s : GenState}
    (hs : loopState sh s0 n = some s) : Lattice w h s := by
  obtain ⟨s1, hs1, inv, -⟩ := loopState_invariant hsh (fun _ => True) inv0 trivial
    (fun _ _ _ _ _ _ _ _ _ _ _ _ _ => trivial) (fun _ _ _ _ _ _ _ _ => trivial) n
  rw [hs] at hs1
  cases hs1
  exact inv

/-- The state after the statements before the loop on the 5 x 5 grid. -/
theorem start5_eq {m0 : Maze} {s0 : GenState} (h1 : Maze.create 5 5 = some m0)
    (h2 : genStart m0 = some s0) : s0 = startGrid5 := by
  have hstart : (Maze.create 5 5).bind genStart = some startGrid5 := by decide
  rw [h1, Option.some_bind, h2] at hstart
  exact Option.some.inj hstart

/-! ## The claims, continued -/

/-- C15, stack invariant: for every width and height of at least 3 and every
sequence of shuffle outcomes, at every loop-iteration boundary every coordinate
on the backtracking stack is inside the grid and its cell is a passage `'.'`,
not a wall. -/
theorem stack_cells_are_passages (w h : Int) (hw : 3 ≤ w) (hh : 3 ≤ h)
    (sh : Nat → List Coord) (hsh : ∀ i, (sh i).Perm directions) :
    ∃ m0 s0, Maze.create w h = some m0 ∧ genStart m0 = some s0 ∧
      ∀ n, ∃ s, loopState sh s0 n = some s ∧ s.maze.width = w ∧ s.maze.height = h ∧
        ∀ p ∈ s.stack, (0 ≤ p.1 ∧ p.1 < w ∧ 0 ≤ p.2 ∧ p.2 < h) ∧
          s.maze.cell p.1 p.2 = some '.' ∧ s.maze.cell p.1 p.2 ≠ some '#' := by
  obtain ⟨m0, s0, hm0, hs0, hst0, inv0, -, -, -⟩ := genStart_run (by omega : 2 ≤ w)
    (by omega : 2 ≤ h)
  refine ⟨m0, s0, hm0, hs0, ?_⟩
  intro n
  obtain ⟨s, hs, inv, -⟩ := loopState_invariant hsh (fun _ => True) inv0 trivial
    (fun _ _ _ _ _ _ _ _ _ _ _ _ _ => trivial) (fun _ _ _ _ _ _ _ _ => trivial) n
  refine ⟨s, hs, inv.width_eq, inv.height_eq, ?_⟩
  intro p hp
  have hcell := (inv.stack_ok p hp).2.2
  have hin := (inv.shaped p.1 p.2).1 (by rw [hcell]; rfl)
  rw [inv.width_eq, inv.height_eq] at hin
  exact ⟨hin, hcell, by rw [hcell]; decide⟩

theorem stack_cells_are_passages_witness :
    ∃ s, loopState (fun _ => directions) startGrid5 2 = some s ∧
      s.stack = [(3, 3), (1, 3), (1, 1)] ∧
      ((0 : Int) ≤ 3 ∧ (3 : Int) < 5 ∧ (0 : Int) ≤ 3 ∧ (3 : Int) < 5) ∧
      s.maze.cell 3 3 = some '.' ∧ s.maze.cell 3 3 ≠ some '#' := by
  obtain ⟨m0, s0, h1, h2, hall⟩ := stack_cells_are_passages 5 5 (by decide) (by decide)
    (fun _ => directions) (fun _ => List.Perm.refl _)
  cases start5_eq h1 h2
  obtain ⟨s, hs, -, -, hst⟩ := hall 2
  have hstack : (loopState (fun _ => directions) startGrid5 2).map (fun t => t.stack) =
      some [(3, 3), (1, 3), (1, 1)] := by decide
  rw [hs] at hstack
  have hstack2 : s.stack = [(3, 3), (1, 3), (1, 1)] := Option.some.inj hstack
  exact ⟨s, hs, hstack2, hst (3, 3) (by rw [hstack2]; decide)⟩

/-- C20, lattice parity: for every width and height of at least 2, odd or even,
and every sequence of shuffle outcomes, in a run from the all-wall grid every
coordinate on the stack at any loop-iteration boundary has `x` and `y` odd, and
no cell with `x` and `y` both even is a passage, at any boundary and in the
returned maze. -/
theorem lattice_parity (w h : Int) (hw : 2 ≤ w) (hh : 2 ≤ h)
    (sh : Nat → List Coord) (hsh : ∀ i, (sh i).Perm directions) :
    ∃ m0 s0, Maze.create w h = some m0 ∧ genStart m0 = some s0 ∧
      (∀ n, ∃ s, loopState sh s0 n = some s ∧
        (∀ p ∈ s.stack, p.1 % 2 = 1 ∧ p.2 % 2 = 1) ∧
        (∀ x y : Int, s.maze.cell x y = some '.' → x % 2 = 1 ∨ y % 2 = 1) ∧
        (∀ x y : Int, x % 2 = 0 → y % 2 = 0 → s.maze.cell x y ≠ some '.')) ∧
      (∀ fuel, 2 * w.toNat * h.toNat ≤ fuel → ∃ m, generated sh fuel w h = some m ∧
        (∀ x y : Int, m.cell x y = some '.' → x % 2 = 1 ∨ y % 2 = 1) ∧
        (∀ x y : Int, x % 2 = 0 → y % 2 = 0 → m.cell x y ≠ some '.')) := by
  obtain ⟨m0, s0, hm0, hs0, hst0, inv0, -, hc0, -⟩ := genStart_run hw hh
  have hnoeven : ∀ s : GenState, Lattice w h s →
      ∀ x y : Int, x % 2 = 0 → y % 2 = 0 → s.maze.cell x y ≠ some '.' := by
    intro s inv x y hx hy hc
    have := inv.no_even x y hc
    omega
  refine ⟨m0, s0, hm0, hs0, ?_, ?_⟩
  · intro n
    obtain ⟨s, hs, inv, -⟩ := loopState_invariant hsh (fun _ => True) inv0 trivial
      (fun _ _ _ _ _ _ _ _ _ _ _ _ _ => trivial) (fun _ _ _ _ _ _ _ _ => trivial) n
    exact ⟨s, hs, fun p hp => ⟨(inv.stack_ok p hp).1, (inv.stack_ok p hp).2.1⟩, inv.no_even,
      hnoeven s inv⟩
  · intro fuel hfuel
    obtain ⟨s, hs, -, hgen⟩ := loopState_final hsh hm0 hs0 inv0 hst0 hc0 hfuel
    have inv := loopState_lattice hsh inv0 hs
    exact ⟨s.maze, hgen, inv.no_even, hnoeven s inv⟩

theorem lattice_parity_witness :
    ∃ m0 s0 s m, Maze.create 4 4 = some m0 ∧ genStart m0 = some s0 ∧
      loopState (fun _ => directions) s0 2 = some s ∧ s.stack = [(3, 3), (1, 3), (1, 1)] ∧
      ((3 : Int) % 2 = 1 ∧ (3 : Int) % 2 = 1) ∧
      generated (fun _ => directions) 32 4 4 = some m ∧
      m.cell 1 2 = some '.' ∧ ((1 : Int) % 2 = 1 ∨ (2 : Int) % 2 = 1) ∧
      m.cell 2 2 ≠ some '.' := by
  obtain ⟨m0, s0, h1, h2, hall, hfinal⟩ := lattice_parity 4 4 (by decide) (by decide)
    (fun _ => directions) (fun _ => List.Perm.refl _)
  obtain ⟨s, hs, hst, -, -⟩ := hall 2
  obtain ⟨m, hm, hodd, heven⟩ := hfinal 32 (by decide)
  have hstart : (Maze.create 4 4).bind genStart = some s0 := by
    rw [h1, Option.some_bind, h2]
  have hstack : ((Maze.create 4 4).bind genStart).bind
      (fun t => (loopState (fun _ => directions) t 2).map (fun u => u.stack)) =
      some [(3, 3), (1, 3), (1, 1)] := by decide
  rw [hstart, Option.some_bind, hs] at hstack
  have hstack2 : s.stack = [(3, 3), (1, 3), (1, 1)] := Option.some.inj hstack
  have hcell : (generated (fun _ => directions) 32 4 4).bind (fun t => t.cell 1 2) =
      some '.' := by decide
  rw [hm, Option.some_bind] at hcell
  exact ⟨m0, s0, s, m, h1, h2, hs, hstack2, hst (3, 3) (by rw [hstack2]; decide), hm, hcell,
    hodd 1 2 hcell, heven 2 2 (by decide) (by decide)⟩

/-- C19, two cells per carve: for every width and height of at least 3 and
every sequence of shuffle outcomes, in a run from the all-wall grid every carve
step finds both the target `(nx, ny)` and the midpoint `(x + dx/2, y + dy/2)`
to be walls, pushes the target and raises the passage count by exactly 2; the
returned maze has `1 + 2 * (number of carve steps)` passage cells. -/
theorem two_cells_per_carve (w h : Int) (hw : 3 ≤ w) (hh : 3 ≤ h)
    (sh : Nat → List Coord) (hsh : ∀ i, (sh i).Perm directions) :
    ∃ m0 s0, Maze.create w h = some m0 ∧ genStart m0 = some s0 ∧
      (∀ i s, loopState sh s0 i = some s → isCarveStep (sh i) s = true →
        ∃ x y below dx dy s2, s.stack = (x, y) :: below ∧ (dx, dy) ∈ sh i ∧
          s.maze.cell (x + dx) (y + dy) = some '#' ∧
          s.maze.cell (x + Int.tdiv dx 2) (y + Int.tdiv dy 2) = some '#' ∧
          loopState sh s0 (i + 1) = some s2 ∧ s2.stack = (x + dx, y + dy) :: s.stack ∧
          s2.maze.cell (x + dx) (y + dy) = some '.' ∧
          s2.maze.cell (x + Int.tdiv dx 2) (y + Int.tdiv dy 2) = some '.' ∧
          s2.maze.passageCount = s.maze.passageCount + 2) ∧
      (∀ fuel, 2 * w.toNat * h.toNat ≤ fuel →
        ∃ s, loopState sh s0 fuel = some s ∧ s.stack = [] ∧
          generated sh fuel w h = some s.maze ∧
          s.maze.passageCount = 1 + 2 * carveSteps sh s0 fuel) := by
  obtain ⟨m0, s0, hm0, hs0, hst0, inv0, -, hc0, -⟩ := genStart_run (by omega : 2 ≤ w)
    (by omega : 2 ≤ h)
  refine ⟨m0, s0, hm0, hs0, ?_, ?_⟩
  · intro i s hs hcarve
    have inv := loopState_lattice hsh inv0 hs
    cases hst : s.stack with
    | nil => simp [isCarveStep, hst] at hcarve
    | cons p below =>
      obtain ⟨x, y⟩ := p
      have htop := inv.stack_ok (x, y) (by rw [hst]; exact List.mem_cons_self _ _)
      have hin := (inv.shaped x y).1 (by rw [htop.2.2]; rfl)
      have hd : ∀ d ∈ sh i, d ∈ directions := fun d hdm => (hsh i).mem_iff.1 hdm
      rcases loopStep_spec inv.shaped hst ⟨hin.1, hin.2.1⟩ ⟨hin.2.2.1, hin.2.2.2⟩ hd with
        ⟨pre, dx, dy, post, m2, h1, _, h3, h4, h5, _⟩ | ⟨_, _, h6⟩
      · have hmem : (dx, dy) ∈ sh i := by rw [h1]; simp
        have hdir := hd _ hmem
        obtain ⟨-, -, htgt, hmid, -, hmidw⟩ := inv.carve_cells hst hdir h3 h4
        have hcount := (inv.carve_passages hst hdir h3 h4).2.2.2
        have hnin := (inv.shaped (x + dx) (y + dy)).1 (by rw [h3]; rfl)
        have hmin := dir_mid_bounds hdir (w := s.maze.width) (h := s.maze.height)
          ⟨hin.1, hin.2.1⟩ ⟨hin.2.2.1, hin.2.2.2⟩ ⟨hnin.1, hnin.2.1⟩ ⟨hnin.2.2.1, hnin.2.2.2⟩
        have hmsome := (inv.shaped _ _).2 hmin
        have hmwall : s.maze.cell (x + Int.tdiv dx 2) (y + Int.tdiv dy 2) = some '#' := by
          cases hc : s.maze.cell (x + Int.tdiv dx 2) (y + Int.tdiv dy 2) with
          | none => rw [hc] at hmsome; cases hmsome
          | some c =>
            rcases inv.chars _ _ c hc with rfl | rfl
            · rfl
            · exact absurd hc hmidw
        refine ⟨x, y, below, dx, dy, GenState.mk m2 ((x + dx, y + dy) :: (x, y) :: below), rfl,
          hmem, h3, hmwall, ?_, rfl, htgt, hmid, hcount⟩
        simp only [loopState, hs]
        exact h5
      · rw [h6] at hcarve; cases hcarve
  · intro fuel hfuel
    obtain ⟨s, hs, hemp, hgen⟩ := loopState_final hsh hm0 hs0 inv0 hst0 hc0 hfuel
    obtain ⟨s2, hs2, -, -, hcount⟩ := loopState_progress hsh inv0 hst0 hc0 fuel
    rw [hs] at hs2
    cases hs2
    exact ⟨s, hs, hemp, hgen, hcount⟩

theorem two_cells_per_carve_witness :
    isCarveStep directions startGrid5 = true ∧
      (∃ x y below dx dy s2, startGrid5.stack = (x, y) :: below ∧ (dx, dy) ∈ directions ∧
        startGrid5.maze.cell (x + dx) (y + dy) = some '#' ∧
        startGrid5.maze.cell (x + Int.tdiv dx 2) (y + Int.tdiv dy 2) = some '#' ∧
        loopState (fun _ => directions) startGrid5 1 = some s2 ∧
        s2.stack = (x + dx, y + dy) :: startGrid5.stack ∧
        s2.maze.cell (x + dx) (y + dy) = some '.' ∧
        s2.maze.cell (x + Int.tdiv dx 2) (y + Int.tdiv dy 2) = some '.' ∧
        s2.maze.passageCount = startGrid5.maze.passageCount + 2) ∧
      ∃ s, loopState (fun _ => directions) startGrid5 50 = some s ∧ s.stack = [] ∧
        generated (fun _ => directions) 50 5 5 = some s.maze ∧
        s.maze.passageCount = 1 + 2 * carveSteps (fun _ => directions) startGrid5 50 := by
  obtain ⟨m0, s0, h1, h2, hstep, hfinal⟩ := two_cells_per_carve 5 5 (by decide) (by decide)
    (fun _ => directions) (fun _ => List.Perm.refl _)
  cases start5_eq h1 h2
  exact ⟨by decide, hstep 0 startGrid5 rfl (by decide), hfinal 50 (by decide)⟩

/-- C17, single step rule: in one loop iteration on a maze whose grid has the
shape `width × height`, with stack top `(x, y)` inside the grid and shuffled
direction order `dirs`: a candidate is acceptable (`isValid`) iff it is in
bounds and its cell is a wall; if some candidate is acceptable, the first
acceptable one in the order is chosen, it is pushed, the target and the
midpoint become `'.'`, every other cell and the dimensions are unchanged; if
none is acceptable, the top is popped and the maze is unchanged. -/
theorem single_step_rule (s : GenState) (x y : Int) (below : List Coord) (dirs : List Coord)
    (hs : s.maze.Shaped) (hst : s.stack = (x, y) :: below)
    (hx : 0 ≤ x ∧ x < s.maze.width) (hy : 0 ≤ y ∧ y < s.maze.height)
    (hd : dirs.Perm directions) :
    (∀ nx ny : Int, s.maze.isValid nx ny = some (decide
      ((0 ≤ nx ∧ nx < s.maze.width ∧ 0 ≤ ny ∧ ny < s.maze.height) ∧
        s.maze.cell nx ny = some '#'))) ∧
    ((∃ pre dx dy post s2, dirs = pre ++ (dx, dy) :: post ∧
        (∀ d ∈ pre, s.maze.isValid (x + d.1) (y + d.2) = some false) ∧
        s.maze.isValid (x + dx) (y + dy) = some true ∧
        loopStep dirs s = some s2 ∧ s2.stack = (x + dx, y + dy) :: s.stack ∧
        s2.maze.width = s.maze.width ∧ s2.maze.height = s.maze.height ∧
        ∀ a b : Int, s2.maze.cell a b =
          if (a = x + dx ∧ b = y + dy) ∨ (a = x + Int.tdiv dx 2 ∧ b = y + Int.tdiv dy 2)
          then some '.' else s.maze.cell a b) ∨
      ((∀ d ∈ dirs, s.maze.isValid (x + d.1) (y + d.2) = some false) ∧
        loopStep dirs s = some { maze := s.maze, stack := below })) := by
  have hval : ∀ nx ny : Int, s.maze.isValid nx ny = some (decide
      ((0 ≤ nx ∧ nx < s.maze.width ∧ 0 ≤ ny ∧ ny < s.maze.height) ∧
        s.maze.cell nx ny = some '#')) := by
    intro nx ny
    rw [Maze.isValid_of_shaped hs]
    congr 1
    by_cases hc : s.maze.cell nx ny = some '#'
    · have := (hs nx ny).1 (by rw [hc]; rfl)
      simp [hc, this]
    · simp [hc]
  have hfalse : ∀ a b : Int, s.maze.cell a b ≠ some '#' → s.maze.isValid a b = some false := by
    intro a b hc
    rw [Maze.isValid_of_shaped hs]
    simp [hc]
  have hmem : ∀ d ∈ dirs, d ∈ directions := fun d hdm => hd.mem_iff.1 hdm
  refine ⟨hval, ?_⟩
  rcases loopStep_spec hs hst hx hy hmem with
    ⟨pre, dx, dy, post, m2, h1, h2, h3, h4, h5, _⟩ | ⟨h1, h2, _⟩
  · left
    have hin := (hs (x + dx) (y + dy)).1 (by rw [h3]; rfl)
    obtain ⟨m3, hm3, hw, hh, -, hcell⟩ := Maze.carve_spec hs hx hy
      (hmem _ (by rw [h1]; simp)) ⟨hin.1, hin.2.1⟩ ⟨hin.2.2.1, hin.2.2.2⟩
    rw [h4] at hm3
    cases hm3
    refine ⟨pre, dx, dy, post, _, h1, fun d hdm => hfalse _ _ (h2 d hdm), ?_, h5, ?_, hw, hh,
      hcell⟩
    · rw [Maze.isValid_of_shaped hs]
      simp [h3]
    · rw [hst]
  · right
    exact ⟨fun d hdm => hfalse _ _ (h1 d hdm), h2⟩

theorem single_step_rule_witness :
    (loopStep directions startGrid5).map (fun t => t.stack) = some [(1, 3), (1, 1)] ∧
    startGrid5.maze.Shaped ∧ startGrid5.stack = (1, 1) :: [] ∧
    ((0 : Int) ≤ 1 ∧ (1 : Int) < startGrid5.maze.width) ∧
    (directions.Perm directions) ∧
    startGrid5.maze.isValid 1 3 = some (decide
      (((0 : Int) ≤ 1 ∧ (1 : Int) < startGrid5.maze.width ∧ (0 : Int) ≤ 3 ∧
        (3 : Int) < startGrid5.maze.height) ∧ startGrid5.maze.cell 1 3 = some '#')) ∧
    ((∃ pre dx dy post s2, directions = pre ++ (dx, dy) :: post ∧
        (∀ d ∈ pre, startGrid5.maze.isValid (1 + d.1) (1 + d.2) = some false) ∧
        startGrid5.maze.isValid (1 + dx) (1 + dy) = some true ∧
        loopStep directions startGrid5 = some s2 ∧
        s2.stack = (1 + dx, 1 + dy) :: startGrid5.stack ∧
        s2.maze.width = startGrid5.maze.width ∧ s2.maze.height = startGrid5.maze.height ∧
        ∀ a b : Int, s2.maze.cell a b =
          if (a = 1 + dx ∧ b = 1 + dy) ∨ (a = 1 + Int.tdiv dx 2 ∧ b = 1 + Int.tdiv dy 2)
          then some '.' else startGrid5.maze.cell a b) ∨
      ((∀ d ∈ directions, startGrid5.maze.isValid (1 + d.1) (1 + d.2) = some false) ∧
        loopStep directions startGrid5 = some { maze := startGrid5.maze, stack := [] })) := by
  obtain ⟨m0, s0, h1, h2, -, inv0, -, -, -⟩ := genStart_run (by decide : (2 : Int) ≤ 5)
    (by decide : (2 : Int) ≤ 5)
  cases start5_eq h1 h2
  have key := single_step_rule startGrid5 1 1 [] directions inv0.shaped rfl (by decide)
    (by decide) (List.Perm.refl _)
  exact ⟨by decide, inv0.shaped, rfl, by decide, List.Perm.refl _, key.1 1 3, key.2⟩

/-- C13, index safety under the precondition: for every width and height of at
least 3 and every sequence of shuffle outcomes, no grid access of the run is
outside the grid: the write to the start cell `(1,1)` succeeds, every loop
iteration succeeds, its stack top is inside the grid, `isValid` returns a value
for every candidate (reading the grid only after its bounds tests succeed), and
for an acceptable candidate the target and the midpoint are inside the grid and
the two writes succeed; generation returns a maze. -/
theorem index_safety (w h : Int) (hw : 3 ≤ w) (hh : 3 ≤ h)
    (sh : Nat → List Coord) (hsh : ∀ i, (sh i).Perm directions) :
    ∃ m0 s0, Maze.create w h = some m0 ∧ (m0.cell 1 1).isSome ∧ genStart m0 = some s0 ∧
      (∀ n, ∃ s, loopState sh s0 n = some s ∧
        ∀ x y below, s.stack = (x, y) :: below →
          (s.maze.cell x y).isSome ∧
          ∀ d ∈ sh n, ∃ v, s.maze.isValid (x + d.1) (y + d.2) = some v ∧
            (v = true →
              (s.maze.cell (x + d.1) (y + d.2)).isSome ∧
              (s.maze.cell (x + Int.tdiv d.1 2) (y + Int.tdiv d.2 2)).isSome ∧
              (s.maze.carve x y d.1 d.2).isSome)) ∧
      (∀ (m : Maze) (x y : Int), ¬ (0 ≤ x ∧ x < m.width ∧ 0 ≤ y ∧ y < m.height) →
        m.isValid x y = some false) ∧
      (∀ fuel, 2 * w.toNat * h.toNat ≤ fuel → ∃ m, generated sh fuel w h = some m) := by
  obtain ⟨m0, s0, hm0, hs0, hst0, inv0, -, hc0, -⟩ := genStart_run (by omega : 2 ≤ w)
    (by omega : 2 ≤ h)
  have hstart : (m0.cell 1 1).isSome := by
    have hsh0 := Maze.create_shaped hm0
    obtain ⟨m1, hm1, hw1, hh1, -, -⟩ := Maze.create_spec (by omega : 0 ≤ w) (by omega : 0 ≤ h)
    rw [hm0] at hm1
    cases hm1
    exact (hsh0 1 1).2 (by rw [hw1, hh1]; omega)
  refine ⟨m0, s0, hm0, hstart, hs0, ?_, ?_, ?_⟩
  · intro n
    obtain ⟨s, hs, inv, -⟩ := loopState_invariant hsh (fun _ => True) inv0 trivial
      (fun _ _ _ _ _ _ _ _ _ _ _ _ _ => trivial) (fun _ _ _ _ _ _ _ _ => trivial) n
    refine ⟨s, hs, ?_⟩
    intro x y below hst
    have htop := inv.stack_ok (x, y) (by rw [hst]; exact List.mem_cons_self _ _)
    have hin := (inv.shaped x y).1 (by rw [htop.2.2]; rfl)
    refine ⟨by rw [htop.2.2]; rfl, ?_⟩
    intro d hd
    have hdir : (d.1, d.2) ∈ directions := (hsh n).mem_iff.1 hd
    refine ⟨_, Maze.isValid_of_shaped inv.shaped _ _, ?_⟩
    intro hv
    have hwall : s.maze.cell (x + d.1) (y + d.2) = some '#' := by simpa using hv
    have hnin := (inv.shaped (x + d.1) (y + d.2)).1 (by rw [hwall]; rfl)
    have hmin := dir_mid_bounds hdir (w := s.maze.width) (h := s.maze.height)
      ⟨hin.1, hin.2.1⟩ ⟨hin.2.2.1, hin.2.2.2⟩ ⟨hnin.1, hnin.2.1⟩ ⟨hnin.2.2.1, hnin.2.2.2⟩
    obtain ⟨m2, hm2, -⟩ := Maze.carve_spec inv.shaped ⟨hin.1, hin.2.1⟩ ⟨hin.2.2.1, hin.2.2.2⟩
      hdir ⟨hnin.1, hnin.2.1⟩ ⟨hnin.2.2.1, hnin.2.2.2⟩
    exact ⟨by rw [hwall]; rfl, (inv.shaped _ _).2 hmin, by rw [hm2]; rfl⟩
  · intro m x y hout
    unfold Maze.isValid
    rw [if_neg (by omega)]
  · intro fuel hfuel
    obtain ⟨s, -, -, hgen⟩ := loopState_final hsh hm0 hs0 inv0 hst0 hc0 hfuel
    exact ⟨s.maze, hgen⟩

theorem index_safety_witness :
    (∃ m0, Maze.create 5 5 = some m0 ∧ (m0.cell 1 1).isSome ∧
      genStart m0 = some startGrid5) ∧
    ((startGrid5.maze.cell 1 1).isSome ∧
      ∃ v, startGrid5.maze.isValid (1 + 0) (1 + 2) = some v ∧
        (v = true →
          (startGrid5.maze.cell (1 + 0) (1 + 2)).isSome ∧
          (startGrid5.maze.cell (1 + Int.tdiv 0 2) (1 + Int.tdiv 2 2)).isSome ∧
          (startGrid5.maze.carve 1 1 0 2).isSome)) ∧
    startGrid5.maze.isValid 1 (-1) = some false ∧
    ∃ m, generated (fun _ => directions) 50 5 5 = some m := by
  obtain ⟨m0, s0, h1, h2, h3, hall, hval, hfinal⟩ := index_safety 5 5 (by decide) (by decide)
    (fun _ => directions) (fun _ => List.Perm.refl _)
  cases start5_eq h1 h3
  obtain ⟨s, hs, hacc⟩ := hall 0
  cases hs
  have := hacc 1 1 [] rfl
  exact ⟨⟨m0, h1, h2, h3⟩, ⟨this.1, this.2 (0, 2) (by decide)⟩,
    hval startGrid5.maze 1 (-1) (by decide), hfinal 50 (by decide)⟩

/-- C12 as stated fails: the constructor accepts `1 × 1`, the grid then has the
single cell `(0,0)`, and the first statement of the generator, the write
`grid[1][1] = '.'`, is outside the grid; no amount of fuel makes the run
return. -/
theorem one_by_one_start_out_of_bounds :
    ∃ m0, Maze.create 1 1 = some m0 ∧ m0.grid = [['#']] ∧ m0.cell 1 1 = none ∧
      m0.setCell 1 1 '.' = none ∧ genStart m0 = none ∧
      ∀ fuel, generated (fun _ => directions) fuel 1 1 = none :=
  ⟨_, rfl, rfl, rfl, rfl, rfl, fun _ => rfl⟩

/-- C12 amended: for every width and height of at least 2, even values and
dimensions below 3 included (`2 × 2`, `4 × 4`), and every sequence of shuffle
outcomes, the run makes no grid access outside the grid (the statements before
the loop and every loop iteration succeed) and runs to completion: generation
returns a maze. -/
theorem degenerate_dimensions_tolerated (w h : Int) (hw : 2 ≤ w) (hh : 2 ≤ h)
    (sh : Nat → List Coord) (hsh : ∀ i, (sh i).Perm directions) :
    ∃ m0 s0, Maze.create w h = some m0 ∧ genStart m0 = some s0 ∧
      (∀ n, ∃ s, loopState sh s0 n = some s) ∧
      (∃ n s, n ≤ 2 * w.toNat * h.toNat ∧ loopState sh s0 n = some s ∧ s.stack = []) ∧
      (∀ fuel, 2 * w.toNat * h.toNat ≤ fuel → ∃ m, generated sh fuel w h = some m) := by
  obtain ⟨m0, s0, hm0, hs0, hst0, inv0, -, hc0, -⟩ := genStart_run hw hh
  refine ⟨m0, s0, hm0, hs0, ?_, ?_, ?_⟩
  · intro n
    obtain ⟨s, hs, -, -⟩ := loopState_invariant hsh (fun _ => True) inv0 trivial
      (fun _ _ _ _ _ _ _ _ _ _ _ _ _ => trivial) (fun _ _ _ _ _ _ _ _ => trivial) n
    exact ⟨s, hs⟩
  · obtain ⟨s, hs, hemp, -⟩ := loopState_final hsh hm0 hs0 inv0 hst0 hc0 (le_refl _)
    exact ⟨_, s, le_refl _, hs, hemp⟩
  · intro fuel hfuel
    obtain ⟨s, -, -, hgen⟩ := loopState_final hsh hm0 hs0 inv0 hst0 hc0 hfuel
    exact ⟨s.maze, hgen⟩

theorem degenerate_dimensions_tolerated_witness :
    (2 : Int) ≤ 2 ∧ (∀ i : Nat, ((fun _ => directions) i : List Coord).Perm directions) ∧
    (∃ m0 s0, Maze.create 2 2 = some m0 ∧ genStart m0 = some s0 ∧
      (∃ s, loopState (fun _ => directions) s0 1 = some s) ∧
      (∃ n s, n ≤ 2 * (2 : Int).toNat * (2 : Int).toNat ∧
        loopState (fun _ => directions) s0 n = some s ∧ s.stack = [])) ∧
    (∃ m, generated (fun _ => directions) 8 2 2 = some m) ∧
    generated (fun _ => directions) 32 4 4 =
      some (Maze.mk ["####".toList, "#.#.".toList, "#.#.".toList, "#...".toList] 4 4) := by
  obtain ⟨m0, s0, h1, h2, hall, hfin, hfinal⟩ := degenerate_dimensions_tolerated 2 2
    (by decide) (by decide) (fun _ => directions) (fun _ => List.Perm.refl _)
  exact ⟨by decide, fun _ => List.Perm.refl _, ⟨m0, s0, h1, h2, hall 1, hfin⟩,
    hfinal 8 (by decide), by decide⟩

/-! ## Push and pop events -/

/-- The stack event of one loop iteration on a well-shaped maze whose stack top
lies inside the grid: a push of a wall cell, or a pop of the top. -/
theorem loopStep_events {s : GenState} {x y : Int} {below : List Coord} {dirs : List Coord}
    (hs : s.maze.Shaped) (hst : s.stack = (x, y) :: below)
    (hx : 0 ≤ x ∧ x < s.maze.width) (hy : 0 ≤ y ∧ y < s.maze.height)
    (hd : ∀ d ∈ dirs, d ∈ directions) :
    (∃ dx dy m2, (dx, dy) ∈ dirs ∧ s.maze.cell (x + dx) (y + dy) = some '#' ∧
        s.maze.carve x y dx dy = some m2 ∧
        loopStep dirs s = some { maze := m2, stack := (x + dx, y + dy) :: (x, y) :: below } ∧
        pushedCoord dirs s = some (x + dx, y + dy) ∧ poppedCoord dirs s = none) ∨
    (loopStep dirs s = some { maze := s.maze, stack := below } ∧
        pushedCoord dirs s = none ∧ poppedCoord dirs s = some (x, y)) := by
  rcases scanDirections_spec hs hx hy dirs hd with
    ⟨pre, dx, dy, post, m2, h1, _, h3, h4, h5⟩ | ⟨_, h2⟩
  · left
    exact ⟨dx, dy, m2, by rw [h1]; simp, h3, h4, by simp [loopStep, hst, h5],
      by simp [pushedCoord, hst, h5], by simp [poppedCoord, hst, h5]⟩
  · right
    exact ⟨by simp [loopStep, hst, h2], by simp [pushedCoord, hst, h2],
      by simp [poppedCoord, hst, h2]⟩

theorem poppedCoord_top {dirs : List Coord} {s : GenState} {p : Coord}
    (h : poppedCoord dirs s = some p) : ∃ below, s.stack = p :: below := by
  unfold poppedCoord at h
  split at h
  · cases h
  next x y below hst =>
    split at h
    · cases h; exact ⟨below, hst⟩
    · cases h

theorem poppedCoord_of_carve {dirs : List Coord} {s : GenState}
    (h : isCarveStep dirs s = true) : poppedCoord dirs s = none := by
  unfold isCarveStep at h
  unfold poppedCoord
  split at h
  · rfl
  · split at h
    next m2 p hscan => simp [hscan]
    · cases h

/-- Events of a run from a state with the lattice invariant: what a push and a
pop at iteration `i` say about the states `i` and `i + 1`. -/
theorem loopState_events {w h : Int} {sh : Nat → List Coord} {s0 : GenState}
    (hsh : ∀ i, (sh i).Perm directions) (inv0 : Lattice w h s0) {i : Nat} {s : GenState}
    (hs : loopState sh s0 i = some s) :
    (∀ p, pushedCoord (sh i) s = some p →
      s.maze.cell p.1 p.2 = some '#' ∧
        ∃ s2, loopState sh s0 (i + 1) = some s2 ∧ s2.maze.cell p.1 p.2 = some '.') ∧
    (∀ p, poppedCoord (sh i) s = some p → s.maze.cell p.1 p.2 = some '.') := by
  have inv := loopState_lattice hsh inv0 hs
  refine ⟨?_, ?_⟩
  · intro p hp
    cases hst : s.stack with
    | nil => simp [pushedCoord, hst] at hp
    | cons q below =>
      obtain ⟨x, y⟩ := q
      have htop := inv.stack_ok (x, y) (by rw [hst]; exact List.mem_cons_self _ _)
      have hin := (inv.shaped x y).1 (by rw [htop.2.2]; rfl)
      have hd : ∀ d ∈ sh i, d ∈ directions := fun d hdm => (hsh i).mem_iff.1 hdm
      rcases loopStep_events inv.shaped hst ⟨hin.1, hin.2.1⟩ ⟨hin.2.2.1, hin.2.2.2⟩ hd with
        ⟨dx, dy, m2, h1, h2, h3, h4, h5, _⟩ | ⟨_, h5, _⟩
      · rw [h5] at hp
        cases hp
        obtain ⟨-, -, htgt, -, -, -⟩ := inv.carve_cells hst (hd _ h1) h2 h3
        refine ⟨h2, GenState.mk m2 ((x + dx, y + dy) :: (x, y) :: below), ?_, htgt⟩
        simp only [loopState, hs]
        exact h4
      · rw [h5] at hp; cases hp
  · intro p hp
    obtain ⟨below, hst⟩ := poppedCoord_top hp
    exact (inv.stack_ok p (by rw [hst]; exact List.mem_cons_self _ _)).2.2

/-- In a run from the all-wall grid the stack never holds a coordinate twice,
and a coordinate popped in an earlier iteration is a passage that is not on the
stack any more. -/
theorem loopState_popped {w h : Int} {sh : Nat → List Coord} {s0 : GenState}
    (hsh : ∀ i, (sh i).Perm directions) (inv0 : Lattice w h s0) (hst0 : s0.stack = [(1, 1)]) :
    ∀ n, ∃ s, loopState sh s0 n = some s ∧ Lattice w h s ∧
      (s.stack.Nodup ∧ ∀ i, i < n → ∀ si p, loopState sh s0 i = some si →
        poppedCoord (sh i) si = some p → p ∉ s.stack ∧ s.maze.cell p.1 p.2 = some '.') := by
  refine loopState_induction hsh
    (fun n s => s.stack.Nodup ∧ ∀ i, i < n → ∀ si p, loopState sh s0 i = some si →
        poppedCoord (sh i) si = some p → p ∉ s.stack ∧ s.maze.cell p.1 p.2 = some '.')
    inv0 ?_ ?_ ?_ ?_
  · refine ⟨by rw [hst0]; simp, ?_⟩
    intro i hi
    exact absurd hi (Nat.not_lt_zero _)
  · intro n s hs hP hemp
    refine ⟨hP.1, ?_⟩
    intro i hi si p hsi hpop
    rcases Nat.lt_succ_iff_lt_or_eq.1 hi with hlt | rfl
    · exact hP.2 i hlt si p hsi hpop
    · rw [hs] at hsi
      cases hsi
      obtain ⟨below, hst⟩ := poppedCoord_top hpop
      rw [hemp] at hst
      cases hst
  · intro n s x y dx dy below m2 hs inv hP hst hd hwall hcarve hstep
    obtain ⟨-, mono, -, -, -, -⟩ := inv.carve_cells hst hd hwall hcarve
    have hnotin : ∀ q : Coord, s.maze.cell q.1 q.2 = some '.' → q ≠ (x + dx, y + dy) := by
      rintro q hq rfl
      rw [hwall] at hq
      exact absurd hq (by decide)
    have hnd : ((x, y) :: below).Nodup := by rw [← hst]; exact hP.1
    refine ⟨List.nodup_cons.2 ⟨?_, hnd⟩, ?_⟩
    · intro hmem
      have := (inv.stack_ok _ (by rw [hst]; exact hmem)).2.2
      exact hnotin _ this rfl
    · intro i hi si p hsi hpop
      rcases Nat.lt_succ_iff_lt_or_eq.1 hi with hlt | rfl
      · obtain ⟨h1, h2⟩ := hP.2 i hlt si p hsi hpop
        refine ⟨?_, mono _ _ h2⟩
        intro hmem
        rcases List.mem_cons.1 hmem with h3 | h3
        · exact hnotin p h2 h3
        · exact h1 (by rw [hst]; exact h3)
      · rw [hs] at hsi
        cases hsi
        rw [poppedCoord_of_carve hstep] at hpop
        cases hpop
  · intro n s x y below hs inv hP hst hno hstep
    have hnd : ((x, y) :: below).Nodup := by rw [← hst]; exact hP.1
    have hnd2 := List.nodup_cons.1 hnd
    refine ⟨hnd2.2, ?_⟩
    intro i hi si p hsi hpop
    rcases Nat.lt_succ_iff_lt_or_eq.1 hi with hlt | rfl
    · obtain ⟨h1, h2⟩ := hP.2 i hlt si p hsi hpop
      exact ⟨fun hmem => h1 (by rw [hst]; exact List.mem_cons_of_mem _ hmem), h2⟩
    · rw [hs] at hsi
      cases hsi
      obtain ⟨below2, hst2⟩ := poppedCoord_top hpop
      rw [hst] at hst2
      cases hst2
      exact ⟨hnd2.1, (inv.stack_ok _ (by rw [hst]; exact List.mem_cons_self _ _)).2.2⟩

/-! ## Frame: dimensions and row lengths -/

theorem list_set_same {α : Type} (l : List α) (i : Nat) (a : α) (h : l[i]? = some a) :
    l.set i a = l := by
  apply List.ext_getElem?
  intro j
  by_cases hij : i = j
  · subst hij
    have hlt : i < l.length := by
      rcases Nat.lt_or_ge i l.length with h1 | h1
      · exact h1
      · rw [List.getElem?_eq_none h1] at h; cases h
    rw [List.getElem?_set_self hlt, h]
  · rw [List.getElem?_set_ne hij]

/-- A write keeps `width`, `height` and the length of every row. -/
theorem Maze.setCell_frame {m m2 : Maze} {x y : Int} {c : Char}
    (h : m.setCell x y c = some m2) :
    m2.width = m.width ∧ m2.height = m.height ∧
      m2.grid.map List.length = m.grid.map List.length := by
  refine ⟨(Maze.setCell_width h).1, (Maze.setCell_width h).2, ?_⟩
  unfold Maze.setCell at h
  split at h
  · split at h
    next row hrow =>
      split at h
      · cases h
        simp only [List.map_set, List.length_set]
        exact list_set_same _ _ _ (by rw [List.getElem?_map, hrow]; rfl)
      · cases h
    · cases h
  · cases h

/-- Writing to a cell the character it already holds gives back the same maze. -/
theorem Maze.setCell_same {m : Maze} {x y : Int} {c : Char} (h : m.cell x y = some c) :
    m.setCell x y c = some m := by
  unfold Maze.cell at h
  unfold Maze.setCell
  split at h
  next hxy =>
    simp only [hxy, and_self, if_true]
    split at h
    next row hrow =>
      have hlt : x.toNat < row.length := by
        rcases Nat.lt_or_ge x.toNat row.length with h1 | h1
        · exact h1
        · rw [List.getElem?_eq_none h1] at h; cases h
      simp only [hlt, if_true]
      rw [list_set_same row _ _ h, list_set_same m.grid _ _ hrow]
    · cases h
  · cases h

theorem Maze.carve_frame {m m2 : Maze} {x y dx dy : Int} (h : m.carve x y dx dy = some m2) :
    m2.width = m.width ∧ m2.height = m.height ∧
      m2.grid.map List.length = m.grid.map List.length := by
  unfold Maze.carve at h
  split at h
  next m1 h1 =>
    have f1 := Maze.setCell_frame h1
    have f2 := Maze.setCell_frame h
    exact ⟨f2.1.trans f1.1, f2.2.1.trans f1.2.1, f2.2.2.trans f1.2.2⟩
  · cases h

theorem scanDirections_frame {m m2 : Maze} {x y : Int} {r : Option Coord} :
    ∀ dirs : List Coord, scanDirections m x y dirs = some (m2, r) →
      m2.width = m.width ∧ m2.height = m.height ∧
        m2.grid.map List.length = m.grid.map List.length := by
  intro dirs
  induction dirs with
  | nil =>
    intro h
    simp only [scanDirections, Option.some.injEq, Prod.mk.injEq] at h
    rw [h.1]; exact ⟨rfl, rfl, rfl⟩
  | cons d rest ih =>
    obtain ⟨dx, dy⟩ := d
    intro h
    unfold scanDirections at h
    split at h
    · cases h
    · split at h
      next m3 h3 =>
        simp only [Option.some.injEq, Prod.mk.injEq] at h
        rw [← h.1]
        exact Maze.carve_frame h3
      · cases h
    · exact ih h

theorem loopStep_frame {dirs : List Coord} {s s2 : GenState} (h : loopStep dirs s = some s2) :
    s2.maze.width = s.maze.width ∧ s2.maze.height = s.maze.height ∧
      s2.maze.grid.map List.length = s.maze.grid.map List.length := by
  unfold loopStep at h
  split at h
  · cases h; exact ⟨rfl, rfl, rfl⟩
  · split at h
    · cases h
    next m2 next hscan =>
      cases h
      exact scanDirections_frame _ hscan
    next m2 hscan =>
      cases h
      exact scanDirections_frame _ hscan

theorem loopState_frame {sh : Nat → List Coord} {s0 : GenState} :
    ∀ (n : Nat) (s : GenState), loopState sh s0 n = some s →
      s.maze.width = s0.maze.width ∧ s.maze.height = s0.maze.height ∧
        s.maze.grid.map List.length = s0.maze.grid.map List.length := by
  intro n
  induction n with
  | zero =>
    intro s h
    cases h
    exact ⟨rfl, rfl, rfl⟩
  | succ n ih =>
    intro s h
    obtain ⟨s1, hs1, hstep⟩ := loopState_pred h
    have f1 := ih s1 hs1
    have f2 := loopStep_frame hstep
    exact ⟨f2.1.trans f1.1, f2.2.1.trans f1.2.1, f2.2.2.trans f1.2.2⟩

/-- Once the stack is empty the state stays as it is. -/
theorem loopState_idle {sh : Nat → List Coord} {s0 s : GenState} {n : Nat}
    (hs : loopState sh s0 n = some s) (hemp : s.stack = []) :
    ∀ k, loopState sh s0 (n + k) = some s := by
  intro k
  induction k with
  | zero => exact hs
  | succ k ih =>
    show loopState sh s0 (n + k + 1) = some s
    simp only [loopState, ih]
    simp [loopStep, hemp]

/-- Whenever generation returns, from any maze and with any direction orders,
`width`, `height` and the length of every row are what they were. -/
theorem generate_frame {sh : Nat → List Coord} {fuel : Nat} {m m2 : Maze}
    (h : generateRecursiveBacktracking sh fuel m = some m2) :
    m2.width = m.width ∧ m2.height = m.height ∧
      m2.grid.map List.length = m.grid.map List.length := by
  unfold generateRecursiveBacktracking at h
  split at h
  · cases h
  next s0 hs0 =>
    have f0 : s0.maze.width = m.width ∧ s0.maze.height = m.height ∧
        s0.maze.grid.map List.length = m.grid.map List.length := by
      unfold genStart at hs0
      split at hs0
      next m1 h1 =>
        cases hs0
        exact Maze.setCell_frame h1
      · cases hs0
    split at h
    next s hs =>
      split at h
      · cases h
        have f1 := loopState_frame _ s hs
        exact ⟨f1.1.trans f0.1, f1.2.1.trans f0.2.1, f1.2.2.trans f0.2.2⟩
      · cases h
    · cases h

/-- C11, fixed dimensions: whenever generation returns, from any maze and with
any direction orders, `width` and `height` (so `getDimensions()`) are what they
were, the grid has as many rows as before and every row has the length it had,
so a grid of `height` rows of `width` cells is still one; and on a freshly
constructed `w × h` maze (`w, h ≥ 3`) generation does return, with
`getDimensions() = (w, h)` before and after and a grid of `h` rows of `w`
cells. -/
theorem dimensions_fixed (sh : Nat → List Coord) (fuel : Nat) :
    (∀ m m2 : Maze, generateRecursiveBacktracking sh fuel m = some m2 →
      m2.width = m.width ∧ m2.height = m.height ∧ m2.getDimensions = m.getDimensions ∧
      m2.grid.length = m.grid.length ∧
      m2.grid.map List.length = m.grid.map List.length ∧
      ((m.grid.length = m.height.toNat ∧ ∀ row ∈ m.grid, row.length = m.width.toNat) →
        (m2.grid.length = m2.height.toNat ∧
          ∀ row ∈ m2.grid, row.length = m2.width.toNat))) ∧
    (∀ w h : Int, 3 ≤ w → 3 ≤ h → (∀ i, (sh i).Perm directions) →
      2 * w.toNat * h.toNat ≤ fuel →
      ∃ m0 m2, Maze.create w h = some m0 ∧
        generateRecursiveBacktracking sh fuel m0 = some m2 ∧
        m0.getDimensions = (w, h) ∧ m2.getDimensions = (w, h) ∧
        (m2.grid.length : Int) = h ∧ ∀ row ∈ m2.grid, (row.length : Int) = w) := by
  have general : ∀ m m2 : Maze, generateRecursiveBacktracking sh fuel m = some m2 →
      m2.width = m.width ∧ m2.height = m.height ∧ m2.getDimensions = m.getDimensions ∧
      m2.grid.length = m.grid.length ∧
      m2.grid.map List.length = m.grid.map List.length ∧
      ((m.grid.length = m.height.toNat ∧ ∀ row ∈ m.grid, row.length = m.width.toNat) →
        (m2.grid.length = m2.height.toNat ∧
          ∀ row ∈ m2.grid, row.length = m2.width.toNat)) := by
    intro m m2 h
    obtain ⟨hw, hh, hrows⟩ := generate_frame h
    have hlen : m2.grid.length = m.grid.length := by
      have := congrArg List.length hrows
      simpa using this
    refine ⟨hw, hh, by simp [Maze.getDimensions, hw, hh], hlen, hrows, ?_⟩
    rintro ⟨h1, h2⟩
    refine ⟨by rw [hlen, h1, hh], ?_⟩
    intro row hrow
    have hmem : row.length ∈ m2.grid.map List.length := List.mem_map_of_mem _ hrow
    rw [hrows] at hmem
    obtain ⟨row0, hrow0, hlen0⟩ := List.mem_map.1 hmem
    rw [← hlen0, h2 row0 hrow0, hw]
  refine ⟨general, ?_⟩
  intro w h hw hh hsh hfuel
  obtain ⟨m0, s0, hm0, hs0, hst0, inv0, -, hc0, -⟩ := genStart_run (by omega : 2 ≤ w)
    (by omega : 2 ≤ h)
  obtain ⟨s, -, -, hgen⟩ := loopState_final hsh hm0 hs0 inv0 hst0 hc0 hfuel
  have hgen2 : generateRecursiveBacktracking sh fuel m0 = some s.maze := by
    simpa only [generated, hm0] using hgen
  obtain ⟨m1, hm1, hw1, hh1, hgrid1, -⟩ := Maze.create_spec (by omega : 0 ≤ w) (by omega : 0 ≤ h)
  rw [hm0] at hm1
  cases hm1
  obtain ⟨e1, e2, -, e4, -, e6⟩ := general m0 s.maze hgen2
  have hshape : m0.grid.length = m0.height.toNat ∧ ∀ row ∈ m0.grid, row.length = m0.width.toNat := by
    rw [hgrid1, hw1, hh1]
    refine ⟨List.length_replicate _ _, ?_⟩
    intro row hrow
    rw [List.eq_of_mem_replicate hrow, List.length_replicate]
  obtain ⟨e7, e8⟩ := e6 hshape
  refine ⟨m0, s.maze, hm0, hgen2, by simp [Maze.getDimensions, hw1, hh1],
    by simp [Maze.getDimensions, e1, e2, hw1, hh1], ?_, ?_⟩
  · rw [e7, e2, hh1]; omega
  · intro row hrow
    rw [e8 row hrow, e1, hw1]; omega

theorem dimensions_fixed_witness :
    ∃ m0, Maze.create 5 5 = some m0 ∧
      generateRecursiveBacktracking (fun _ => directions) 50 m0 = some finalGrid5 ∧
      (m0.grid.length = m0.height.toNat ∧ ∀ row ∈ m0.grid, row.length = m0.width.toNat) ∧
      finalGrid5.width = m0.width ∧ finalGrid5.height = m0.height ∧
      finalGrid5.getDimensions = m0.getDimensions ∧ m0.getDimensions = (5, 5) ∧
      finalGrid5.grid.length = m0.grid.length ∧
      finalGrid5.grid.map List.length = m0.grid.map List.length ∧
      (finalGrid5.grid.length = finalGrid5.height.toNat ∧
        ∀ row ∈ finalGrid5.grid, row.length = finalGrid5.width.toNat) ∧
      (∃ m1 m2, Maze.create 5 5 = some m1 ∧
        generateRecursiveBacktracking (fun _ => directions) 50 m1 = some m2 ∧
        m1.getDimensions = (5, 5) ∧ m2.getDimensions = (5, 5) ∧
        (m2.grid.length : Int) = 5 ∧ ∀ row ∈ m2.grid, (row.length : Int) = 5) := by
  have hgen : generateRecursiveBacktracking (fun _ => directions) 50
      (Maze.mk (List.replicate 5 "#####".toList) 5 5) = some finalGrid5 := by decide
  have hshape : (Maze.mk (List.replicate 5 "#####".toList) 5 5).grid.length =
      (Maze.mk (List.replicate 5 "#####".toList) 5 5).height.toNat ∧
      ∀ row ∈ (Maze.mk (List.replicate 5 "#####".toList) 5 5).grid,
        row.length = (Maze.mk (List.replicate 5 "#####".toList) 5 5).width.toNat := by
    decide
  have key := (dimensions_fixed (fun _ => directions) 50).1 _ _ hgen
  exact ⟨_, by decide, hgen, hshape, key.1, key.2.1, key.2.2.1, rfl, key.2.2.2.1,
    key.2.2.2.2.1, key.2.2.2.2.2 hshape,
    (dimensions_fixed (fun _ => directions) 50).2 5 5 (by decide) (by decide)
      (fun _ => List.Perm.refl _) (by decide)⟩

/-- C14, repeat generation: for every width and height of at least 3, a second
run of the generator on the maze returned by a completed first run leaves the
maze as it is after the statements before the loop, performs exactly one loop
iteration, which is not a carve step and pops `(1,1)`, ends with an empty stack
and returns the very same maze, for every sequence of shuffle outcomes of the
first and of the second run. -/
theorem repeat_generation (w h : Int) (hw : 3 ≤ w) (hh : 3 ≤ h)
    (sh : Nat → List Coord) (hsh : ∀ i, (sh i).Perm directions)
    (fuel : Nat) (hfuel : 2 * w.toNat * h.toNat ≤ fuel)
    (sh2 : Nat → List Coord) (hsh2 : ∀ i, (sh2 i).Perm directions) :
    ∃ m, generated sh fuel w h = some m ∧
      genStart m = some { maze := m, stack := [(1, 1)] } ∧
      isCarveStep (sh2 0) { maze := m, stack := [(1, 1)] } = false ∧
      poppedCoord (sh2 0) { maze := m, stack := [(1, 1)] } = some (1, 1) ∧
      loopState sh2 { maze := m, stack := [(1, 1)] } 1 = some { maze := m, stack := [] } ∧
      ∀ fuel2, 1 ≤ fuel2 → generateRecursiveBacktracking sh2 fuel2 m = some m := by
  obtain ⟨s, hgen, hemp, inv, hP⟩ := generated_explored (by omega : 2 ≤ w) (by omega : 2 ≤ h)
    hsh hfuel
  have hstart : genStart s.maze = some { maze := s.maze, stack := [(1, 1)] } := by
    simp [genStart, Maze.setCell_same inv.start]
  have hin := (inv.shaped 1 1).1 (by rw [inv.start]; rfl)
  have hd : ∀ d ∈ sh2 0, d ∈ directions := fun d hdm => (hsh2 0).mem_iff.1 hdm
  have hstep : loopStep (sh2 0) { maze := s.maze, stack := [(1, 1)] } =
      some { maze := s.maze, stack := [] } ∧
      isCarveStep (sh2 0) { maze := s.maze, stack := [(1, 1)] } = false := by
    rcases @loopStep_spec (GenState.mk s.maze [(1, 1)]) 1 1 [] (sh2 0)
        inv.shaped rfl ⟨hin.1, hin.2.1⟩ ⟨hin.2.2.1, hin.2.2.2⟩ hd with
      ⟨pre, dx, dy, post, m2, h1, _, h3, _, _, _⟩ | ⟨_, h2, h3⟩
    · exfalso
      have hmem : (dx, dy) ∈ directions := hd _ (by rw [h1]; simp)
      have h3b : s.maze.cell (1 + dx) (1 + dy) = some '#' := h3
      have := hP 1 1 inv.start (by decide) (by decide) (by rw [hemp]; simp) (dx, dy) hmem
        (by rw [h3b]; rfl)
      rw [h3b] at this
      exact absurd this (by decide)
    · exact ⟨h2, h3⟩
  have hone : loopState sh2 { maze := s.maze, stack := [(1, 1)] } 1 =
      some { maze := s.maze, stack := [] } := by
    simp only [loopState]
    exact hstep.1
  have hpop : poppedCoord (sh2 0) { maze := s.maze, stack := [(1, 1)] } = some (1, 1) := by
    rcases @loopStep_events (GenState.mk s.maze [(1, 1)]) 1 1 [] (sh2 0)
        inv.shaped rfl ⟨hin.1, hin.2.1⟩ ⟨hin.2.2.1, hin.2.2.2⟩ hd with
      ⟨dx, dy, m2, _, _, _, h4, _, _⟩ | ⟨_, _, h3⟩
    · rw [hstep.1] at h4
      cases h4
    · exact h3
  refine ⟨s.maze, hgen, hstart, hstep.2, hpop, hone, ?_⟩
  intro fuel2 hfuel2
  obtain ⟨k, rfl⟩ : ∃ k, fuel2 = 1 + k := ⟨fuel2 - 1, by omega⟩
  have := loopState_idle hone rfl k
  simp only [generateRecursiveBacktracking, hstart, this, if_true]

theorem repeat_generation_witness :
    generated (fun _ => directions) 50 5 5 = some finalGrid5 ∧
      genStart finalGrid5 = some { maze := finalGrid5, stack := [(1, 1)] } ∧
      isCarveStep [(2, 0), (0, 2), (-2, 0), (0, -2)] { maze := finalGrid5, stack := [(1, 1)] } =
        false ∧
      poppedCoord [(2, 0), (0, 2), (-2, 0), (0, -2)] { maze := finalGrid5, stack := [(1, 1)] } =
        some (1, 1) ∧
      loopState (fun _ => [(2, 0), (0, 2), (-2, 0), (0, -2)])
        { maze := finalGrid5, stack := [(1, 1)] } 1 = some { maze := finalGrid5, stack := [] } ∧
      generateRecursiveBacktracking (fun _ => [(2, 0), (0, 2), (-2, 0), (0, -2)]) 1 finalGrid5 =
        some finalGrid5 := by
  obtain ⟨m, hm, h1, h2, h3, h4, h5⟩ := repeat_generation 5 5 (by decide) (by decide)
    (fun _ => directions) (fun _ => List.Perm.refl _) 50 (by decide)
    (fun _ => [(2, 0), (0, 2), (-2, 0), (0, -2)])
    (fun _ => (by decide : List.Perm [((2 : Int), (0 : Int)), (0, 2), (-2, 0), (0, -2)] directions))
  have hfin : generated (fun _ => directions) 50 5 5 = some finalGrid5 := by decide
  rw [hfin] at hm
  cases hm
  exact ⟨hfin, h1, h2, h3, h4, h5 1 (le_refl _)⟩

/-- C16, push and pop once: for every width and height of at least 3 and every
sequence of shuffle outcomes, in a run from the all-wall grid no coordinate is
pushed in two different loop iterations, the start `(1,1)` (pushed before the
loop) is never pushed by the loop, no coordinate is popped in two different
iterations, and every iteration that runs (non-empty stack) has a number below
`2 * width * height`, so the loop runs at most twice the number of grid cells
iterations. -/
theorem push_pop_once (w h : Int) (hw : 3 ≤ w) (hh : 3 ≤ h)
    (sh : Nat → List Coord) (hsh : ∀ i, (sh i).Perm directions) :
    ∃ m0 s0, Maze.create w h = some m0 ∧ genStart m0 = some s0 ∧ s0.stack = [(1, 1)] ∧
      (∀ i j si sj p, loopState sh s0 i = some si → loopState sh s0 j = some sj →
        pushedCoord (sh i) si = some p → pushedCoord (sh j) sj = some p → i = j) ∧
      (∀ i si, loopState sh s0 i = some si → pushedCoord (sh i) si ≠ some (1, 1)) ∧
      (∀ i j si sj p, loopState sh s0 i = some si → loopState sh s0 j = some sj →
        poppedCoord (sh i) si = some p → poppedCoord (sh j) sj = some p → i = j) ∧
      (∀ n s, loopState sh s0 n = some s → s.stack ≠ [] → n < 2 * w.toNat * h.toNat) := by
  obtain ⟨m0, s0, hm0, hs0, hst0, inv0, -, hc0, -⟩ := genStart_run (by omega : 2 ≤ w)
    (by omega : 2 ≤ h)
  have push_lt : ∀ i j si sj p, i < j → loopState sh s0 i = some si →
      loopState sh s0 j = some sj → pushedCoord (sh i) si = some p →
      pushedCoord (sh j) sj = some p → False := by
    intro i j si sj p hij hsi hsj hpi hpj
    obtain ⟨-, s2, hs2, hdot⟩ := (loopState_events hsh inv0 hsi).1 p hpi
    obtain ⟨k, rfl⟩ : ∃ k, j = i + 1 + k := ⟨j - (i + 1), by omega⟩
    have hdotj := loopState_passage_mono k (i + 1) s2 sj hs2 hsj hdot
    have hwallj := ((loopState_events hsh inv0 hsj).1 p hpj).1
    rw [hdotj] at hwallj
    exact absurd hwallj (by decide)
  have pop_lt : ∀ i j si sj p, i < j → loopState sh s0 i = some si →
      loopState sh s0 j = some sj → poppedCoord (sh i) si = some p →
      poppedCoord (sh j) sj = some p → False := by
    intro i j si sj p hij hsi hsj hpi hpj
    obtain ⟨s, hs, -, -, hP⟩ := loopState_popped hsh inv0 hst0 j
    rw [hsj] at hs
    cases hs
    obtain ⟨below, hst⟩ := poppedCoord_top hpj
    exact (hP i hij si p hsi hpi).1 (by rw [hst]; exact List.mem_cons_self _ _)
  refine ⟨m0, s0, hm0, hs0, hst0, ?_, ?_, ?_, ?_⟩
  · intro i j si sj p hsi hsj hpi hpj
    rcases Nat.lt_trichotomy i j with hlt | heq | hgt
    · exact absurd (push_lt i j si sj p hlt hsi hsj hpi hpj) id
    · exact heq
    · exact absurd (push_lt j i sj si p hgt hsj hsi hpj hpi) id
  · intro i si hsi hpush
    have hwall := ((loopState_events hsh inv0 hsi).1 (1, 1) hpush).1
    have hstart := (loopState_lattice hsh inv0 hsi).start
    have hwall2 : si.maze.cell 1 1 = some '#' := hwall
    rw [hstart] at hwall2
    exact absurd hwall2 (by decide)
  · intro i j si sj p hsi hsj hpi hpj
    rcases Nat.lt_trichotomy i j with hlt | heq | hgt
    · exact absurd (pop_lt i j si sj p hlt hsi hsj hpi hpj) id
    · exact heq
    · exact absurd (pop_lt j i sj si p hgt hsj hsi hpj hpi) id
  · intro n s hs hne
    obtain ⟨s2, hs2, inv, hP, -⟩ := loopState_progress hsh inv0 hst0 hc0 n
    rw [hs] at hs2
    cases hs2
    rcases hP with h1 | h1
    · exact absurd h1 hne
    · have := s.maze.passageCount_le
      rw [inv.width_eq, inv.height_eq] at this
      have h2 : 2 * s.maze.passageCount ≤ 2 * w.toNat * h.toNat := by
        rw [Nat.mul_assoc]; omega
      omega

theorem push_pop_once_witness :
    pushedCoord directions startGrid5 = some (1, 3) ∧
      (∃ s1, loopState (fun _ => directions) startGrid5 1 = some s1 ∧
        pushedCoord directions s1 = some (3, 3)) ∧
      (∃ s3 s4, loopState (fun _ => directions) startGrid5 3 = some s3 ∧
        loopState (fun _ => directions) startGrid5 4 = some s4 ∧
        poppedCoord directions s3 = some (3, 1) ∧ poppedCoord directions s4 = some (3, 3) ∧
        s4.stack ≠ [] ∧ 4 < 2 * (5 : Int).toNat * (5 : Int).toNat) ∧
      (0 = 0 ∧ 3 = 3) := by
  obtain ⟨m0, s0, h1, h2, -, hpush, hstart, hpop, hbound⟩ := push_pop_once 5 5 (by decide)
    (by decide) (fun _ => directions) (fun _ => List.Perm.refl _)
  cases start5_eq h1 h2
  have hp0 : pushedCoord directions startGrid5 = some (1, 3) := by decide
  have e3 : ∃ s3, loopState (fun _ => directions) startGrid5 3 = some s3 ∧
      poppedCoord directions s3 = some (3, 1) := ⟨_, rfl, by decide⟩
  have e4 : ∃ s4, loopState (fun _ => directions) startGrid5 4 = some s4 ∧
      poppedCoord directions s4 = some (3, 3) ∧ s4.stack ≠ [] := ⟨_, rfl, by decide, by decide⟩
  obtain ⟨s3, hs3, hq3⟩ := e3
  obtain ⟨s4, hs4, hq4, hne4⟩ := e4
  exact ⟨hp0, ⟨_, rfl, by decide⟩,
    ⟨s3, s4, hs3, hs4, hq3, hq4, hne4, hbound 4 s4 hs4 hne4⟩,
    hpush 0 0 startGrid5 startGrid5 (1, 3) rfl rfl hp0 hp0,
    hpop 3 3 s3 s3 (3, 1) hs3 hs3 hq3 hq3⟩

/-! ## The renderer -/

theorem gridCell_gridSet {α : Type} {g g2 : List (List α)} {x y : Int} {c : α}
    (h : gridSet g x y c = some g2) (a b : Int) :
    gridCell g2 a b = if a = x ∧ b = y then some c else gridCell g a b := by
  unfold gridSet at h
  split at h
  next hxy =>
    split at h
    next row hrow =>
      split at h
      next hlt =>
        cases h
        unfold gridCell
        by_cases hab : 0 ≤ b ∧ 0 ≤ a
        · simp only [hab, and_self, if_true]
          by_cases hb : b = y
          · subst hb
            have hylt : b.toNat < g.length := by
              rcases Nat.lt_or_ge b.toNat g.length with h1 | h1
              · exact h1
              · rw [List.getElem?_eq_none h1] at hrow; cases hrow
            simp only [List.getElem?_set, hylt, if_true, hrow, true_and]
            by_cases ha : a = x
            · subst ha
              simp [List.getElem?_set, hlt]
            · have : ¬ x.toNat = a.toNat := by omega
              simp [List.getElem?_set, this, ha]
          · have : ¬ y.toNat = b.toNat := by omega
            simp [List.getElem?_set, this, hb]
        · have : ¬ (a = x ∧ b = y) := by
            rintro ⟨rfl, rfl⟩; exact hab hxy
          simp [hab, this]
      · cases h
    · cases h
  · cases h

theorem gridSet_isSome {α : Type} {g : List (List α)} {x y : Int} (c : α)
    (h : (gridCell g x y).isSome) : ∃ g2, gridSet g x y c = some g2 := by
  unfold gridCell at h
  unfold gridSet
  split at h
  next hxy =>
    simp only [hxy, and_self, if_true]
    split at h
    next row hrow =>
      have hlt : x.toNat < row.length := by
        rcases Nat.lt_or_ge x.toNat row.length with h1 | h1
        · exact h1
        · rw [List.getElem?_eq_none h1] at h; cases h
      simp [hlt]
    · cases h
  · cases h

theorem gridCell_replicate {α : Type} (c : α) {w h : Int} (hw : 0 ≤ w) (hh : 0 ≤ h)
    (x y : Int) :
    gridCell (List.replicate h.toNat (List.replicate w.toNat c)) x y =
      if 0 ≤ x ∧ x < w ∧ 0 ≤ y ∧ y < h then some c else none := by
  unfold gridCell
  by_cases hxy : 0 ≤ y ∧ 0 ≤ x
  · simp only [hxy, and_self, if_true]
    by_cases hy : y < h
    · have hy2 : y.toNat < h.toNat := by omega
      simp only [List.getElem?_replicate, hy2, if_true]
      by_cases hx : x < w
      · have hx2 : x.toNat < w.toNat := by omega
        simp [hx2, hx, hy, hxy]
      · have hx2 : ¬ x.toNat < w.toNat := by omega
        simp [hx2, hx]
    · have hy2 : ¬ y.toNat < h.toNat := by omega
      simp [List.getElem?_replicate, hy2, hy]
  · have : ¬ (0 ≤ x ∧ x < w ∧ 0 ≤ y ∧ y < h) := fun hc => hxy ⟨hc.2.2.1, hc.1⟩
    simp [hxy, this]

/-- The constructor on non-negative sizes whose window sizes fit in `int` gives
a renderer with the class invariant, every cell `WALL` in the wall colour. -/
theorem MazeRenderer.create_renderer_spec {w h : Int} (hw : 0 ≤ w) (hh : 0 ≤ h) (cSize : Int)
    (hwc : inIntRange (w * cSize)) (hhc : inIntRange (h * cSize)) :
    ∃ r, MazeRenderer.create w h cSize = some r ∧ r.mazeWidth = w ∧ r.mazeHeight = h ∧
      r.wallColor = Color.mk 40 40 40 255 ∧ r.pathColor = Color.mk 240 240 240 255 ∧
      r.Shaped ∧ ∀ x y, gridCell r.cellStates x y =
        if 0 ≤ x ∧ x < w ∧ 0 ≤ y ∧ y < h then some (CellState.mk CellType.WALL r.wallColor)
        else none := by
  unfold MazeRenderer.create
  rw [if_pos ⟨hwc, hhc⟩, if_pos ⟨hw, hh⟩]
  refine ⟨_, rfl, rfl, rfl, rfl, rfl, ?_, ?_⟩
  · intro x y
    simp only [gridCell_replicate _ hw hh]
    split
    next hc => simpa using hc
    next hc => simpa using hc
  · intro x y
    simp only [gridCell_replicate _ hw hh]

theorem castInt_le (n : Nat) : castInt n ≤ (n : Int) := by
  unfold castInt; omega

theorem castInt_of_lt {n : Nat} (h : n < 2147483648) : castInt n = (n : Int) := by
  unfold castInt; omega

/-- The effect of `setCellState` on a renderer with the class invariant. -/
theorem MazeRenderer.setCellState_spec {r : MazeRenderer} (hs : r.Shaped) (x y : Int)
    (t : CellType) :
    ∃ r2, r.setCellState x y t = some r2 ∧ r2.sameSettings r ∧ r2.Shaped ∧
      ∀ a b, gridCell r2.cellStates a b =
        if (a = x ∧ b = y) ∧ (0 ≤ x ∧ x < r.mazeWidth ∧ 0 ≤ y ∧ y < r.mazeHeight)
        then some (CellState.mk t (r.getColorForType t)) else gridCell r.cellStates a b := by
  unfold MazeRenderer.setCellState
  by_cases hin : x ≥ 0 ∧ x < r.mazeWidth ∧ y ≥ 0 ∧ y < r.mazeHeight
  · have hin2 : 0 ≤ x ∧ x < r.mazeWidth ∧ 0 ≤ y ∧ y < r.mazeHeight := hin
    obtain ⟨cs, hcs⟩ := gridSet_isSome (CellState.mk t (r.getColorForType t)) ((hs x y).2 hin2)
    have hcell := gridCell_gridSet hcs
    refine ⟨{ r with cellStates := cs }, by simp only [hin, and_self, if_true, hcs], rfl, ?_, ?_⟩
    · intro a b
      show (gridCell cs a b).isSome ↔ _
      rw [hcell]
      split
      next hab =>
        obtain ⟨rfl, rfl⟩ := hab
        simpa using hin2
      · exact hs a b
    · intro a b
      show gridCell cs a b = _
      rw [hcell]
      by_cases hab : a = x ∧ b = y
      · simp [hab, hin2]
      · simp [hab]
  · have hin2 : ¬ (0 ≤ x ∧ x < r.mazeWidth ∧ 0 ≤ y ∧ y < r.mazeHeight) := hin
    refine ⟨r, by rw [if_neg hin], rfl, hs, ?_⟩
    intro a b
    simp [hin2]

theorem MazeRenderer.sameSettings.trans {r3 r2 r : MazeRenderer} (h2 : r3.sameSettings r2)
    (h1 : r2.sameSettings r) : r3.sameSettings r := by
  unfold MazeRenderer.sameSettings at *
  rw [h2, h1]

theorem MazeRenderer.sameSettings.fields {r2 r : MazeRenderer} (h : r2.sameSettings r) :
    r2.mazeWidth = r.mazeWidth ∧ r2.mazeHeight = r.mazeHeight ∧
      r2.wallColor = r.wallColor ∧ r2.pathColor = r.pathColor ∧
      ∀ c, r2.stateFor c = r.stateFor c := by
  unfold MazeRenderer.sameSettings at h
  refine ⟨by rw [h], by rw [h], by rw [h], by rw [h], ?_⟩
  intro c
  unfold MazeRenderer.stateFor
  rw [h]

/-- The effect of `updateCell` on a renderer with the class invariant. -/
theorem MazeRenderer.updateCell_spec {r : MazeRenderer} (hs : r.Shaped) (x y : Int)
    (c : Char) :
    ∃ r2, r.updateCell x y c = some r2 ∧ r2.sameSettings r ∧ r2.Shaped ∧
      ∀ a b, gridCell r2.cellStates a b =
        if (a = x ∧ b = y) ∧ (0 ≤ x ∧ x < r.mazeWidth ∧ 0 ≤ y ∧ y < r.mazeHeight)
        then some (r.stateFor c) else gridCell r.cellStates a b := by
  unfold MazeRenderer.updateCell
  by_cases hin : x ≥ 0 ∧ x < r.mazeWidth ∧ y ≥ 0 ∧ y < r.mazeHeight
  · rw [if_pos hin]
    obtain ⟨r2, h1, h2, h3, h4⟩ := MazeRenderer.setCellState_spec hs x y
      (if c == '#' then CellType.WALL else CellType.PATH)
    refine ⟨r2, h1, h2, h3, ?_⟩
    intro a b
    rw [h4]
    have : CellState.mk (if c == '#' then CellType.WALL else CellType.PATH)
        (r.getColorForType (if c == '#' then CellType.WALL else CellType.PATH)) =
        r.stateFor c := by
      unfold MazeRenderer.stateFor
      by_cases hc : c = '#'
      · simp [hc, MazeRenderer.getColorForType]
      · simp [hc, MazeRenderer.getColorForType]
    rw [this]
  · have hin2 : ¬ (0 ≤ x ∧ x < r.mazeWidth ∧ 0 ≤ y ∧ y < r.mazeHeight) := hin
    rw [if_neg hin]
    refine ⟨r, rfl, rfl, hs, ?_⟩
    intro a b
    simp [hin2]

theorem MazeRenderer.overlayCell_congr {r1 r : MazeRenderer}
    (h : ∀ c, r1.stateFor c = r.stateFor c) (o : Option Char) (old : Option CellState) :
    r1.overlayCell o old = r.overlayCell o old := by
  cases o with
  | none => rfl
  | some c => simp [MazeRenderer.overlayCell, h]

/-- The inner loop of `updateMaze` on a renderer with the class invariant, with
`x0` characters of the row consumed: it succeeds and rewrites, in row `y`, the
cells from column `x0` up to `static_cast<int>(size)` that lie inside the
renderer. -/
theorem updateRowFrom_spec (y : Int) (size : Nat) :
    ∀ (cs : List Char) (r : MazeRenderer) (x0 : Int), r.Shaped →
      (size : Int) = x0 + (cs.length : Int) →
      ∃ r2, updateRowFrom r y size x0 cs = some r2 ∧ r2.sameSettings r ∧ r2.Shaped ∧
        ∀ a b, gridCell r2.cellStates a b =
          if b = y ∧ (0 ≤ a ∧ a < r.mazeWidth ∧ 0 ≤ y ∧ y < r.mazeHeight) ∧
            (x0 ≤ a ∧ a < castInt size)
          then r.overlayCell cs[(a - x0).toNat]? (gridCell r.cellStates a b)
          else gridCell r.cellStates a b := by
  have hcast := castInt_le size
  intro cs
  induction cs with
  | nil =>
    intro r x0 hs hsize
    have hx0 : (size : Int) = x0 := by simpa using hsize
    have hno : ¬ (x0 < r.mazeWidth ∧ x0 < castInt size) := by
      rintro ⟨-, h2⟩
      omega
    refine ⟨r, by simp only [updateRowFrom]; rw [if_neg hno], rfl, hs, ?_⟩
    intro a b
    split <;> rfl
  | cons c rest ih =>
    intro r x0 hs hsize
    have hsize2 : (size : Int) = x0 + 1 + (rest.length : Int) := by
      rw [hsize, List.length_cons]; push_cast; omega
    by_cases hx : x0 < r.mazeWidth ∧ x0 < castInt size
    · obtain ⟨r1, h1, hset1, hs1, hcell1⟩ := MazeRenderer.updateCell_spec hs x0 y c
      obtain ⟨r2, h2, hset2, hs2, hcell2⟩ := ih r1 (x0 + 1) hs1 hsize2
      obtain ⟨hw1, hh1, -, -, hstate1⟩ := hset1.fields
      refine ⟨r2, ?_, hset2.trans hset1, hs2, ?_⟩
      · simp only [updateRowFrom]
        rw [if_pos hx, h1]
        exact h2
      intro a b
      rw [hcell2, hcell1, hw1, hh1]
      by_cases hb : b = y ∧ (0 ≤ a ∧ a < r.mazeWidth ∧ 0 ≤ y ∧ y < r.mazeHeight)
      · rcases lt_trichotomy a x0 with hlt | heq | hgt
        · have e1 : ¬ (x0 + 1 ≤ a ∧ a < castInt size) := by omega
          have e2 : ¬ (x0 ≤ a ∧ a < castInt size) := by omega
          have e3 : ¬ (a = x0) := by omega
          simp [e1, e2, e3]
        · subst heq
          have e1 : ¬ (a + 1 ≤ a ∧ a < castInt size) := by omega
          have e2 : a ≤ a ∧ a < castInt size := ⟨le_refl _, hx.2⟩
          simp [hb, e1, e2, MazeRenderer.overlayCell]
        · have e3 : ¬ (a = x0) := by omega
          by_cases hlt : a < castInt size
          · have e1 : x0 + 1 ≤ a ∧ a < castInt size := ⟨by omega, hlt⟩
            have e2 : x0 ≤ a ∧ a < castInt size := ⟨by omega, hlt⟩
            have e4 : (a - x0).toNat = (a - (x0 + 1)).toNat + 1 := by omega
            simp only [hb, e1, e2, e3, and_self, if_true, true_and, false_and, if_false, e4,
              List.getElem?_cons_succ]
            exact MazeRenderer.overlayCell_congr hstate1 _ _
          · have e1 : ¬ (x0 + 1 ≤ a ∧ a < castInt size) := fun h3 => hlt h3.2
            have e2 : ¬ (x0 ≤ a ∧ a < castInt size) := fun h3 => hlt h3.2
            simp [e1, e2, e3]
      · have e1 : ¬ ((a = x0 ∧ b = y) ∧ (0 ≤ x0 ∧ x0 < r.mazeWidth ∧ 0 ≤ y ∧ y < r.mazeHeight)) := by
          rintro ⟨⟨rfl, rfl⟩, h3⟩
          exact hb ⟨rfl, h3⟩
        have e2 : ¬ (b = y ∧ (0 ≤ a ∧ a < r.mazeWidth ∧ 0 ≤ y ∧ y < r.mazeHeight) ∧
            (x0 + 1 ≤ a ∧ a < castInt size)) := fun h3 => hb ⟨h3.1, h3.2.1⟩
        have e3 : ¬ (b = y ∧ (0 ≤ a ∧ a < r.mazeWidth ∧ 0 ≤ y ∧ y < r.mazeHeight) ∧
            (x0 ≤ a ∧ a < castInt size)) := fun h3 => hb ⟨h3.1, h3.2.1⟩
        rw [if_neg e2, if_neg e1, if_neg e3]
    · refine ⟨r, by simp only [updateRowFrom]; rw [if_neg hx], rfl, hs, ?_⟩
      intro a b
      have e1 : ¬ (b = y ∧ (0 ≤ a ∧ a < r.mazeWidth ∧ 0 ≤ y ∧ y < r.mazeHeight) ∧
          (x0 ≤ a ∧ a < castInt size)) := by
        rintro ⟨-, h3, h4⟩
        exact hx ⟨by omega, by omega⟩
      rw [if_neg e1]

/-- The outer loop of `updateMaze` on a renderer with the class invariant, with
`y0` rows consumed: it succeeds and rewrites the cells of the rows from `y0` up
to `static_cast<int>(size)` that lie inside the renderer and, in their row,
below `static_cast<int>` of the row's size. -/
theorem updateRowsFrom_spec (size : Nat) :
    ∀ (rows : List (List Char)) (r : MazeRenderer) (y0 : Int), r.Shaped →
      (size : Int) = y0 + (rows.length : Int) →
      ∃ r2, updateRowsFrom r size y0 rows = some r2 ∧ r2.sameSettings r ∧ r2.Shaped ∧
        ∀ a b, gridCell r2.cellStates a b =
          if (0 ≤ a ∧ a < r.mazeWidth ∧ 0 ≤ b ∧ b < r.mazeHeight) ∧
            (y0 ≤ b ∧ b < castInt size)
          then r.overlayCell
            (match rows[(b - y0).toNat]? with
             | some row => if a < castInt row.length then row[a.toNat]? else none
             | none => none)
            (gridCell r.cellStates a b)
          else gridCell r.cellStates a b := by
  have hcast := castInt_le size
  intro rows
  induction rows with
  | nil =>
    intro r y0 hs hsize
    have hy0 : (size : Int) = y0 := by simpa using hsize
    have hno : ¬ (y0 < r.mazeHeight ∧ y0 < castInt size) := by
      rintro ⟨-, h2⟩
      omega
    refine ⟨r, by simp only [updateRowsFrom]; rw [if_neg hno], rfl, hs, ?_⟩
    intro a b
    split <;> rfl
  | cons row rest ih =>
    intro r y0 hs hsize
    have hsize2 : (size : Int) = y0 + 1 + (rest.length : Int) := by
      rw [hsize, List.length_cons]; push_cast; omega
    by_cases hy : y0 < r.mazeHeight ∧ y0 < castInt size
    · obtain ⟨r1, h1, hset1, hs1, hcell1⟩ := updateRowFrom_spec y0 row.length row r 0 hs
        (by simp)
      obtain ⟨r2, h2, hset2, hs2, hcell2⟩ := ih r1 (y0 + 1) hs1 hsize2
      obtain ⟨hw1, hh1, -, -, hstate1⟩ := hset1.fields
      refine ⟨r2, ?_, hset2.trans hset1, hs2, ?_⟩
      · simp only [updateRowsFrom]
        rw [if_pos hy, h1]
        exact h2
      intro a b
      rw [hcell2, hcell1, hw1, hh1]
      by_cases hd : 0 ≤ a ∧ a < r.mazeWidth ∧ 0 ≤ b ∧ b < r.mazeHeight
      · rcases lt_trichotomy b y0 with hlt | heq | hgt
        · have e1 : ¬ (y0 + 1 ≤ b ∧ b < castInt size) := by omega
          have e2 : ¬ (y0 ≤ b ∧ b < castInt size) := by omega
          have e3 : ¬ (b = y0) := by omega
          simp [e1, e2, e3]
        · subst heq
          have e1 : ¬ (b + 1 ≤ b ∧ b < castInt size) := by omega
          have e2 : b ≤ b ∧ b < castInt size := ⟨le_refl _, hy.2⟩
          have e5 : (a - 0).toNat = a.toNat := by simp
          by_cases ha : a < castInt row.length
          · simp [hd, e1, e2, e5, ha]
          · simp [hd, e1, e2, ha, MazeRenderer.overlayCell]
        · have e3 : ¬ (b = y0) := by omega
          by_cases hlt : b < castInt size
          · have e1 : y0 + 1 ≤ b ∧ b < castInt size := ⟨by omega, hlt⟩
            have e2 : y0 ≤ b ∧ b < castInt size := ⟨by omega, hlt⟩
            have e4 : (b - y0).toNat = (b - (y0 + 1)).toNat + 1 := by omega
            simp only [hd, e1, e2, e3, and_self, if_true, true_and, false_and, if_false, e4,
              List.getElem?_cons_succ]
            exact MazeRenderer.overlayCell_congr hstate1 _ _
          · have e1 : ¬ (y0 + 1 ≤ b ∧ b < castInt size) := fun h3 => hlt h3.2
            have e2 : ¬ (y0 ≤ b ∧ b < castInt size) := fun h3 => hlt h3.2
            simp [e1, e2, e3]
      · have e1 : ¬ ((0 ≤ a ∧ a < r.mazeWidth ∧ 0 ≤ b ∧ b < r.mazeHeight) ∧
            (y0 + 1 ≤ b ∧ b < castInt size)) := fun h3 => hd h3.1
        have e2 : ¬ ((0 ≤ a ∧ a < r.mazeWidth ∧ 0 ≤ b ∧ b < r.mazeHeight) ∧
            (y0 ≤ b ∧ b < castInt size)) := fun h3 => hd h3.1
        have e3 : ¬ (b = y0 ∧ (0 ≤ a ∧ a < r.mazeWidth ∧ 0 ≤ y0 ∧ y0 < r.mazeHeight) ∧
            (0 ≤ a ∧ a < castInt row.length)) := by
          rintro ⟨rfl, h3, -⟩
          exact hd h3
        rw [if_neg e1, if_neg e3, if_neg e2]
    · refine ⟨r, by simp only [updateRowsFrom]; rw [if_neg hy], rfl, hs, ?_⟩
      intro a b
      have e1 : ¬ ((0 ≤ a ∧ a < r.mazeWidth ∧ 0 ≤ b ∧ b < r.mazeHeight) ∧
          (y0 ≤ b ∧ b < castInt size)) := by
        rintro ⟨h3, h4⟩
        exact hy ⟨by omega, by omega⟩
      rw [if_neg e1]

/-- What `updateMaze` does on a renderer with the class invariant, for any
grid: it returns, keeps the settings, and rewrites exactly the cells inside the
renderer at which its loops reach a character of the grid. -/
theorem updateMaze_cells (r : MazeRenderer) (hs : r.Shaped) (grid : List (List Char)) :
    ∃ r2, r.updateMaze grid = some r2 ∧ r2.sameSettings r ∧ r2.Shaped ∧
      ∀ x y : Int, gridCell r2.cellStates x y =
        if 0 ≤ x ∧ x < r.mazeWidth ∧ 0 ≤ y ∧ y < r.mazeHeight then
          r.overlayCell (castGridCell grid x y) (gridCell r.cellStates x y)
        else gridCell r.cellStates x y := by
  obtain ⟨r2, h1, hset, hs2, hcell⟩ := updateRowsFrom_spec grid.length grid r 0 hs (by simp)
  refine ⟨r2, h1, hset, hs2, ?_⟩
  intro x y
  rw [hcell]
  by_cases hd : 0 ≤ x ∧ x < r.mazeWidth ∧ 0 ≤ y ∧ y < r.mazeHeight
  · have e2 : (y - 0).toNat = y.toNat := by simp
    rw [if_pos hd, e2]
    unfold castGridCell
    by_cases hy : y < castInt grid.length
    · rw [if_pos ⟨hd, hd.2.2.1, hy⟩, if_pos ⟨hd.2.2.1, hy⟩]
      cases grid[y.toNat]? with
      | none => rfl
      | some row =>
        by_cases hx : x < castInt row.length
        · simp [hx, hd.1]
        · simp [hx]
    · rw [if_neg (fun h3 => hy h3.2.2), if_neg (fun h3 => hy h3.2)]
      rfl
  · rw [if_neg (fun h3 => hd h3.1), if_neg hd]

/-- On a grid with fewer than 2^31 rows, each of fewer than 2^31 characters,
the casts change nothing: the loops reach `grid[y][x]` wherever it exists. -/
theorem castGridCell_eq {grid : List (List Char)}
    (hrows : grid.length < 2147483648) (hcols : ∀ row ∈ grid, row.length < 2147483648)
    {x y : Int} (hx : 0 ≤ x) (hy : 0 ≤ y) : castGridCell grid x y = gridCell grid x y := by
  unfold castGridCell gridCell
  rw [castInt_of_lt hrows, if_pos (show 0 ≤ y ∧ 0 ≤ x from ⟨hy, hx⟩)]
  by_cases hlt : y < (grid.length : Int)
  · rw [if_pos (show 0 ≤ y ∧ y < (grid.length : Int) from ⟨hy, hlt⟩)]
    cases hg : grid[y.toNat]? with
    | none => rfl
    | some row =>
      have hmem : row ∈ grid := List.getElem?_mem hg
      simp only [castInt_of_lt (hcols row hmem)]
      by_cases hxl : x < (row.length : Int)
      · rw [if_pos (show 0 ≤ x ∧ x < (row.length : Int) from ⟨hx, hxl⟩)]
      · rw [if_neg (fun h3 : 0 ≤ x ∧ x < (row.length : Int) => hxl h3.2)]
        exact (List.getElem?_eq_none (by omega)).symm
  · rw [if_neg (fun h3 : 0 ≤ y ∧ y < (grid.length : Int) => hlt h3.2)]
    have hnone : grid[y.toNat]? = none := List.getElem?_eq_none (by omega)
    rw [hnone]

/-- A grid of one row whose size casts to a non-positive `int` is not rendered
at all: the inner loop of `updateMaze` never runs. -/
theorem updateMaze_row_unseen (r : MazeRenderer) (hs : r.Shaped) (row : List Char)
    (hneg : castInt row.length ≤ 0) :
    ∃ r2, r.updateMaze [row] = some r2 ∧
      ∀ x y : Int, gridCell r2.cellStates x y = gridCell r.cellStates x y := by
  obtain ⟨r2, h1, -, -, hcell⟩ := updateMaze_cells r hs [row]
  refine ⟨r2, h1, ?_⟩
  intro x y
  rw [hcell]
  by_cases hd : 0 ≤ x ∧ x < r.mazeWidth ∧ 0 ≤ y ∧ y < r.mazeHeight
  · have hseen : castGridCell [row] x y = none := by
      unfold castGridCell
      split
      next =>
        cases hg : ([row] : List (List Char))[y.toNat]? with
        | none => rfl
        | some row2 =>
          have hmem : row2 ∈ [row] := List.getElem?_mem hg
          rw [List.mem_singleton] at hmem
          subst hmem
          have hx := hd.1
          exact if_neg (fun h3 => by omega)
      next => rfl
    rw [if_pos hd, hseen]
    rfl
  · rw [if_neg hd]

/-- The character at `(0, 0)` of a grid of one row. -/
theorem gridCell_single_row (row : List Char) : gridCell [row] 0 0 = row[0]? := by
  unfold gridCell
  simp

/-- C18 as stated fails for a grid row of 2^31 characters: on the `1 × 1`
renderer, cell `(0,0)` lies inside the renderer and inside the grid, whose
character there is `'.'`, but `static_cast<int>(grid[0].size())` is negative,
the inner loop does not run, and the cell keeps type `WALL` and the wall colour
instead of getting `PATH` and the path colour. -/
theorem updateMaze_long_row_not_rendered :
    ∃ r r2, MazeRenderer.create 1 1 20 = some r ∧ r.Shaped ∧
      ((0 : Int) ≤ 0 ∧ (0 : Int) < r.mazeWidth ∧ (0 : Int) ≤ 0 ∧ (0 : Int) < r.mazeHeight) ∧
      gridCell [List.replicate 2147483648 '.'] 0 0 = some '.' ∧
      castInt (List.replicate 2147483648 '.').length = -2147483648 ∧
      r.updateMaze [List.replicate 2147483648 '.'] = some r2 ∧
      gridCell r2.cellStates 0 0 = some (CellState.mk CellType.WALL r.wallColor) ∧
      gridCell r2.cellStates 0 0 ≠ some (CellState.mk CellType.PATH r.pathColor) := by
  obtain ⟨r, hr, hw, hh, hwc, hpc, hsh, hinit⟩ := MazeRenderer.create_renderer_spec
    (by decide : (0 : Int) ≤ 1) (by decide : (0 : Int) ≤ 1) 20 (by decide) (by decide)
  have hcast : castInt 2147483648 = -2147483648 := by decide
  have hlen : castInt (List.replicate 2147483648 '.').length = -2147483648 := by
    rw [List.length_replicate]
    exact hcast
  obtain ⟨r2, h1, hcell⟩ := updateMaze_row_unseen r hsh (List.replicate 2147483648 '.')
    (by rw [hlen]; decide)
  have hcell0 : gridCell r2.cellStates 0 0 = some (CellState.mk CellType.WALL r.wallColor) := by
    rw [hcell, hinit, if_pos (by decide)]
  have hgrid : gridCell [List.replicate 2147483648 '.'] 0 0 = some '.' := by
    rw [gridCell_single_row, List.getElem?_replicate, if_pos (by decide)]
  refine ⟨r, r2, hr, hsh, by rw [hw, hh]; decide, hgrid, hlen, h1, hcell0, ?_⟩
  rw [hcell0, hwc, hpc]
  decide

/-- C18 amended: on a renderer whose `cellStates` has the shape
`mazeWidth × mazeHeight`, `updateMaze(grid)` makes no access outside
`cellStates` or the grid (it returns) and changes neither the dimensions nor
the colours; afterwards every cell `(x, y)` inside the renderer's dimensions
with `y < static_cast<int>(grid.size())` and `x < static_cast<int>(grid[y].size())`
has type `WALL` and the wall colour if `grid[y][x]` is `'#'`, type `PATH` and
the path colour for any other character, and every other cell is what it was
before; on a grid of fewer than 2^31 rows, each of fewer than 2^31 characters,
these are all the cells inside the renderer's dimensions that lie inside the
grid. -/
theorem updateMaze_spec (r : MazeRenderer) (hs : r.Shaped) (grid : List (List Char)) :
    ∃ r2, r.updateMaze grid = some r2 ∧ r2.Shaped ∧
      r2 = { r with cellStates := r2.cellStates } ∧
      r2.mazeWidth = r.mazeWidth ∧ r2.mazeHeight = r.mazeHeight ∧
      r2.wallColor = r.wallColor ∧ r2.pathColor = r.pathColor ∧
      (∀ x y : Int, gridCell r2.cellStates x y =
        if 0 ≤ x ∧ x < r.mazeWidth ∧ 0 ≤ y ∧ y < r.mazeHeight then
          match castGridCell grid x y with
          | some c => some { type := if c = '#' then CellType.WALL else CellType.PATH,
                             color := if c = '#' then r.wallColor else r.pathColor }
          | none => gridCell r.cellStates x y
        else gridCell r.cellStates x y) ∧
      ((grid.length < 2147483648 ∧ ∀ row ∈ grid, row.length < 2147483648) →
        ∀ x y : Int, gridCell r2.cellStates x y =
          if 0 ≤ x ∧ x < r.mazeWidth ∧ 0 ≤ y ∧ y < r.mazeHeight then
            match gridCell grid x y with
            | some c => some { type := if c = '#' then CellType.WALL else CellType.PATH,
                               color := if c = '#' then r.wallColor else r.pathColor }
            | none => gridCell r.cellStates x y
          else gridCell r.cellStates x y) := by
  obtain ⟨r2, h1, hset, hs2, hcell⟩ := updateMaze_cells r hs grid
  obtain ⟨hw, hh, hwc, hpc, -⟩ := hset.fields
  have hcast : ∀ x y : Int, gridCell r2.cellStates x y =
      if 0 ≤ x ∧ x < r.mazeWidth ∧ 0 ≤ y ∧ y < r.mazeHeight then
        match castGridCell grid x y with
        | some c => some { type := if c = '#' then CellType.WALL else CellType.PATH,
                           color := if c = '#' then r.wallColor else r.pathColor }
        | none => gridCell r.cellStates x y
      else gridCell r.cellStates x y := by
    intro x y
    rw [hcell]
    by_cases hd : 0 ≤ x ∧ x < r.mazeWidth ∧ 0 ≤ y ∧ y < r.mazeHeight
    · rw [if_pos hd, if_pos hd]
      cases castGridCell grid x y with
      | none => rfl
      | some c => rfl
    · rw [if_neg hd, if_neg hd]
  refine ⟨r2, h1, hs2, hset, hw, hh, hwc, hpc, hcast, ?_⟩
  rintro ⟨hrows, hcols⟩ x y
  rw [hcast]
  by_cases hd : 0 ≤ x ∧ x < r.mazeWidth ∧ 0 ≤ y ∧ y < r.mazeHeight
  · rw [if_pos hd, if_pos hd, castGridCell_eq hrows hcols hd.1 hd.2.2.1]
  · rw [if_neg hd, if_neg hd]

theorem updateMaze_spec_witness :
    ∃ r r2, MazeRenderer.create 3 2 20 = some r ∧ r.Shaped ∧
      (["#.x#".toList, ".".toList].length < 2147483648 ∧
        ∀ row ∈ ["#.x#".toList, ".".toList], row.length < 2147483648) ∧
      r.updateMaze ["#.x#".toList, ".".toList] = some r2 ∧
      gridCell r2.cellStates 0 0 = some (CellState.mk CellType.WALL r.wallColor) ∧
      gridCell r2.cellStates 1 0 = some (CellState.mk CellType.PATH r.pathColor) ∧
      gridCell r2.cellStates 2 0 = some (CellState.mk CellType.PATH r.pathColor) ∧
      gridCell r2.cellStates 2 1 = gridCell r.cellStates 2 1 ∧
      gridCell r2.cellStates 3 0 = gridCell r.cellStates 3 0 ∧
      r2.mazeWidth = 3 ∧ r2.mazeHeight = 2 := by
  obtain ⟨r, hr, hw, hh, -, -, hsh, -⟩ := MazeRenderer.create_renderer_spec
    (by decide : (0 : Int) ≤ 3) (by decide : (0 : Int) ≤ 2) 20 (by decide) (by decide)
  obtain ⟨r2, h1, -, -, hw2, hh2, -, -, -, hbounded⟩ := updateMaze_spec r hsh
    ["#.x#".toList, ".".toList]
  have hsmall : ["#.x#".toList, ".".toList].length < 2147483648 ∧
      ∀ row ∈ ["#.x#".toList, ".".toList], row.length < 2147483648 := by decide
  have hcell := hbounded hsmall
  have c00 := hcell 0 0
  have c10 := hcell 1 0
  have c20 := hcell 2 0
  have c21 := hcell 2 1
  have c30 := hcell 3 0
  rw [hw, hh] at c00 c10 c20 c21 c30
  rw [if_pos (by decide), show gridCell ["#.x#".toList, ".".toList] 0 0 = some '#' from rfl] at c00
  rw [if_pos (by decide), show gridCell ["#.x#".toList, ".".toList] 1 0 = some '.' from rfl] at c10
  rw [if_pos (by decide), show gridCell ["#.x#".toList, ".".toList] 2 0 = some 'x' from rfl] at c20
  rw [if_pos (by decide), show gridCell ["#.x#".toList, ".".toList] 2 1 = none from rfl] at c21
  rw [if_neg (by decide)] at c30
  exact ⟨r, r2, hr, hsh, hsmall, h1, c00, c10, c20, c21, c30, by rw [hw2, hw], by rw [hh2, hh]⟩

end MazeGen
